import Mathlib

/-!
# Verification of the `kth` selection library

This file gives a shallow embedding of the `kth` Go library (PDQSelect and
FloydRivest in-place selection) together with proofs of the specification
claims.  The three Go surface shapes per algorithm (`sort.Interface`,
ordered slices, custom less functions) are monomorphisations of a single
abstract algorithm (spec §1, §6); the embedding models that single
algorithm, over an arbitrary linear order for the lawful-comparator
entry points, and over an arbitrary boolean comparator where a claim
quantifies over comparators.

Sequences are modelled as `List α`; an element read is `nth` (`getD` with a
default), a swap of two positions is `swapL`.  Loops are modelled by
structural recursion on an explicit fuel argument so that every definition
is executable; entry points supply fuel that provably suffices.

The FloydRivest side is modelled in a bounds-checked result monad `Res`:
Go's runtime bounds check (panic) is modelled by the `oob` result, and the
floating-point range-narrowing estimates (`math.Log`/`Exp`/`Sqrt` on
IEEE doubles, not shallowly embeddable) are abstracted as a `narrow`
parameter whose raw estimates are clamped with `max`/`min` exactly as in
the source.
-/

set_option maxRecDepth 10000
set_option linter.unusedSectionVars false
set_option linter.unusedVariables false

/-- Result of running a bounds-checked, fuelled computation:
a value, an out-of-bounds access (Go would panic), or fuel exhaustion. -/
inductive Res (β : Type) where
  | ok : β → Res β
  | oob : Res β
  | nofuel : Res β
deriving DecidableEq

instance : Monad Res where
  pure := Res.ok
  bind := fun r f =>
    match r with
    | .ok x => f x
    | .oob => .oob
    | .nofuel => .nofuel

/-- Monotonicity hint produced by the pivot chooser (spec §3, §4.5). -/
inductive Hint where
  | inc : Hint
  | dec : Hint
  | unk : Hint
deriving DecidableEq

namespace Kth

variable {α : Type} [LinearOrder α] [Inhabited α]

/-- Read position `i` of the sequence (Go `data[i]` / `data.Less` operand). -/
def nth (l : List α) (i : Nat) : α := l.getD i default

/-- Swap positions `i` and `j` of the sequence (Go `data.Swap(i, j)`). -/
def swapL (l : List α) (i j : Nat) : List α :=
  (l.set i (nth l j)).set j (nth l i)

/-- The working range `[a, b)` of the sequence, as a list. -/
def rangeSlice (l : List α) (a b : Nat) : List α :=
  (l.drop a).take (b - a)

/-- Apply a list transformation to the working range `[a, b)` in place. -/
def sliceMap (f : List α → List α) (l : List α) (a b : Nat) : List α :=
  l.take a ++ f (rangeSlice l a b) ++ l.drop b

/-- The mathematical reference sort `T = sort(S)` of the spec (§8). -/
def sortL (l : List α) : List α := List.insertionSort (· ≤ ·) l

/-- Modelled from the spec: `insertionSort` (small-range sorter, §4.2 step 1)
is not under `src/`; it sorts the range `[a, b)` in place, modelled as
sorting the slice. -/
def insertionSort (l : List α) (a b : Nat) : List α :=
  sliceMap (List.insertionSort (· ≤ ·)) l a b

/-- Modelled from the spec: `reverseRange` (§4.2 step 5) is not under
`src/`; it reverses the range `[a, b)` in place. -/
def reverseRange (l : List α) (a b : Nat) : List α :=
  sliceMap List.reverse l a b

/-- Number of adjacent out-of-order pairs of a list (displaced positions). -/
def countDescents (s : List α) : Nat :=
  (s.zip s.tail).countP (fun p => decide (p.2 < p.1))

/-- Modelled from the spec: `partialInsertionSort` (§4.7) is not under
`src/`; it attempts an insertion sort of `[a, b)` but gives up beyond a
small displacement budget (5), returning `true` iff it finished sorting
the range.  Giving up is modelled as leaving the range unchanged. -/
def partialInsertionSort (l : List α) (a b : Nat) : List α × Bool :=
  if countDescents (rangeSlice l a b) ≤ 5 then (insertionSort l a b, true)
  else (l, false)

/-- Modelled from the spec: `breakPatterns` (§4.6) is not under `src/`; it
swaps the three widely-spaced index pairs `(a, a+len/4)`, `(mid, mid+len/4)`,
`(b-1, b-1-len/4)` with `mid = a + len/2`. -/
def breakPatterns (l : List α) (a b : Nat) : List α :=
  let len := b - a
  let m := a + len / 2
  swapL (swapL (swapL l a (a + len / 4)) m (m + len / 4)) (b - 1) (b - 1 - len / 4)

/-- Index of the median of the values at indices `i j k`, by three
compare-and-swaps on the index triple. -/
def medIdx3 (l : List α) (i j k : Nat) : Nat :=
  let p := if nth l j < nth l i then (j, i) else (i, j)
  let q := if nth l k < nth l p.2 then (k, p.2) else (p.2, k)
  let r := if nth l q.1 < nth l p.1 then (q.1, p.1) else (p.1, q.1)
  r.2

/-- Modelled from the spec: `choosePivot` (§4.5) is not under `src/`.
Samples `{a, a+len/2, b-1}`; for `len ≥ 128` each sample is replaced by the
median of itself and two neighbours at offset `±1` (`±len/8` for
`len ≥ 512`), with neighbour offsets clamped into `[a, b-1]`; the median of
the three samples is the pivot, and the hint reports whether the samples
were monotone (ties treated as in-order). -/
def choosePivot (l : List α) (a b : Nat) : Nat × Hint :=
  let len := b - a
  let m := a + len / 2
  let off := if len ≥ 512 then len / 8 else 1
  let adj := fun c => medIdx3 l (max a (c - off)) c (min (b - 1) (c + off))
  let p1 := if len ≥ 128 then adj a else a
  let p2 := if len ≥ 128 then adj m else m
  let p3 := if len ≥ 128 then adj (b - 1) else b - 1
  let piv := medIdx3 l p1 p2 p3
  let hint :=
    if ¬ nth l p2 < nth l p1 ∧ ¬ nth l p3 < nth l p2 then Hint.inc
    else if nth l p2 < nth l p1 ∧ nth l p3 < nth l p2 then Hint.dec
    else Hint.unk
  (piv, hint)

/-- Advance `i` while `i ≤ j` and `l[i] < pv` (partition forward scan,
spec §4.3 steps 3 and 5, guarded per §5's index-bounding requirement). -/
def scanLt (l : List α) (pv : α) : Nat → Nat → Nat → Nat
  | 0, i, _ => i
  | fuel + 1, i, j => if i ≤ j ∧ nth l i < pv then scanLt l pv fuel (i + 1) j else i

/-- Retreat `j` while `imin ≤ j` and `pv < l[j]` (partition backward scan). -/
def scanGt (l : List α) (pv : α) : Nat → Nat → Nat → Nat
  | 0, j, _ => j
  | fuel + 1, j, imin =>
    if imin ≤ j ∧ pv < nth l j then scanGt l pv fuel (j - 1) imin else j

/-- Advance `i` while `i ≤ j` and `¬(pv < l[i])` (equal-partition forward
scan, spec §4.4). -/
def scanLe (l : List α) (pv : α) : Nat → Nat → Nat → Nat
  | 0, i, _ => i
  | fuel + 1, i, j =>
    if i ≤ j ∧ ¬ pv < nth l i then scanLe l pv fuel (i + 1) j else i

/-- Modelled from the spec: the swap loop of `partition` (§4.3 step 5,
not under `src/`): while `i < j`, swap `i ↔ j`, advance both pointers,
then rescan. -/
def partLoop (pv : α) : Nat → List α → Nat → Nat → List α × Nat × Nat
  | 0, l, i, j => (l, i, j)
  | fuel + 1, l, i, j =>
    if i < j then
      let l₁ := swapL l i j
      let i₁ := scanLt l₁ pv (l₁.length + 2) (i + 1) (j - 1)
      let j₁ := scanGt l₁ pv (l₁.length + 2) (j - 1) i₁
      partLoop pv fuel l₁ i₁ j₁
    else (l, i, j)

/-- Modelled from the spec: `partition` (§4.3) is not under `src/`.
Swap the pivot to `a`, scan inwards from both ends, swap out-of-place
pairs, finally swap the pivot into position `i - 1`; returns
`(data', mid, alreadyPartitioned)`. -/
def partition (l : List α) (a b p : Nat) : List α × Nat × Bool :=
  let l₀ := swapL l p a
  let pv := nth l₀ a
  let i₀ := scanLt l₀ pv (l₀.length + 2) (a + 1) (b - 1)
  let j₀ := scanGt l₀ pv (l₀.length + 2) (b - 1) i₀
  let aP := decide (j₀ < i₀)
  let r := partLoop pv (l₀.length + 2) l₀ i₀ j₀
  (swapL r.1 a (r.2.1 - 1), r.2.1 - 1, aP)

/-- Modelled from the spec: the swap loop of `partitionEqual` (§4.4, not
under `src/`): advance `i` over items equal to the pivot, retreat `j` over
items greater, swap when the pointers have not crossed. -/
def partEqLoop (pv : α) : Nat → List α → Nat → Nat → List α × Nat
  | 0, l, i, _ => (l, i)
  | fuel + 1, l, i, j =>
    let i₁ := scanLe l pv (l.length + 2) i j
    let j₁ := scanGt l pv (l.length + 2) j i₁
    if i₁ < j₁ then partEqLoop pv fuel (swapL l i₁ j₁) (i₁ + 1) (j₁ - 1)
    else (l, i₁)

/-- Modelled from the spec: `partitionEqual` (§4.4) is not under `src/`.
Swap the pivot to `a`, then 3-way partition `[a, b)` into an equal prefix
and a strictly-greater suffix, returning `mid`. -/
def partitionEqual (l : List α) (a b p : Nat) : List α × Nat :=
  let l₀ := swapL l p a
  let pv := nth l₀ a
  partEqLoop pv (l₀.length + 2) l₀ (a + 1) (b - 1)

/-- Modelled from the spec: `siftDown` (§4.8, not under `src/`): standard
0-indexed binary max-heap sift-down over heap positions `[0, hi)`, stored
at sequence positions biased by `first`. -/
def siftDown : Nat → List α → Nat → Nat → Nat → List α
  | 0, l, _, _, _ => l
  | fuel + 1, l, root, hi, first =>
    let c0 := 2 * root + 1
    if c0 < hi then
      let c := if c0 + 1 < hi ∧ nth l (first + c0) < nth l (first + c0 + 1) then c0 + 1 else c0
      if nth l (first + root) < nth l (first + c) then
        siftDown fuel (swapL l (first + root) (first + c)) c hi first
      else l
    else l

/-- Build-heap loop of `heapSelect`: sift down nodes `i, i-1, …, 0`. -/
def heapify (l : List α) (hi first : Nat) : Nat → List α
  | 0 => siftDown (hi + 1) l 0 hi first
  | i + 1 => heapify (siftDown (hi + 1) l (i + 1) hi first) hi first i

/-- Scan loop of `heapSelect` over the remaining positions `[hi, n)`:
swap in any item smaller than the heap root and sift down. -/
def heapScan (n hi first : Nat) : Nat → List α → Nat → List α
  | 0, l, _ => l
  | fuel + 1, l, i =>
    if i < n then
      let j := first + i
      let l' :=
        if nth l j < nth l first then siftDown (hi + 1) (swapL l first j) 0 hi first
        else l
      heapScan n hi first fuel l' (i + 1)
    else l

/-- `heapSelect` from `src/unnamed/part_000`: build a max-heap of size
`k + 1` over the front of the range, scan the remaining items, then swap
the root with position `a + k`. -/
def heapSelect (l : List α) (a b k : Nat) : List α :=
  let n := b - a
  let hi := k + 1
  let l₁ := heapify l hi a (k / 2)
  let l₂ := heapScan n hi a (l.length + 2) l₁ hi
  swapL l₂ a (a + k)

/-- Extraction loop of a full heapsort of `[first, first+sz)`. -/
def heapExtract : Nat → List α → Nat → Nat → List α
  | 0, l, _, _ => l
  | fuel + 1, l, sz, first =>
    if 2 ≤ sz then
      heapExtract fuel (siftDown (sz + 1) (swapL l first (first + sz - 1)) 0 (sz - 1) first)
        (sz - 1) first
    else l

/-- Modelled from the spec: the `heapSort` fallback of `src/pdqselect.go`
(its body is not under `src/`): a standard in-place heapsort of `[a, b)`. -/
def heapSort (l : List α) (a b : Nat) : List α :=
  let n := b - a
  heapExtract (n + 2) (heapify l n a (n / 2)) n a

/-- Minimum-index scan of `[i, b)` (fast path of `Kth.pdqselect`). -/
def scanMinIdx (l : List α) (b : Nat) : Nat → Nat → Nat → Nat
  | 0, _, mn => mn
  | fuel + 1, i, mn =>
    if i < b then scanMinIdx l b fuel (i + 1) (if nth l i < nth l mn then i else mn)
    else mn

/-- Maximum-index scan of `[i, b)` (fast path of `Kth.pdqselect`). -/
def scanMaxIdx (l : List α) (b : Nat) : Nat → Nat → Nat → Nat
  | 0, _, mx => mx
  | fuel + 1, i, mx =>
    if i < b then scanMaxIdx l b fuel (i + 1) (if nth l mx < nth l i then i else mx)
    else mx

/-- The main loop of `pdqselect` from `src/unnamed/part_000` (lines
75–146): small ranges are insertion-sorted, `limit = 0` falls back to
`heapSelect` with the absolute target, imbalance breaks patterns and
decrements the limit, a decreasing hint reverses the range, a
sorted-looking range is probed, a duplicate run is handled by
`partitionEqual` with an early return when `k < mid`, and otherwise a
normal partition narrows the range to one side. -/
def pdqLoop : Nat → List α → Nat → Nat → Nat → Nat → Bool → Bool → List α
  | 0, l, _, _, _, _, _, _ => l
  | fuel + 1, l, a, b, k, limit, wasBalanced, wasPartitioned =>
    let length := b - a
    if length ≤ 12 then insertionSort l a b
    else if limit = 0 then heapSelect l a b k
    else
      let l₁ := if wasBalanced then l else breakPatterns l a b
      let limit₁ := if wasBalanced then limit else limit - 1
      let pc := choosePivot l₁ a b
      let l₂ := if pc.2 = Hint.dec then reverseRange l₁ a b else l₁
      let pivot := if pc.2 = Hint.dec then (b - 1) - (pc.1 - a) else pc.1
      let hint := if pc.2 = Hint.dec then Hint.inc else pc.2
      let pr :=
        if wasBalanced ∧ wasPartitioned ∧ hint = Hint.inc then partialInsertionSort l₂ a b
        else (l₂, false)
      if pr.2 then pr.1
      else
        let l₃ := pr.1
        if 0 < a ∧ ¬ nth l₃ (a - 1) < nth l₃ pivot then
          let pe := partitionEqual l₃ a b pivot
          if k < pe.2 then pe.1
          else pdqLoop fuel pe.1 pe.2 b k limit₁ wasBalanced wasPartitioned
        else
          let pt := partition l₃ a b pivot
          let mid := pt.2.1
          if k = mid then pt.1
          else
            let thr := length / 8
            if k < mid then pdqLoop fuel pt.1 a mid k limit₁ (decide (mid - a ≥ thr)) pt.2.2
            else pdqLoop fuel pt.1 (mid + 1) b k limit₁ (decide (b - mid ≥ thr)) pt.2.2

/-- `pdqselect` from `src/unnamed/part_000` (lines 48–147): the min/max
entry fast paths followed by the main loop. -/
def pdqselect (l : List α) (a b k limit : Nat) : List α :=
  if k = 0 then
    let mn := scanMinIdx l b (l.length + 2) (a + 1) a
    if mn ≠ a then swapL l mn a else l
  else if k = b - 1 then
    let mx := scanMaxIdx l b (l.length + 2) (a + 1) a
    if mx ≠ b - 1 then swapL l mx (b - 1) else l
  else pdqLoop (l.length + 2) l a b k limit true true

/-- `PDQSelect` from `src/unnamed/part_000` (lines 20–26): validate `k`,
then run the core with `a = 0`, `b = n`, target `k-1` and limit
`bits.Len(n)` (which is `Nat.size n`). -/
def PDQSelect (l : List α) (k : Int) : List α :=
  if k < 1 ∨ (l.length : Int) < k then l
  else pdqselect l 0 l.length (k - 1).toNat (Nat.size l.length)

/-! ## FloydRivest (`src/unnamed/part_001`, lines 296–567)

Modelled in the bounds-checked monad with `Int` indices, parameterised by
the comparator `less` (the `sort.Interface` shape; the ordered and
less-function shapes are the same algorithm).  The raw float narrowing
estimates are abstracted as `narrow`. -/

/-- Bounds-checked element read at an `Int` index. -/
def frGet (l : List α) (i : Int) : Res α :=
  if 0 ≤ i ∧ i < (l.length : Int) then .ok (nth l i.toNat) else .oob

/-- Bounds-checked swap at `Int` indices. -/
def frSwap (l : List α) (i j : Int) : Res (List α) :=
  if 0 ≤ i ∧ i < (l.length : Int) ∧ 0 ≤ j ∧ j < (l.length : Int) then
    .ok (swapL l i.toNat j.toNat)
  else .oob

/-- Forward scan of `floydRivest`: `for data.Less(i, pivot) { i++ }`
(unguarded in the source). -/
def frScanI (less : α → α → Bool) (l : List α) (pivot : Int) : Nat → Int → Res Int
  | 0, _ => .nofuel
  | fuel + 1, i => do
    let x ← frGet l i
    let pv ← frGet l pivot
    if less x pv then frScanI less l pivot fuel (i + 1) else pure i

/-- Backward scan of `floydRivest`: `for data.Less(pivot, j) { j-- }`
(unguarded in the source). -/
def frScanJ (less : α → α → Bool) (l : List α) (pivot : Int) : Nat → Int → Res Int
  | 0, _ => .nofuel
  | fuel + 1, j => do
    let pv ← frGet l pivot
    let x ← frGet l j
    if less pv x then frScanJ less l pivot fuel (j - 1) else pure j

/-- Main partitioning loop of `floydRivest`: while `i < j`, swap `i ↔ j`,
move both pointers, then run the two unguarded scans. -/
def frInner (less : α → α → Bool) (pivot : Int) : Nat → List α → Int → Int → Res (List α × Int)
  | 0, _, _, _ => .nofuel
  | fuel + 1, l, i, j =>
    if i < j then do
      let l₁ ← frSwap l i j
      let i₁ ← frScanI less l₁ pivot (l₁.length + 2) (i + 1)
      let j₁ ← frScanJ less l₁ pivot (l₁.length + 2) (j - 1)
      frInner less pivot fuel l₁ i₁ j₁
    else pure (l, j)

/-- One partitioning pass of `floydRivest` (src lines 356–406): move the
sample at `k` to `left`, orient the pivot so the larger boundary item is
the pivot, run the partitioning loop, then place the pivot; returns the
data and the final `j`. -/
def frPass (less : α → α → Bool) (l : List α) (left right k : Int) : Res (List α × Int) := do
  let l₁ ← frSwap l left k
  let vL ← frGet l₁ left
  let vR ← frGet l₁ right
  if less vL vR then do
    let l₂ ← frSwap l₁ left right
    let r ← frInner less left (l₂.length + 2) l₂ left right
    let l₄ ← frSwap r.1 left r.2
    pure (l₄, r.2)
  else do
    let r ← frInner less right (l₁.length + 2) l₁ left right
    let l₄ ← frSwap r.1 right (r.2 + 1)
    pure (l₄, r.2 + 1)

/-- `floydRivest` from `src/unnamed/part_001` (lines 319–423): while
`right > left`, optionally narrow the range recursively (size > 600,
estimates clamped by `max`/`min` as in the source), partition, and shrink
the interval around the reported `j`. -/
def floydRivest (less : α → α → Bool) (narrow : Int → Int → Int → Int × Int) :
    Nat → List α → Int → Int → Int → Res (List α)
  | 0, _, _, _, _ => .nofuel
  | fuel + 1, l, left, right, k =>
    if left < right then do
      let l₂ ←
        if 600 < right - left then
          let e := narrow left right k
          floydRivest less narrow fuel l (max left e.1) (min right e.2) k
        else pure l
      let pr ← frPass less l₂ left right k
      let left' := if pr.2 ≤ k then pr.2 + 1 else left
      let right' := if k ≤ pr.2 then pr.2 - 1 else right
      floydRivest less narrow fuel pr.1 left' right' k
    else pure l

/-- `FloydRivestFunc` from `src/unnamed/part_001` (lines 499–505):
validate `k`, then run the core on the closed interval `[0, n-1]` with
target `k - 1`. -/
def FloydRivestFunc (less : α → α → Bool) (narrow : Int → Int → Int → Int × Int)
    (l : List α) (k : Int) : Res (List α) :=
  if k < 1 ∨ (l.length : Int) < k then .ok l
  else floydRivest less narrow (l.length + 2) l 0 ((l.length : Int) - 1) (k - 1)

/-- `FloydRivest` from `src/unnamed/part_001` (lines 299–305): the
lawful-comparator shape, with `less` the strict order of the element
type. -/
def FloydRivest (narrow : Int → Int → Int → Int × Int) (l : List α) (k : Int) : Res (List α) :=
  FloydRivestFunc (fun x y => decide (x < y)) narrow l k

/-! ## Specification predicates -/

/-- Selection postcondition at 0-indexed target `t`: everything before `t`
is `≤ l[t]` and everything after is `≥ l[t]`. -/
def SelAt (l : List α) (t : Nat) : Prop :=
  (∀ i, i < t → nth l i ≤ nth l t) ∧ (∀ i, t < i → i < l.length → nth l t ≤ nth l i)

/-- Max-heap order on heap nodes `[0, hi)` stored at `first + ·`: every
edge from a child to a parent of index `≥ r` is nonincreasing. -/
def IsHeapFrom (l : List α) (hi first r : Nat) : Prop :=
  ∀ c, 1 ≤ c → c < hi → r ≤ (c - 1) / 2 →
    nth l (first + c) ≤ nth l (first + (c - 1) / 2)

/-- The range `[a, b)` of the sequence is sorted in nondecreasing order. -/
def SortedRange (l : List α) (a b : Nat) : Prop :=
  ∀ i j, a ≤ i → i ≤ j → j < b → nth l i ≤ nth l j

/-- Working-range invariant: every item left of `[a, b)` is `≤` every item
of `[a, b)`, every item of `[a, b)` is `≤` every item right of it, and the
two outside regions are mutually ordered. -/
def Out (l : List α) (a b : Nat) : Prop :=
  (∀ i j, i < a → a ≤ j → j < b → nth l i ≤ nth l j) ∧
  (∀ i j, a ≤ i → i < b → b ≤ j → j < l.length → nth l i ≤ nth l j) ∧
  (∀ i j, i < a → b ≤ j → j < l.length → nth l i ≤ nth l j)

/-- `l'` results from `l` by an operation confined to the range `[a, b)`:
same length, untouched outside, and the range contents permuted. -/
def RangeOp (a b : Nat) (l l' : List α) : Prop :=
  l'.length = l.length ∧ (∀ i, i < a ∨ b ≤ i → nth l' i = nth l i) ∧
  (rangeSlice l' a b).Perm (rangeSlice l a b)

/-- The item just before the working range is strictly below everything in
the range (holds right after `partitionEqual` advanced `a` to `mid`). -/
def Qprop (l : List α) (a b : Nat) : Prop :=
  0 < a ∧ ∀ j, a ≤ j → j < b → nth l (a - 1) < nth l j

/-- Numeric invariant of the PDQSelect limit counter: with `d = L0 - limit`
pattern-break decrements spent, the range length has shrunk by a factor of
at least `8^⌊d/2⌋` (one more factor of 8 while the last partition was
imbalanced, unless the duplicate fast path has just run, witnessed by
`q`).  This is what makes the `limit = 0` heap fallback unreachable. -/
def NumInv (n₀ L0 len limit : Nat) (wasBal : Bool) (q : Prop) : Prop :=
  limit ≤ L0 ∧
  (match wasBal with
   | true => 8 ^ ((L0 - limit) / 2) * len ≤ n₀
   | false =>
     8 ^ ((L0 - limit) / 2 + 1) * len ≤ n₀ ∨
       (q ∧ 8 ^ ((L0 - limit + 1) / 2) * len ≤ n₀))

/-- The strict-shrink-and-containment property of the clamped narrowing
estimates (spec §4.9a rationale); it is the float fact the termination of
the narrowing recursion rests on. -/
def narrowOk (narrow : Int → Int → Int → Int × Int) (n : Nat) : Prop :=
  ∀ L R k : Int, 0 ≤ L → L ≤ k → k ≤ R → R < (n : Int) → 600 < R - L →
    max L (narrow L R k).1 ≤ k ∧ k ≤ min R (narrow L R k).2 ∧
      min R (narrow L R k).2 - max L (narrow L R k).1 < R - L

end Kth

namespace Pdq

variable {α : Type} [LinearOrder α] [Inhabited α]

open Kth in
/-- The main loop of `pdqselect` from `src/pdqselect.go` (lines 51–120):
as `Kth.pdqLoop` but with no entry fast paths, a full `heapSort` fallback,
no early return after `partitionEqual` (the loop continues from
`a = mid`), and a three-way comparison of `k` against `mid`. -/
def pdqLoop : Nat → List α → Nat → Nat → Nat → Nat → Bool → Bool → List α
  | 0, l, _, _, _, _, _, _ => l
  | fuel + 1, l, a, b, k, limit, wasBalanced, wasPartitioned =>
    let length := b - a
    if length ≤ 12 then Kth.insertionSort l a b
    else if limit = 0 then Kth.heapSort l a b
    else
      let l₁ := if wasBalanced then l else Kth.breakPatterns l a b
      let limit₁ := if wasBalanced then limit else limit - 1
      let pc := Kth.choosePivot l₁ a b
      let l₂ := if pc.2 = Hint.dec then Kth.reverseRange l₁ a b else l₁
      let pivot := if pc.2 = Hint.dec then (b - 1) - (pc.1 - a) else pc.1
      let hint := if pc.2 = Hint.dec then Hint.inc else pc.2
      let pr :=
        if wasBalanced ∧ wasPartitioned ∧ hint = Hint.inc then Kth.partialInsertionSort l₂ a b
        else (l₂, false)
      if pr.2 then pr.1
      else
        let l₃ := pr.1
        if 0 < a ∧ ¬ nth l₃ (a - 1) < nth l₃ pivot then
          let pe := Kth.partitionEqual l₃ a b pivot
          pdqLoop fuel pe.1 pe.2 b k limit₁ wasBalanced wasPartitioned
        else
          let pt := Kth.partition l₃ a b pivot
          let mid := pt.2.1
          let thr := length / 8
          if k < mid then pdqLoop fuel pt.1 a mid k limit₁ (decide (mid - a ≥ thr)) pt.2.2
          else if mid < k then
            pdqLoop fuel pt.1 (mid + 1) b k limit₁ (decide (b - mid ≥ thr)) pt.2.2
          else pt.1

/-- `pdqselect` from `src/pdqselect.go` (lines 51–120): the bare loop. -/
def pdqselect (l : List α) (a b k limit : Nat) : List α :=
  pdqLoop (l.length + 2) l a b k limit true true

/-- `Select` from `src/pdqselect.go` (lines 23–29). -/
def Select (l : List α) (k : Int) : List α :=
  if k < 1 ∨ (l.length : Int) < k then l
  else pdqselect l 0 l.length (k - 1).toNat (Nat.size l.length)

end Pdq

/-! ## Basic lemmas about the data primitives -/

namespace Kth

variable {α : Type} [LinearOrder α] [Inhabited α]

theorem nth_eq_getElem? (l : List α) (i : Nat) : nth l i = l[i]?.getD default := by
  simp [nth, List.getD_eq_getElem?_getD]

theorem nth_of_lt {l : List α} {i : Nat} (h : i < l.length) : nth l i = l[i] := by
  simp [nth_eq_getElem?, List.getElem?_eq_getElem h]

theorem nth_of_le {l : List α} {i : Nat} (h : l.length ≤ i) : nth l i = default :=
  List.getD_eq_default _ _ h

theorem nth_set_self {l : List α} {i : Nat} {x : α} (h : i < l.length) :
    nth (l.set i x) i = x := by
  simp [nth_eq_getElem?, List.getElem?_set, h]

theorem nth_set_ne {l : List α} {i j : Nat} {x : α} (h : i ≠ j) :
    nth (l.set i x) j = nth l j := by
  simp [nth_eq_getElem?, List.getElem?_set, h]

@[simp] theorem length_swapL (l : List α) (i j : Nat) :
    (swapL l i j).length = l.length := by
  simp [swapL]

theorem nth_swapL_left {l : List α} {i j : Nat} (hi : i < l.length) (hj : j < l.length) :
    nth (swapL l i j) i = nth l j := by
  by_cases h : j = i
  · subst h; simp [swapL, nth_set_self, List.length_set, hi]
  · simp [swapL, nth_set_ne h, nth_set_self hi]

theorem nth_swapL_right {l : List α} {i j : Nat} (hj : j < l.length) :
    nth (swapL l i j) j = nth l i := by
  have : j < (l.set i (nth l j)).length := by simpa using hj
  simp [swapL, nth_set_self this]

theorem nth_swapL_ne {l : List α} {i j x : Nat} (hxi : x ≠ i) (hxj : x ≠ j) :
    nth (swapL l i j) x = nth l x := by
  simp [swapL, nth_set_ne (Ne.symm hxj), nth_set_ne (Ne.symm hxi)]

theorem cons_set_perm : ∀ (t : List α) (j : Nat) (x : α), j < t.length →
    (nth t j :: t.set j x).Perm (x :: t)
  | y :: t, 0, x, _ => by
    simpa [nth_of_lt, List.set] using List.Perm.swap x y t
  | y :: t, j + 1, x, h => by
    have hj : j < t.length := by simpa using Nat.lt_of_succ_lt_succ h
    have ih := cons_set_perm t j x hj
    have h1 : (nth (y :: t) (j+1) :: (y :: t).set (j+1) x).Perm
        (y :: (nth t j :: t.set j x)) := by
      have : nth (y :: t) (j + 1) = nth t j := by simp [nth]
      rw [this]
      simpa [List.set] using List.Perm.swap y (nth t j) (t.set j x)
    exact h1.trans ((ih.cons y).trans (List.Perm.swap x y t))

theorem set_self_eq {l : List α} {i : Nat} (h : i < l.length) :
    l.set i (nth l i) = l := by
  apply List.ext_getElem?
  intro n
  rw [List.getElem?_set]
  by_cases hin : i = n
  · subst hin
    simp [h, nth_of_lt h, List.getElem?_eq_getElem h]
  · simp [hin]

theorem swapL_self {l : List α} {i : Nat} (h : i < l.length) : swapL l i i = l := by
  have h2 : i < (l.set i (nth l i)).length := by simpa using h
  calc swapL l i i = (l.set i (nth l i)).set i (nth l i) := rfl
    _ = l.set i (nth l i) := by rw [List.set_set]
    _ = l := set_self_eq h

@[simp] theorem nth_cons_zero (x : α) (t : List α) : nth (x :: t) 0 = x := rfl

@[simp] theorem nth_cons_succ (x : α) (t : List α) (n : Nat) :
    nth (x :: t) (n + 1) = nth t n := rfl

theorem swapL_perm : ∀ (l : List α) (i j : Nat), i < l.length → j < l.length →
    (swapL l i j).Perm l
  | [], i, j, hi, _ => absurd hi (by simp)
  | x :: t, 0, 0, hi, _ => by rw [swapL_self hi]
  | x :: t, 0, j + 1, _, hj => by
    have hj' : j < t.length := by simpa using Nat.lt_of_succ_lt_succ hj
    have he : swapL (x :: t) 0 (j + 1) = nth t j :: t.set j x := by
      simp [swapL, List.set]
    rw [he]
    exact cons_set_perm t j x hj'
  | x :: t, i + 1, 0, hi, _ => by
    have hi' : i < t.length := by simpa using Nat.lt_of_succ_lt_succ hi
    have he : swapL (x :: t) (i + 1) 0 = nth t i :: t.set i x := by
      simp [swapL, List.set]
    rw [he]
    exact cons_set_perm t i x hi'
  | x :: t, i + 1, j + 1, hi, hj => by
    have hi' : i < t.length := by simpa using Nat.lt_of_succ_lt_succ hi
    have hj' : j < t.length := by simpa using Nat.lt_of_succ_lt_succ hj
    have he : swapL (x :: t) (i + 1) (j + 1) = x :: swapL t i j := by
      simp [swapL, List.set]
    rw [he]
    exact (swapL_perm t i j hi' hj').cons x

end Kth

/-! ## Slices, appends, and range-confined operations -/

namespace Kth

variable {α : Type} [LinearOrder α] [Inhabited α]

theorem nth_append_lt {l₁ l₂ : List α} {i : Nat} (h : i < l₁.length) :
    nth (l₁ ++ l₂) i = nth l₁ i := by
  simp [nth_eq_getElem?, List.getElem?_append_left h]

theorem nth_append_ge {l₁ l₂ : List α} {i : Nat} (h : l₁.length ≤ i) :
    nth (l₁ ++ l₂) i = nth l₂ (i - l₁.length) := by
  simp [nth_eq_getElem?, List.getElem?_append_right h]

theorem nth_take {l : List α} {a i : Nat} (h : i < a) :
    nth (l.take a) i = nth l i := by
  simp [nth_eq_getElem?, List.getElem?_take, h]

theorem nth_drop (l : List α) (b i : Nat) : nth (l.drop b) i = nth l (b + i) := by
  simp [nth_eq_getElem?, List.getElem?_drop]

theorem length_rangeSlice {l : List α} {a b : Nat} (hb : b ≤ l.length) :
    (rangeSlice l a b).length = b - a := by
  simp [rangeSlice]
  omega

theorem nth_rangeSlice {l : List α} {a b i : Nat} (hi : a + i < b) (hb : b ≤ l.length) :
    nth (rangeSlice l a b) i = nth l (a + i) := by
  rw [rangeSlice, nth_take (by omega), nth_drop]

theorem mem_rangeSlice_of {l : List α} {a b j : Nat} (ha : a ≤ j) (hj : j < b)
    (hb : b ≤ l.length) : nth l j ∈ rangeSlice l a b := by
  have h1 : nth (rangeSlice l a b) (j - a) = nth l j := by
    rw [nth_rangeSlice (by omega) hb]
    congr 1
    omega
  rw [← h1]
  have h2 : j - a < (rangeSlice l a b).length := by
    rw [length_rangeSlice hb]; omega
  rw [nth_of_lt h2]
  exact List.getElem_mem h2

theorem exists_of_mem_rangeSlice {l : List α} {a b : Nat} {x : α}
    (hx : x ∈ rangeSlice l a b) (hb : b ≤ l.length) :
    ∃ j, a ≤ j ∧ j < b ∧ nth l j = x := by
  obtain ⟨i, hi, he⟩ := List.getElem_of_mem hx
  have hilt : a + i < b := by
    have := hi
    rw [length_rangeSlice hb] at this
    omega
  refine ⟨a + i, by omega, hilt, ?_⟩
  rw [← nth_rangeSlice hilt hb, nth_of_lt hi, he]

theorem decomp (l : List α) {a b : Nat} (hab : a ≤ b) (hb : b ≤ l.length) :
    l = l.take a ++ rangeSlice l a b ++ l.drop b := by
  have h1 : l.drop a = rangeSlice l a b ++ l.drop b := by
    have h2 : (l.drop a).drop (b - a) = l.drop b := by
      rw [List.drop_drop]
      congr 1
      omega
    rw [rangeSlice, ← h2, List.take_append_drop]
  rw [List.append_assoc, ← h1, List.take_append_drop]

theorem rangeOp_refl (a b : Nat) (l : List α) : RangeOp a b l l :=
  ⟨rfl, fun _ _ => rfl, List.Perm.refl _⟩

theorem rangeOp_trans {a b : Nat} {l l' l'' : List α}
    (h1 : RangeOp a b l l') (h2 : RangeOp a b l' l'') : RangeOp a b l l'' :=
  ⟨h2.1.trans h1.1, fun i hi => (h2.2.1 i hi).trans (h1.2.1 i hi),
    h2.2.2.trans h1.2.2⟩

/-- An operation with the right length that fixes everything outside
`[a, b)` and permutes the whole list also permutes the range. -/
theorem rangeOp_of_outside_perm {a b : Nat} {l l' : List α} (hab : a ≤ b)
    (hb : b ≤ l.length) (hlen : l'.length = l.length)
    (hout : ∀ i, i < a ∨ b ≤ i → nth l' i = nth l i) (hperm : l'.Perm l) :
    RangeOp a b l l' := by
  refine ⟨hlen, hout, ?_⟩
  have hb' : b ≤ l'.length := hlen ▸ hb
  have htake : l'.take a = l.take a := by
    apply List.ext_getElem
    · simp [hlen]
    · intro i h1 h2
      have hia : i < a := by simp at h1; omega
      rw [← nth_of_lt, ← nth_of_lt, nth_take hia, nth_take hia]
      exact hout i (Or.inl hia)
  have hdrop : l'.drop b = l.drop b := by
    apply List.ext_getElem
    · simp [hlen]
    · intro i h1 h2
      rw [← nth_of_lt, ← nth_of_lt, nth_drop, nth_drop]
      exact hout (b + i) (Or.inr (by omega))
  have hd : l' = l'.take a ++ rangeSlice l' a b ++ l'.drop b := decomp l' hab hb'
  have hd2 : l = l.take a ++ rangeSlice l a b ++ l.drop b := decomp l hab hb
  rw [hd, hd2, htake, hdrop] at hperm
  have hperm' : ((l.take a ++ rangeSlice l' a b) ++ l.drop b).Perm
      ((l.take a ++ rangeSlice l a b) ++ l.drop b) := hperm
  have h3 := (List.perm_append_right_iff (l.drop b)).1 hperm'
  exact (List.perm_append_left_iff (l.take a)).1 h3

theorem rangeOp_perm {a b : Nat} {l l' : List α} (h : RangeOp a b l l')
    (hab : a ≤ b) (hb : b ≤ l.length) : l'.Perm l := by
  have hb' : b ≤ l'.length := h.1 ▸ hb
  have hd : l' = l'.take a ++ rangeSlice l' a b ++ l'.drop b := decomp l' hab hb'
  have hd2 : l = l.take a ++ rangeSlice l a b ++ l.drop b := decomp l hab hb
  have htake : l'.take a = l.take a := by
    apply List.ext_getElem
    · simp [h.1]
    · intro i h1 h2
      have hia : i < a := by simp at h1; omega
      rw [← nth_of_lt, ← nth_of_lt, nth_take hia, nth_take hia]
      exact h.2.1 i (Or.inl hia)
  have hdrop : l'.drop b = l.drop b := by
    apply List.ext_getElem
    · simp [h.1]
    · intro i h1 h2
      rw [← nth_of_lt, ← nth_of_lt, nth_drop, nth_drop]
      exact h.2.1 (b + i) (Or.inr (by omega))
  rw [hd, hd2, htake, hdrop]
  simp only [List.append_assoc]
  exact ((h.2.2.append_right _).append_left _)

theorem rangeOp_swapL {a b i j : Nat} {l : List α} (hai : a ≤ i) (hib : i < b)
    (haj : a ≤ j) (hjb : j < b) (hb : b ≤ l.length) :
    RangeOp a b l (swapL l i j) := by
  have hi : i < l.length := by omega
  have hj : j < l.length := by omega
  apply rangeOp_of_outside_perm (by omega) hb (by simp)
  · intro x hx
    apply nth_swapL_ne <;> omega
  · exact swapL_perm l i j hi hj

theorem rangeOp_mono {a b a' b' : Nat} {l l' : List α} (h : RangeOp a' b' l l')
    (haa : a ≤ a') (hbb : b' ≤ b) (hab : a ≤ b) (hpq : a' ≤ b') (hb : b ≤ l.length) :
    RangeOp a b l l' := by
  apply rangeOp_of_outside_perm hab hb h.1
  · intro i hi
    apply h.2.1
    omega
  · exact rangeOp_perm h hpq (by omega)

/-- Transfer the outside-placed invariant along a range-confined operation. -/
theorem out_transfer {a b : Nat} {l l' : List α} (h : RangeOp a b l l')
    (ho : Out l a b) (hab : a ≤ b) (hb : b ≤ l.length) : Out l' a b := by
  obtain ⟨ho1, ho2, ho3⟩ := ho
  have hlen := h.1
  refine ⟨?_, ?_, ?_⟩
  · intro i j hi haj hjb
    rw [h.2.1 i (Or.inl hi)]
    have hmem : nth l' j ∈ rangeSlice l' a b := mem_rangeSlice_of haj hjb (hlen ▸ hb)
    have hmem2 : nth l' j ∈ rangeSlice l a b := h.2.2.mem_iff.1 hmem
    obtain ⟨j', hj1, hj2, hj3⟩ := exists_of_mem_rangeSlice hmem2 hb
    rw [← hj3]
    exact ho1 i j' hi hj1 hj2
  · intro i j hai hib hbj hjl
    rw [h.2.1 j (Or.inr hbj)]
    have hmem : nth l' i ∈ rangeSlice l' a b := mem_rangeSlice_of hai hib (hlen ▸ hb)
    have hmem2 : nth l' i ∈ rangeSlice l a b := h.2.2.mem_iff.1 hmem
    obtain ⟨i', hi1, hi2, hi3⟩ := exists_of_mem_rangeSlice hmem2 hb
    rw [← hi3]
    exact ho2 i' j hi1 hi2 hbj (by omega)
  · intro i j hi hbj hjl
    rw [h.2.1 i (Or.inl hi), h.2.1 j (Or.inr hbj)]
    exact ho3 i j hi hbj (by omega)

theorem qprop_transfer {a b : Nat} {l l' : List α} (h : RangeOp a b l l')
    (hq : Qprop l a b) (hab : a ≤ b) (hb : b ≤ l.length) : Qprop l' a b := by
  obtain ⟨ha, hq⟩ := hq
  refine ⟨ha, fun j haj hjb => ?_⟩
  rw [h.2.1 (a - 1) (Or.inl (by omega))]
  have hmem : nth l' j ∈ rangeSlice l' a b := mem_rangeSlice_of haj hjb (h.1 ▸ hb)
  obtain ⟨j', hj1, hj2, hj3⟩ := exists_of_mem_rangeSlice (h.2.2.mem_iff.1 hmem) hb
  rw [← hj3]
  exact hq j' hj1 hj2

end Kth

/-! ## Sortedness and the selection characterisation -/

namespace Kth

variable {α : Type} [LinearOrder α] [Inhabited α]

theorem sortL_perm (l : List α) : (sortL l).Perm l :=
  List.perm_insertionSort _ l

theorem sortL_sorted (l : List α) : List.Sorted (· ≤ ·) (sortL l) :=
  List.sorted_insertionSort _ l

theorem sortL_length (l : List α) : (sortL l).length = l.length :=
  List.length_insertionSort _ l

theorem sortL_congr {l l' : List α} (h : l.Perm l') : sortL l = sortL l' :=
  List.eq_of_perm_of_sorted ((sortL_perm l).trans (h.trans (sortL_perm l').symm))
    (sortL_sorted l) (sortL_sorted l')

theorem sorted_nth {l : List α} (hs : List.Sorted (· ≤ ·) l) {i j : Nat}
    (hij : i ≤ j) (hj : j < l.length) : nth l i ≤ nth l j := by
  rcases Nat.lt_or_ge i j with h | h
  · have hi : i < l.length := by omega
    rw [nth_of_lt hi, nth_of_lt hj]
    exact hs.rel_get_of_lt (a := ⟨i, hi⟩) (b := ⟨j, hj⟩) h
  · have : i = j := by omega
    subst this
    exact le_refl _

theorem mem_take_nth {l : List α} {n : Nat} {x : α} (hx : x ∈ l.take n) :
    ∃ i, i < n ∧ i < l.length ∧ nth l i = x := by
  obtain ⟨i, hi, he⟩ := List.getElem_of_mem hx
  have h2 : i < n ∧ i < l.length := by
    have := hi
    simp [List.length_take] at this
    omega
  refine ⟨i, h2.1, h2.2, ?_⟩
  rw [← he, ← nth_of_lt hi, nth_take h2.1]

theorem mem_drop_nth {l : List α} {n : Nat} {x : α} (hx : x ∈ l.drop n) :
    ∃ i, n ≤ i ∧ i < l.length ∧ nth l i = x := by
  obtain ⟨i, hi, he⟩ := List.getElem_of_mem hx
  have h2 : n + i < l.length := by
    have := hi
    simp at this
    omega
  refine ⟨n + i, by omega, h2, ?_⟩
  rw [← he, ← nth_of_lt hi, nth_drop]

theorem nth_mem {l : List α} {i : Nat} (h : i < l.length) : nth l i ∈ l := by
  rw [nth_of_lt h]
  exact List.getElem_mem h

/-- The selection characterisation: a permutation of `S` whose position `t`
dominates everything before it and is dominated by everything after it
carries the `t`-th value of `T = sort(S)` at position `t`, and its first
`t + 1` positions are a permutation of the first `t + 1` of `T`. -/
theorem selAt_block {l S : List α} {t : Nat} (hp : l.Perm S) (ht : t < l.length)
    (hs : SelAt l t) :
    nth l t = nth (sortL S) t ∧ (l.take (t + 1)).Perm ((sortL S).take (t + 1)) := by
  set P1 := sortL (l.take (t + 1)) with hP1
  set P2 := sortL (l.drop (t + 1)) with hP2
  have hlen1 : P1.length = t + 1 := by
    rw [hP1, sortL_length]
    simp
    omega
  have hcross : ∀ x ∈ P1, ∀ y ∈ P2, x ≤ y := by
    intro x hx y hy
    have hx' : x ∈ l.take (t + 1) := (sortL_perm _).mem_iff.1 hx
    have hy' : y ∈ l.drop (t + 1) := (sortL_perm _).mem_iff.1 hy
    obtain ⟨i, hi1, hi2, hi3⟩ := mem_take_nth hx'
    obtain ⟨j, hj1, hj2, hj3⟩ := mem_drop_nth hy'
    have h1 : x ≤ nth l t := by
      rw [← hi3]
      rcases Nat.lt_or_ge i t with h | h
      · exact hs.1 i h
      · have : i = t := by omega
        subst this
        exact le_refl _
    have h2 : nth l t ≤ y := by
      rw [← hj3]
      exact hs.2 j (by omega) hj2
    exact h1.trans h2
  have hsorted : List.Sorted (· ≤ ·) (P1 ++ P2) := by
    rw [List.Sorted, List.pairwise_append]
    exact ⟨sortL_sorted _, sortL_sorted _, hcross⟩
  have happ : (P1 ++ P2).Perm l := by
    have := (sortL_perm (l.take (t + 1))).append (sortL_perm (l.drop (t + 1)))
    rw [List.take_append_drop] at this
    exact this
  have heq : P1 ++ P2 = sortL S :=
    List.eq_of_perm_of_sorted (happ.trans (hp.trans (sortL_perm S).symm)) hsorted
      (sortL_sorted S)
  have htake : (sortL S).take (t + 1) = P1 := by
    rw [← heq, ← hlen1, List.take_left]
  have hmax : nth P1 t = nth l t := by
    have hmem : nth l t ∈ P1 := by
      apply (sortL_perm _).mem_iff.2
      have : nth l t = nth (l.take (t + 1)) t := (nth_take (by omega)).symm
      rw [this]
      apply nth_mem
      simp
      omega
    obtain ⟨i, hi, he⟩ := List.getElem_of_mem hmem
    have hs1 : List.Sorted (· ≤ ·) P1 := sortL_sorted _
    have h1 : nth l t ≤ nth P1 t := by
      rw [← he, ← nth_of_lt hi]
      exact sorted_nth hs1 (by omega) (by omega)
    have h2 : nth P1 t ≤ nth l t := by
      have hmP : nth P1 t ∈ P1 := nth_mem (by omega)
      have hm2 : nth P1 t ∈ l.take (t + 1) := (sortL_perm _).mem_iff.1 hmP
      obtain ⟨i2, hi2a, hi2b, hi2c⟩ := mem_take_nth hm2
      rw [← hi2c]
      rcases Nat.lt_or_ge i2 t with h | h
      · exact hs.1 i2 h
      · have : i2 = t := by omega
        subst this
        exact le_refl _
    exact le_antisymm h2 h1
  constructor
  · rw [← heq, nth_append_lt (by omega), hmax]
  · rw [htake, hP1]
    exact ((sortL_perm _).symm)

theorem selAt_of_sortedRange {l : List α} {a b k : Nat} (ho : Out l a b)
    (hsr : SortedRange l a b) (hak : a ≤ k) (hkb : k < b) (hb : b ≤ l.length) :
    SelAt l k := by
  constructor
  · intro i hik
    rcases Nat.lt_or_ge i a with h | h
    · exact ho.1 i k h hak hkb
    · exact hsr i k h (by omega) hkb
  · intro i hki hil
    rcases Nat.lt_or_ge i b with h | h
    · exact hsr k i hak (by omega) h
    · exact ho.2.1 k i hak hkb h hil

end Kth

/-! ## Contracts of the small spec-modelled helpers -/

namespace Kth

variable {α : Type} [LinearOrder α] [Inhabited α]

theorem length_sliceMap {f : List α → List α} {l : List α} {a b : Nat}
    (hflen : ∀ s : List α, (f s).length = s.length) (hab : a ≤ b) (hb : b ≤ l.length) :
    (sliceMap f l a b).length = l.length := by
  simp [sliceMap, hflen, length_rangeSlice hb]
  omega

theorem nth_sliceMap_mid {f : List α → List α} {l : List α} {a b i : Nat}
    (hflen : ∀ s : List α, (f s).length = s.length) (hai : a ≤ i) (hib : i < b)
    (hb : b ≤ l.length) :
    nth (sliceMap f l a b) i = nth (f (rangeSlice l a b)) (i - a) := by
  have h1 : (l.take a).length = a := by simp; omega
  rw [sliceMap, List.append_assoc, nth_append_ge (by omega), h1,
    nth_append_lt (by rw [hflen, length_rangeSlice hb]; omega)]

theorem nth_sliceMap_out {f : List α → List α} {l : List α} {a b i : Nat}
    (hflen : ∀ s : List α, (f s).length = s.length) (hi : i < a ∨ b ≤ i)
    (hab : a ≤ b) (hb : b ≤ l.length) :
    nth (sliceMap f l a b) i = nth l i := by
  have h1 : (l.take a).length = a := by simp; omega
  rcases hi with hi | hi
  · rw [sliceMap, List.append_assoc, nth_append_lt (by omega), nth_take hi]
  · have h2 : (l.take a ++ f (rangeSlice l a b)).length = b := by
      simp [hflen, length_rangeSlice hb]
      omega
    rw [sliceMap, nth_append_ge (by omega), h2, nth_drop]
    congr 1
    omega

theorem sliceMap_rangeOp {f : List α → List α} {l : List α} {a b : Nat}
    (hflen : ∀ s : List α, (f s).length = s.length)
    (hfperm : ∀ s : List α, (f s).Perm s) (hab : a ≤ b) (hb : b ≤ l.length) :
    RangeOp a b l (sliceMap f l a b) := by
  apply rangeOp_of_outside_perm hab hb (length_sliceMap hflen hab hb)
  · intro i hi
    exact nth_sliceMap_out hflen hi hab hb
  · calc
      (sliceMap f l a b).Perm (l.take a ++ rangeSlice l a b ++ l.drop b) := by
        simp only [sliceMap, List.append_assoc]
        exact ((hfperm _).append_right _).append_left _
      _ = l := (decomp l hab hb).symm

theorem insertionSort_rangeOp {l : List α} {a b : Nat} (hab : a ≤ b)
    (hb : b ≤ l.length) : RangeOp a b l (insertionSort l a b) :=
  sliceMap_rangeOp (fun s => List.length_insertionSort _ s)
    (fun s => List.perm_insertionSort _ s) hab hb

theorem insertionSort_sortedRange {l : List α} {a b : Nat} (hab : a ≤ b)
    (hb : b ≤ l.length) : SortedRange (insertionSort l a b) a b := by
  intro i j hai hij hjb
  rw [insertionSort, nth_sliceMap_mid (fun s => List.length_insertionSort _ s) hai (by omega) hb,
    nth_sliceMap_mid (fun s => List.length_insertionSort _ s) (by omega) hjb hb]
  apply sorted_nth (List.sorted_insertionSort _ _) (by omega)
  rw [List.length_insertionSort, length_rangeSlice hb]
  omega

theorem reverseRange_rangeOp {l : List α} {a b : Nat} (hab : a ≤ b)
    (hb : b ≤ l.length) : RangeOp a b l (reverseRange l a b) :=
  sliceMap_rangeOp (fun s => s.length_reverse) (fun s => s.reverse_perm) hab hb

theorem partialInsertionSort_rangeOp {l : List α} {a b : Nat} (hab : a ≤ b)
    (hb : b ≤ l.length) : RangeOp a b l (partialInsertionSort l a b).1 := by
  rw [partialInsertionSort]
  split
  · exact insertionSort_rangeOp hab hb
  · exact rangeOp_refl a b l

theorem partialInsertionSort_sorted {l : List α} {a b : Nat} (hab : a ≤ b)
    (hb : b ≤ l.length) (ht : (partialInsertionSort l a b).2 = true) :
    SortedRange (partialInsertionSort l a b).1 a b := by
  rw [partialInsertionSort] at ht ⊢
  by_cases h : countDescents (rangeSlice l a b) ≤ 5
  · rw [if_pos h]
    exact insertionSort_sortedRange hab hb
  · rw [if_neg h] at ht
    simp at ht

theorem breakPatterns_rangeOp {l : List α} {a b : Nat} (h4 : 4 ≤ b - a)
    (hb : b ≤ l.length) : RangeOp a b l (breakPatterns l a b) := by
  have hab : a ≤ b := by omega
  rw [breakPatterns]
  have h1 : RangeOp a b l (swapL l a (a + (b - a) / 4)) :=
    rangeOp_swapL (by omega) (by omega) (by omega) (by omega) hb
  have hl1 : (swapL l a (a + (b - a) / 4)).length = l.length := by simp
  have h2 : RangeOp a b (swapL l a (a + (b - a) / 4))
      (swapL (swapL l a (a + (b - a) / 4)) (a + (b - a) / 2) (a + (b - a) / 2 + (b - a) / 4)) :=
    rangeOp_swapL (by omega) (by omega) (by omega) (by omega) (by omega)
  have hl2 : (swapL (swapL l a (a + (b - a) / 4)) (a + (b - a) / 2)
      (a + (b - a) / 2 + (b - a) / 4)).length = l.length := by simp
  have h3 : RangeOp a b _ _ :=
    rangeOp_swapL (l := swapL (swapL l a (a + (b - a) / 4)) (a + (b - a) / 2)
        (a + (b - a) / 2 + (b - a) / 4))
      (a := a) (b := b) (i := b - 1) (j := b - 1 - (b - a) / 4)
      (by omega) (by omega) (by omega) (by omega) (by omega)
  exact rangeOp_trans (rangeOp_trans h1 h2) h3

theorem medIdx3_cases (l : List α) (i j k : Nat) :
    medIdx3 l i j k = i ∨ medIdx3 l i j k = j ∨ medIdx3 l i j k = k := by
  rw [medIdx3]
  split_ifs <;> simp

theorem choosePivot_range {l : List α} {a b : Nat} (hab : a < b) :
    a ≤ (choosePivot l a b).1 ∧ (choosePivot l a b).1 < b := by
  rw [choosePivot]
  have hm : a ≤ a + (b - a) / 2 ∧ a + (b - a) / 2 ≤ b - 1 := by omega
  have hadj : ∀ c off, a ≤ c → c ≤ b - 1 →
      a ≤ medIdx3 l (max a (c - off)) c (min (b - 1) (c + off)) ∧
        medIdx3 l (max a (c - off)) c (min (b - 1) (c + off)) ≤ b - 1 := by
    intro c off hac hcb
    rcases medIdx3_cases l (max a (c - off)) c (min (b - 1) (c + off)) with h | h | h <;>
      rw [h] <;> omega
  -- bound the three samples, then the median of them
  set off := if b - a ≥ 512 then (b - a) / 8 else 1 with hoff
  set p1 := if b - a ≥ 128 then medIdx3 l (max a (a - off)) a (min (b - 1) (a + off)) else a with hps1
  set p2 := if b - a ≥ 128 then medIdx3 l (max a (a + (b - a) / 2 - off)) (a + (b - a) / 2) (min (b - 1) (a + (b - a) / 2 + off)) else a + (b - a) / 2 with hps2
  set p3 := if b - a ≥ 128 then medIdx3 l (max a (b - 1 - off)) (b - 1) (min (b - 1) (b - 1 + off)) else b - 1 with hps3
  have hb1 : a ≤ p1 ∧ p1 ≤ b - 1 := by
    rw [hps1]; split
    · exact hadj a off (le_refl a) (by omega)
    · omega
  have hb2 : a ≤ p2 ∧ p2 ≤ b - 1 := by
    rw [hps2]; split
    · exact hadj (a + (b - a) / 2) off (by omega) (by omega)
    · omega
  have hb3 : a ≤ p3 ∧ p3 ≤ b - 1 := by
    rw [hps3]; split
    · exact hadj (b - 1) off (by omega) (by omega)
    · omega
  rcases medIdx3_cases l p1 p2 p3 with h | h | h <;> simp only [h] <;> omega

end Kth

/-! ## Scan lemmas -/

namespace Kth

variable {α : Type} [LinearOrder α] [Inhabited α]

theorem scanLt_spec (l : List α) (pv : α) :
    ∀ fuel i j, j + 1 ≤ i + fuel → i ≤ j + 1 →
      i ≤ scanLt l pv fuel i j ∧ scanLt l pv fuel i j ≤ j + 1 ∧
      (∀ x, i ≤ x → x < scanLt l pv fuel i j → nth l x < pv) ∧
      (scanLt l pv fuel i j ≤ j → ¬ nth l (scanLt l pv fuel i j) < pv) := by
  intro fuel
  induction fuel with
  | zero =>
    intro i j hf hij
    have : i = j + 1 := by omega
    subst this
    rw [scanLt]
    exact ⟨le_refl _, le_refl _, fun x h1 h2 => absurd (h1.trans_lt h2) (lt_irrefl _),
      fun h => absurd h (by omega)⟩
  | succ fuel ih =>
    intro i j hf hij
    rw [scanLt]
    by_cases hc : i ≤ j ∧ nth l i < pv
    · rw [if_pos hc]
      obtain ⟨h1, h2, h3, h4⟩ := ih (i + 1) j (by omega) (by omega)
      refine ⟨by omega, h2, ?_, h4⟩
      intro x hx1 hx2
      rcases Nat.eq_or_lt_of_le hx1 with he | hl
      · rw [← he]; exact hc.2
      · exact h3 x hl hx2
    · rw [if_neg hc]
      refine ⟨le_refl _, hij, fun x h1 h2 => absurd (h1.trans_lt h2) (lt_irrefl _), ?_⟩
      intro hle
      intro hlt
      exact hc ⟨hle, hlt⟩

theorem scanLe_spec (l : List α) (pv : α) :
    ∀ fuel i j, j + 1 ≤ i + fuel → i ≤ j + 1 →
      i ≤ scanLe l pv fuel i j ∧ scanLe l pv fuel i j ≤ j + 1 ∧
      (∀ x, i ≤ x → x < scanLe l pv fuel i j → ¬ pv < nth l x) ∧
      (scanLe l pv fuel i j ≤ j → pv < nth l (scanLe l pv fuel i j)) := by
  intro fuel
  induction fuel with
  | zero =>
    intro i j hf hij
    have : i = j + 1 := by omega
    subst this
    rw [scanLe]
    exact ⟨le_refl _, le_refl _, fun x h1 h2 => absurd (h1.trans_lt h2) (lt_irrefl _),
      fun h => absurd h (by omega)⟩
  | succ fuel ih =>
    intro i j hf hij
    rw [scanLe]
    by_cases hc : i ≤ j ∧ ¬ pv < nth l i
    · rw [if_pos hc]
      obtain ⟨h1, h2, h3, h4⟩ := ih (i + 1) j (by omega) (by omega)
      refine ⟨by omega, h2, ?_, h4⟩
      intro x hx1 hx2
      rcases Nat.eq_or_lt_of_le hx1 with he | hl
      · rw [← he]; exact hc.2
      · exact h3 x hl hx2
    · rw [if_neg hc]
      refine ⟨le_refl _, hij, fun x h1 h2 => absurd (h1.trans_lt h2) (lt_irrefl _), ?_⟩
      intro hle
      by_contra hlt
      exact hc ⟨hle, hlt⟩

theorem scanGt_spec (l : List α) (pv : α) :
    ∀ fuel j imin, j + 2 ≤ imin + fuel → 1 ≤ imin → imin - 1 ≤ j →
      imin - 1 ≤ scanGt l pv fuel j imin ∧ scanGt l pv fuel j imin ≤ j ∧
      (∀ x, scanGt l pv fuel j imin < x → x ≤ j → pv < nth l x) ∧
      (imin ≤ scanGt l pv fuel j imin → ¬ pv < nth l (scanGt l pv fuel j imin)) := by
  intro fuel
  induction fuel with
  | zero =>
    intro j imin hf h1 hj
    omega
  | succ fuel ih =>
    intro j imin hf h1 hj
    rw [scanGt]
    by_cases hc : imin ≤ j ∧ pv < nth l j
    · rw [if_pos hc]
      obtain ⟨g1, g2, g3, g4⟩ := ih (j - 1) imin (by omega) h1 (by omega)
      refine ⟨g1, by omega, ?_, g4⟩
      intro x hx1 hx2
      rcases Nat.eq_or_lt_of_le hx2 with he | hl
      · rw [he]; exact hc.2
      · have : x ≤ j - 1 := by omega
        exact g3 x hx1 this
    · rw [if_neg hc]
      refine ⟨by omega, le_refl _, fun x h1 h2 => absurd (h1.trans_le h2) (lt_irrefl _), ?_⟩
      intro hle
      intro hlt
      exact hc ⟨hle, hlt⟩

end Kth

/-! ## The Hoare partition (spec §4.3) -/

namespace Kth

variable {α : Type} [LinearOrder α] [Inhabited α]

theorem partLoop_spec (a b : Nat) (pv : α) (l0 : List α) (hab : a < b)
    (hb : b ≤ l0.length) :
    ∀ fuel (l : List α) i j, RangeOp a b l0 l → l.length = l0.length →
      a + 1 ≤ i → i ≤ j + 1 → j ≤ b - 1 → j + 2 ≤ i + fuel →
      nth l a = pv →
      (∀ x, a + 1 ≤ x → x < i → nth l x ≤ pv) →
      (∀ x, j < x → x < b → pv ≤ nth l x) →
      (i ≤ j → ¬ nth l i < pv ∧ ¬ pv < nth l j) →
      RangeOp a b l0 (partLoop pv fuel l i j).1 ∧
      (partLoop pv fuel l i j).1.length = l0.length ∧
      a + 1 ≤ (partLoop pv fuel l i j).2.1 ∧
      ¬ (partLoop pv fuel l i j).2.1 < (partLoop pv fuel l i j).2.2 ∧
      (partLoop pv fuel l i j).2.1 ≤ (partLoop pv fuel l i j).2.2 + 1 ∧
      (partLoop pv fuel l i j).2.2 ≤ b - 1 ∧
      nth (partLoop pv fuel l i j).1 a = pv ∧
      (∀ x, a + 1 ≤ x → x < (partLoop pv fuel l i j).2.1 →
        nth (partLoop pv fuel l i j).1 x ≤ pv) ∧
      (∀ x, (partLoop pv fuel l i j).2.2 < x → x < b →
        pv ≤ nth (partLoop pv fuel l i j).1 x) ∧
      ((partLoop pv fuel l i j).2.1 ≤ (partLoop pv fuel l i j).2.2 →
        ¬ nth (partLoop pv fuel l i j).1 (partLoop pv fuel l i j).2.1 < pv ∧
        ¬ pv < nth (partLoop pv fuel l i j).1 (partLoop pv fuel l i j).2.2) := by
  intro fuel
  induction fuel with
  | zero =>
    intro l i j _ _ _ hij _ hf
    omega
  | succ fuel ih =>
    intro l i j hR hlen hai hij hjb hf hsent hleft hright hstop
    rw [partLoop]
    by_cases hcond : i < j
    · rw [if_pos hcond]
      obtain ⟨hige, hjle⟩ := hstop (le_of_lt hcond)
      have hil : i < l.length := by omega
      have hjl : j < l.length := by omega
      set l₁ := swapL l i j with hl₁
      have hlen₁ : l₁.length = l0.length := by rw [hl₁]; simp [hlen]
      have hR₁ : RangeOp a b l0 l₁ := by
        apply rangeOp_trans hR
        exact rangeOp_swapL (by omega) (by omega) (by omega) (by omega) (by omega)
      have hv_i : nth l₁ i = nth l j := nth_swapL_left hil hjl
      have hv_j : nth l₁ j = nth l i := nth_swapL_right hjl
      have hv_ne : ∀ x, x ≠ i → x ≠ j → nth l₁ x = nth l x := fun x h1 h2 =>
        nth_swapL_ne h1 h2
      obtain ⟨hs1, hs2, hs3, hs4⟩ :=
        scanLt_spec l₁ pv (l₁.length + 2) (i + 1) (j - 1) (by omega) (by omega)
      set i₁ := scanLt l₁ pv (l₁.length + 2) (i + 1) (j - 1) with hi₁
      obtain ⟨hg1, hg2, hg3, hg4⟩ :=
        scanGt_spec l₁ pv (l₁.length + 2) (j - 1) i₁ (by omega) (by omega) (by omega)
      set j₁ := scanGt l₁ pv (l₁.length + 2) (j - 1) i₁ with hj₁
      apply ih l₁ i₁ j₁ hR₁ hlen₁ (by omega) (by omega) (by omega) (by omega)
      · rw [hv_ne a (by omega) (by omega)]
        exact hsent
      · intro x hx1 hx2
        rcases Nat.lt_trichotomy x i with h | h | h
        · rw [hv_ne x (by omega) (by omega)]
          exact hleft x hx1 h
        · subst h
          rw [hv_i]
          exact not_lt.1 hjle
        · exact le_of_lt (hs3 x (by omega) hx2)
      · intro x hx1 hx2
        rcases Nat.lt_trichotomy x j with h | h | h
        · have hxj1 : x ≤ j - 1 := by omega
          exact le_of_lt (hg3 x hx1 hxj1)
        · subst h
          rw [hv_j]
          exact not_lt.1 hige
        · rw [hv_ne x (by omega) (by omega)]
          exact hright x h hx2
      · intro hij₁
        constructor
        · exact hs4 (by omega)
        · exact hg4 (by omega)
    · rw [if_neg hcond]
      exact ⟨hR, hlen, hai, hcond, hij, hjb, hsent, hleft, hright, hstop⟩

theorem partition_spec {l : List α} {a b p : Nat} (hap : a ≤ p) (hpb : p < b)
    (hab : a < b) (hb : b ≤ l.length) :
    ∀ l' mid aP, partition l a b p = (l', mid, aP) →
      RangeOp a b l l' ∧ a ≤ mid ∧ mid < b ∧
      nth l' mid = nth l p ∧
      (∀ x, a ≤ x → x < mid → nth l' x ≤ nth l p) ∧
      (∀ x, mid < x → x < b → nth l p ≤ nth l' x) := by
  intro l' mid aP heq
  have hpl : p < l.length := by omega
  have hal : a < l.length := by omega
  set l₀ := swapL l p a with hl₀
  have hlen₀ : l₀.length = l.length := by rw [hl₀]; simp
  have hR₀ : RangeOp a b l l₀ :=
    rangeOp_swapL hap hpb (le_refl a) hab hb
  have hpv : nth l₀ a = nth l p := nth_swapL_right hal
  set pv := nth l₀ a with hpveq
  obtain ⟨hs1, hs2, hs3, hs4⟩ :=
    scanLt_spec l₀ pv (l₀.length + 2) (a + 1) (b - 1) (by omega) (by omega)
  set i₀ := scanLt l₀ pv (l₀.length + 2) (a + 1) (b - 1) with hi₀
  obtain ⟨hg1, hg2, hg3, hg4⟩ :=
    scanGt_spec l₀ pv (l₀.length + 2) (b - 1) i₀ (by omega) (by omega) (by omega)
  set j₀ := scanGt l₀ pv (l₀.length + 2) (b - 1) i₀ with hj₀
  obtain ⟨hP1, hP2, hP3, hP4, hP5, hP6, hP7, hP8, hP9, hP10⟩ :=
    partLoop_spec a b pv l₀ hab (by omega) (l₀.length + 2) l₀ i₀ j₀
      (rangeOp_refl a b l₀) rfl (by omega) (by omega) (by omega) (by omega)
      rfl
      (fun x hx1 hx2 => le_of_lt (hs3 x hx1 hx2))
      (fun x hx1 hx2 => le_of_lt (hg3 x hx1 (by omega)))
      (fun hij => ⟨hs4 (by omega), hg4 (by omega)⟩)
  set r := partLoop pv (l₀.length + 2) l₀ i₀ j₀ with hr
  -- unpack the returned triple
  have hmid : mid = r.2.1 - 1 ∧ l' = swapL r.1 a (r.2.1 - 1) := by
    rw [partition] at heq
    simp only [← hl₀, ← hpveq, ← hi₀, ← hj₀, ← hr] at heq
    exact ⟨(congrArg (fun t => t.2.1) heq).symm, (congrArg (fun t => t.1) heq).symm⟩
  obtain ⟨hmide, hle2⟩ := hmid
  have hrlen : r.1.length = l.length := by rw [hP2, hlen₀]
  have hmid_lb : a ≤ mid := by omega
  have hmid_ub : mid < b := by omega
  have hR' : RangeOp a b l l' := by
    rw [hle2]
    apply rangeOp_trans (rangeOp_trans hR₀ hP1)
    exact rangeOp_swapL (le_refl a) hab (by omega) (by omega) (by omega)
  have hval_mid : nth l' mid = pv := by
    rw [hle2, hmide]
    by_cases hma : r.2.1 - 1 = a
    · rw [hma, swapL_self (by omega), hP7]
    · rw [nth_swapL_right (by omega), hP7]
  refine ⟨hR', hmid_lb, hmid_ub, by rw [hval_mid, hpv], ?_, ?_⟩
  · intro x hx1 hx2
    rw [← hpv]
    rw [hle2]
    rw [hmide] at hx2
    rcases Nat.eq_or_lt_of_le hx1 with he | hlt
    · -- x = a gets the old value at position mid
      rw [← he]
      have hma : r.2.1 - 1 ≠ a := by omega
      rw [nth_swapL_left (by omega) (by omega)]
      apply hP8 <;> omega
    · rw [nth_swapL_ne (by omega) (by omega)]
      apply hP8 <;> omega
  · intro x hx1 hx2
    rw [← hpv, hle2]
    rw [hmide] at hx1
    rw [nth_swapL_ne (by omega) (by omega)]
    -- x ≥ r.2.1 : either beyond j₁ or equal to the crossing point
    rcases Nat.lt_or_ge r.2.2 x with h | h
    · exact hP9 x h hx2
    · -- r.2.1 - 1 < x ≤ r.2.2 and ¬ r.2.1 < r.2.2, hence x = r.2.1 ≤ r.2.2
      have hxe : x = r.2.1 := by omega
      obtain ⟨hstop1, _⟩ := hP10 (by omega)
      rw [hxe]
      exact not_lt.1 hstop1

end Kth

/-! ## The 3-way equal partition (spec §4.4) -/

namespace Kth

variable {α : Type} [LinearOrder α] [Inhabited α]

theorem le_transfer {a b : Nat} {l l' : List α} (h : RangeOp a b l l')
    (hb : b ≤ l.length) (c : α) (hP : ∀ x, a ≤ x → x < b → c ≤ nth l x) :
    ∀ x, a ≤ x → x < b → c ≤ nth l' x := by
  intro x hx1 hx2
  have hmem : nth l' x ∈ rangeSlice l' a b := mem_rangeSlice_of hx1 hx2 (h.1 ▸ hb)
  obtain ⟨j', hj1, hj2, hj3⟩ := exists_of_mem_rangeSlice (h.2.2.mem_iff.1 hmem) hb
  rw [← hj3]
  exact hP j' hj1 hj2

theorem partEqLoop_spec (a b : Nat) (pv : α) (l0 : List α) (hab : a < b)
    (hb : b ≤ l0.length) :
    ∀ fuel (l : List α) i j, RangeOp a b l0 l → l.length = l0.length →
      a + 1 ≤ i → i ≤ j + 1 → j ≤ b - 1 → j + 2 ≤ i + fuel →
      (∀ x, a ≤ x → x < i → nth l x = pv) →
      (∀ x, j < x → x < b → pv < nth l x) →
      (∀ x, a ≤ x → x < b → pv ≤ nth l x) →
      RangeOp a b l0 (partEqLoop pv fuel l i j).1 ∧
      (partEqLoop pv fuel l i j).1.length = l0.length ∧
      a + 1 ≤ (partEqLoop pv fuel l i j).2 ∧ (partEqLoop pv fuel l i j).2 ≤ b ∧
      (∀ x, a ≤ x → x < (partEqLoop pv fuel l i j).2 →
        nth (partEqLoop pv fuel l i j).1 x = pv) ∧
      (∀ x, (partEqLoop pv fuel l i j).2 ≤ x → x < b →
        pv < nth (partEqLoop pv fuel l i j).1 x) := by
  intro fuel
  induction fuel with
  | zero =>
    intro l i j _ _ _ hij _ hf
    omega
  | succ fuel ih =>
    intro l i j hR hlen hai hij hjb hf heqr hgtr hP
    rw [partEqLoop]
    obtain ⟨hs1, hs2, hs3, hs4⟩ := scanLe_spec l pv (l.length + 2) i j (by omega) hij
    set i₁ := scanLe l pv (l.length + 2) i j with hi₁
    obtain ⟨hg1, hg2, hg3, hg4⟩ :=
      scanGt_spec l pv (l.length + 2) j i₁ (by omega) (by omega) (by omega)
    set j₁ := scanGt l pv (l.length + 2) j i₁ with hj₁
    have heqr₁ : ∀ x, a ≤ x → x < i₁ → nth l x = pv := by
      intro x hx1 hx2
      rcases Nat.lt_or_ge x i with h | h
      · exact heqr x hx1 h
      · exact le_antisymm (not_lt.1 (hs3 x h hx2)) (hP x hx1 (by omega))
    have hgtr₁ : ∀ x, j₁ < x → x < b → pv < nth l x := by
      intro x hx1 hx2
      rcases Nat.lt_or_ge j x with h | h
      · exact hgtr x h hx2
      · exact hg3 x hx1 h
    by_cases hcond : i₁ < j₁
    · rw [if_pos hcond]
      have hstopi : pv < nth l i₁ := hs4 (by omega)
      have hstopj : nth l j₁ = pv :=
        le_antisymm (not_lt.1 (hg4 (by omega))) (hP j₁ (by omega) (by omega))
      have hil : i₁ < l.length := by omega
      have hjl : j₁ < l.length := by omega
      set l₂ := swapL l i₁ j₁ with hl₂
      have hR₂ : RangeOp a b l0 l₂ := by
        apply rangeOp_trans hR
        exact rangeOp_swapL (by omega) (by omega) (by omega) (by omega) (by omega)
      have hlen₂ : l₂.length = l0.length := by rw [hl₂]; simp [hlen]
      apply ih l₂ (i₁ + 1) (j₁ - 1) hR₂ hlen₂ (by omega) (by omega) (by omega)
        (by omega)
      · intro x hx1 hx2
        rcases Nat.lt_or_ge x i₁ with h | h
        · rw [hl₂, nth_swapL_ne (by omega) (by omega)]
          exact heqr₁ x hx1 h
        · have : x = i₁ := by omega
          subst this
          rw [hl₂, nth_swapL_left hil hjl]
          exact hstopj
      · intro x hx1 hx2
        rcases Nat.lt_or_ge j₁ x with h | h
        · rw [hl₂, nth_swapL_ne (by omega) (by omega)]
          exact hgtr₁ x h hx2
        · have : x = j₁ := by omega
          subst this
          rw [hl₂, nth_swapL_right hjl]
          exact hstopi
      · intro x hx1 hx2
        rcases Nat.lt_trichotomy x i₁ with h | h | h
        · rw [hl₂, nth_swapL_ne (by omega) (by omega)]
          exact hP x hx1 hx2
        · subst h
          rw [hl₂, nth_swapL_left hil hjl, hstopj]
        · by_cases hxj : x = j₁
          · subst hxj
            rw [hl₂, nth_swapL_right hjl]
            exact le_of_lt hstopi
          · rw [hl₂, nth_swapL_ne (by omega) (Ne.intro hxj)]
            exact hP x hx1 hx2
    · rw [if_neg hcond]
      refine ⟨hR, hlen, by omega, by omega, heqr₁, ?_⟩
      intro x hx1 hx2
      rcases Nat.lt_or_ge j₁ x with h | h
      · exact hgtr₁ x h hx2
      · -- j₁ ≤ i₁ ≤ x ≤ j₁ forces x = i₁ = j₁, contradicting the two stops
        have hxe : x = i₁ ∧ i₁ = j₁ := by omega
        have h1 : pv < nth l i₁ := hs4 (by omega)
        have h2 : ¬ pv < nth l j₁ := hg4 (by omega)
        rw [hxe.2] at h1
        exact absurd h1 h2

theorem partitionEqual_spec {l : List α} {a b p : Nat} (hap : a ≤ p) (hpb : p < b)
    (hab : a < b) (hb : b ≤ l.length)
    (hP : ∀ x, a ≤ x → x < b → nth l p ≤ nth l x) :
    RangeOp a b l (partitionEqual l a b p).1 ∧
    a < (partitionEqual l a b p).2 ∧ (partitionEqual l a b p).2 ≤ b ∧
    (∀ x, a ≤ x → x < (partitionEqual l a b p).2 →
      nth (partitionEqual l a b p).1 x = nth l p) ∧
    (∀ x, (partitionEqual l a b p).2 ≤ x → x < b →
      nth l p < nth (partitionEqual l a b p).1 x) := by
  have hpl : p < l.length := by omega
  have hal : a < l.length := by omega
  have hR₀ : RangeOp a b l (swapL l p a) :=
    rangeOp_swapL hap hpb (le_refl a) hab hb
  have hlen₀ : (swapL l p a).length = l.length := by simp
  have hpv : nth (swapL l p a) a = nth l p := nth_swapL_right hal
  have hP₀ : ∀ x, a ≤ x → x < b → nth (swapL l p a) a ≤ nth (swapL l p a) x := by
    rw [hpv]
    exact le_transfer hR₀ hb (nth l p) hP
  obtain ⟨hQ1, hQ2, hQ3, hQ4, hQ5, hQ6⟩ :=
    partEqLoop_spec a b (nth (swapL l p a) a) (swapL l p a) hab (by omega)
      ((swapL l p a).length + 2) (swapL l p a) (a + 1) (b - 1)
      (rangeOp_refl _ _ _) rfl (le_refl _) (by omega) (by omega) (by omega)
      (by
        intro x hx1 hx2
        have : x = a := by omega
        rw [this])
      (by intro x hx1 hx2; omega)
      hP₀
  rw [partitionEqual]
  refine ⟨rangeOp_trans hR₀ hQ1, by omega, hQ4, ?_, ?_⟩
  · intro x hx1 hx2
    rw [← hpv]
    exact hQ5 x hx1 hx2
  · intro x hx1 hx2
    rw [← hpv]
    exact hQ6 x hx1 hx2

end Kth

/-! ## The heap fallback (spec §4.8) -/

namespace Kth

variable {α : Type} [LinearOrder α] [Inhabited α]

theorem siftDown_spec (hi first : Nat) :
    ∀ fuel (l : List α) root, first + hi ≤ l.length → hi ≤ fuel + root →
      RangeOp first (first + hi) l (siftDown fuel l root hi first) ∧
      (∀ x, x ≠ first + root → x < first + (2 * root + 1) →
        nth (siftDown fuel l root hi first) x = nth l x) ∧
      (∃ d, (d = root ∨ (2 * root + 1 ≤ d ∧ d ≤ 2 * root + 2 ∧ d < hi)) ∧
        nth (siftDown fuel l root hi first) (first + root) = nth l (first + d)) ∧
      (IsHeapFrom l hi first (root + 1) →
        IsHeapFrom (siftDown fuel l root hi first) hi first root) := by
  intro fuel
  induction fuel with
  | zero =>
    intro l root hlen hf
    rw [siftDown]
    refine ⟨rangeOp_refl _ _ _, fun x _ _ => rfl, ⟨root, Or.inl rfl, rfl⟩, ?_⟩
    intro H c h1 h2 h3
    omega
  | succ fuel ih =>
    intro l root hlen hf
    simp only [siftDown]
    by_cases hc0 : 2 * root + 1 < hi
    · rw [if_pos hc0]
      set cS := if 2 * root + 1 + 1 < hi ∧
          nth l (first + (2 * root + 1)) < nth l (first + (2 * root + 1) + 1)
        then 2 * root + 1 + 1 else 2 * root + 1 with hcS
      have hcS1 : 2 * root + 1 ≤ cS ∧ cS ≤ 2 * root + 2 ∧ cS < hi := by
        rw [hcS]; split <;> omega
      have hcSmax1 : nth l (first + (2 * root + 1)) ≤ nth l (first + cS) := by
        rw [hcS]; split
        · next h => exact le_of_lt h.2
        · exact le_refl _
      have hcSmax2 : 2 * root + 2 < hi → nth l (first + (2 * root + 2)) ≤ nth l (first + cS) := by
        intro hlt
        rw [hcS]; split
        · next h =>
          have : 2 * root + 1 + 1 = 2 * root + 2 := by omega
          rw [this]
        · next h =>
          rw [not_and_or] at h
          rcases h with h | h
          · omega
          · have h5 := not_lt.1 h
            have h6 : first + (2 * root + 1) + 1 = first + (2 * root + 2) := by omega
            rw [h6] at h5
            exact h5
      by_cases hcmp : nth l (first + root) < nth l (first + cS)
      · rw [if_pos hcmp]
        set l₁ := swapL l (first + root) (first + cS) with hl₁
        have hlen₁ : l₁.length = l.length := by rw [hl₁]; simp
        have hroot_lt : first + root < l.length := by omega
        have hcS_lt : first + cS < l.length := by omega
        obtain ⟨R1, R2, R3, R4⟩ := ih l₁ cS (by omega) (by omega)
        have hval_root : nth l₁ (first + root) = nth l (first + cS) :=
          nth_swapL_left hroot_lt hcS_lt
        have hval_cS : nth l₁ (first + cS) = nth l (first + root) :=
          nth_swapL_right hcS_lt
        have hval_ne : ∀ x, x ≠ first + root → x ≠ first + cS → nth l₁ x = nth l x :=
          fun x h1 h2 => nth_swapL_ne h1 h2
        refine ⟨?_, ?_, ?_, ?_⟩
        · apply rangeOp_trans _ R1
          exact rangeOp_swapL (by omega) (by omega) (by omega) (by omega) (by omega)
        · intro x hx1 hx2
          rw [R2 x (by omega) (by omega), hval_ne x hx1 (by omega)]
        · refine ⟨cS, Or.inr ⟨hcS1.1, hcS1.2.1, hcS1.2.2⟩, ?_⟩
          rw [R2 (first + root) (by omega) (by omega), hval_root]
        · intro H
          have H₁ : IsHeapFrom l₁ hi first (cS + 1) := by
            intro c h1 h2 h3
            rw [hval_ne (first + c) (by omega) (by omega),
              hval_ne (first + (c - 1) / 2) (by omega) (by omega)]
            exact H c h1 h2 (by omega)
          have Hres := R4 H₁
          intro c h1 h2 h3
          rcases Nat.lt_or_ge ((c - 1) / 2) cS with hp | hp
          · rcases Nat.eq_or_lt_of_le h3 with hpe | hpl
            · -- parent = root: c is a child of root
              have hc_child : c = 2 * root + 1 ∨ c = 2 * root + 2 := by omega
              have hroot_val : nth (siftDown fuel l₁ cS hi first) (first + root) =
                  nth l (first + cS) := by
                rw [R2 (first + root) (by omega) (by omega), hval_root]
              rw [← hpe, hroot_val]
              by_cases hccS : c = cS
              · -- value now at cS after the recursive sift
                rw [hccS]
                obtain ⟨d, hd1, hd2⟩ := R3
                rw [hd2]
                rcases hd1 with hd | hd
                · rw [hd, hval_cS]
                  exact le_of_lt hcmp
                · rw [hval_ne (first + d) (by omega) (by omega)]
                  have hH := H d (by omega) hd.2.2 (by omega)
                  have hde : first + (d - 1) / 2 = first + cS := by omega
                  rw [hde] at hH
                  exact hH
              · -- c is the sibling of cS, untouched by the swap and the sift
                have hcne : c ≠ cS := hccS
                rw [R2 (first + c) (by omega) (by omega),
                  hval_ne (first + c) (by omega) (by omega)]
                rcases hc_child with hc | hc
                · rw [hc]; exact hcSmax1
                · rw [hc]; exact hcSmax2 (by omega)
            · -- root < parent < cS : edge untouched by swap and sift
              have hc_ne : c ≠ cS := by omega
              have hc_lt : c < 2 * cS + 1 := by omega
              rw [R2 (first + c) (by omega) (by omega),
                hval_ne (first + c) (by omega) (by omega),
                R2 (first + (c - 1) / 2) (by omega) (by omega),
                hval_ne (first + (c - 1) / 2) (by omega) (by omega)]
              exact H c h1 h2 (by omega)
          · exact Hres c h1 h2 hp
      · rw [if_neg hcmp]
        refine ⟨rangeOp_refl _ _ _, fun x _ _ => rfl, ⟨root, Or.inl rfl, rfl⟩, ?_⟩
        intro H c h1 h2 h3
        rcases Nat.eq_or_lt_of_le h3 with hpe | hpl
        · have hc_child : c = 2 * root + 1 ∨ c = 2 * root + 2 := by omega
          rw [← hpe]
          have := not_lt.1 hcmp
          rcases hc_child with hc | hc
          · rw [hc]; exact hcSmax1.trans this
          · rw [hc]; exact (hcSmax2 (by omega)).trans this
        · exact H c h1 h2 (by omega)
    · rw [if_neg hc0]
      refine ⟨rangeOp_refl _ _ _, fun x _ _ => rfl, ⟨root, Or.inl rfl, rfl⟩, ?_⟩
      intro H c h1 h2 h3
      rcases Nat.eq_or_lt_of_le h3 with hpe | hpl
      · omega
      · exact H c h1 h2 (by omega)

end Kth

namespace Kth

variable {α : Type} [LinearOrder α] [Inhabited α]

theorem ub_transfer {a b : Nat} {l l' : List α} (h : RangeOp a b l l')
    (hb : b ≤ l.length) (c : α) (hP : ∀ x, a ≤ x → x < b → nth l x ≤ c) :
    ∀ x, a ≤ x → x < b → nth l' x ≤ c := by
  intro x hx1 hx2
  have hmem : nth l' x ∈ rangeSlice l' a b := mem_rangeSlice_of hx1 hx2 (h.1 ▸ hb)
  obtain ⟨j', hj1, hj2, hj3⟩ := exists_of_mem_rangeSlice (h.2.2.mem_iff.1 hmem) hb
  rw [← hj3]
  exact hP j' hj1 hj2

theorem heapify_spec (hi first : Nat) :
    ∀ i (l : List α), first + hi ≤ l.length → IsHeapFrom l hi first (i + 1) →
      RangeOp first (first + hi) l (heapify l hi first i) ∧
      (heapify l hi first i).length = l.length ∧
      IsHeapFrom (heapify l hi first i) hi first 0 := by
  intro i
  induction i with
  | zero =>
    intro l hlen hH
    obtain ⟨S1, S2, S3, S4⟩ := siftDown_spec hi first (hi + 1) l 0 hlen (by omega)
    exact ⟨S1, S1.1, S4 hH⟩
  | succ i ih =>
    intro l hlen hH
    obtain ⟨S1, S2, S3, S4⟩ := siftDown_spec hi first (hi + 1) l (i + 1) hlen (by omega)
    have hH' : IsHeapFrom (siftDown (hi + 1) l (i + 1) hi first) hi first (i + 1) := S4 hH
    obtain ⟨I1, I2, I3⟩ := ih (siftDown (hi + 1) l (i + 1) hi first) (by rw [S1.1]; exact hlen) hH'
    exact ⟨rangeOp_trans S1 I1, by rw [heapify, I2, S1.1], I3⟩

theorem isHeap_root_max {l : List α} {hi first : Nat} (hH : IsHeapFrom l hi first 0) :
    ∀ c, c < hi → nth l (first + c) ≤ nth l first := by
  intro c
  induction c using Nat.strong_induction_on with
  | _ c ih =>
    intro hc
    rcases Nat.eq_zero_or_pos c with hc0 | hc1
    · subst hc0
      simp
    · have h1 := hH c hc1 hc (Nat.zero_le _)
      have h2 := ih ((c - 1) / 2) (by omega) (by omega)
      exact h1.trans h2

theorem heapScan_spec (n hi first : Nat) (hhi : 1 ≤ hi) (hn : hi ≤ n) :
    ∀ fuel (l : List α) i, first + n ≤ l.length → hi ≤ i → i ≤ n → n ≤ i + fuel →
      IsHeapFrom l hi first 0 →
      (∀ y, first + hi ≤ y → y < first + i → ∀ x, first ≤ x → x < first + hi →
        nth l x ≤ nth l y) →
      RangeOp first (first + n) l (heapScan n hi first fuel l i) ∧
      (heapScan n hi first fuel l i).length = l.length ∧
      IsHeapFrom (heapScan n hi first fuel l i) hi first 0 ∧
      (∀ y, first + hi ≤ y → y < first + n → ∀ x, first ≤ x → x < first + hi →
        nth (heapScan n hi first fuel l i) x ≤ nth (heapScan n hi first fuel l i) y) := by
  intro fuel
  induction fuel with
  | zero =>
    intro l i hlen hhii hin hf hH hdom
    have : i = n := by omega
    subst this
    rw [heapScan]
    exact ⟨rangeOp_refl _ _ _, rfl, hH, hdom⟩
  | succ fuel ih =>
    intro l i hlen hhii hin hf hH hdom
    simp only [heapScan]
    by_cases hcond : i < n
    · rw [if_pos hcond]
      have hfl : first < l.length := by omega
      have hjl : first + i < l.length := by omega
      by_cases hlt : nth l (first + i) < nth l first
      · rw [if_pos hlt]
        set l₁ := swapL l first (first + i) with hl₁
        have hlen₁ : l₁.length = l.length := by rw [hl₁]; simp
        have hv_first : nth l₁ first = nth l (first + i) := nth_swapL_left hfl hjl
        have hv_j : nth l₁ (first + i) = nth l first := nth_swapL_right hjl
        have hv_ne : ∀ x, x ≠ first → x ≠ first + i → nth l₁ x = nth l x :=
          fun x h1 h2 => nth_swapL_ne h1 h2
        obtain ⟨S1, S2, S3, S4⟩ :=
          siftDown_spec hi first (hi + 1) l₁ 0 (by omega) (by omega)
        set l₂ := siftDown (hi + 1) l₁ 0 hi first with hl₂
        have hH₁ : IsHeapFrom l₁ hi first 1 := by
          intro c h1 h2 h3
          rw [hv_ne (first + c) (by omega) (by omega),
            hv_ne (first + (c - 1) / 2) (by omega) (by omega)]
          exact hH c h1 h2 (Nat.zero_le _)
        have hH₂ : IsHeapFrom l₂ hi first 0 := S4 hH₁
        have hlen₂ : l₂.length = l.length := by rw [S1.1, hlen₁]
        have hRheap : RangeOp first (first + hi) l₁ l₂ := S1
        have hRootMax : ∀ c, c < hi → nth l (first + c) ≤ nth l first :=
          isHeap_root_max hH
        -- every heap value of l₁ is at most the old root
        have hUB : ∀ x, first ≤ x → x < first + hi → nth l₁ x ≤ nth l first := by
          intro x hx1 hx2
          by_cases hxf : x = first
          · rw [hxf, hv_first]
            exact le_of_lt hlt
          · rw [hv_ne x hxf (by omega)]
            have : x = first + (x - first) := by omega
            rw [this]
            exact hRootMax (x - first) (by omega)
        have hdom₂ : ∀ y, first + hi ≤ y → y < first + (i + 1) → ∀ x, first ≤ x →
            x < first + hi → nth l₂ x ≤ nth l₂ y := by
          intro y hy1 hy2 x hx1 hx2
          have hyv : nth l₂ y = nth l₁ y := (S1.2.1 y (Or.inr (by omega)))
          by_cases hyi : y = first + i
          · rw [hyv, hyi, hv_j]
            exact ub_transfer hRheap (by omega) (nth l first) hUB x hx1 hx2
          · have hyv2 : nth l₁ y = nth l y := hv_ne y (by omega) hyi
            rw [hyv, hyv2]
            have hUB2 : ∀ x, first ≤ x → x < first + hi → nth l₁ x ≤ nth l y := by
              intro x2 hx21 hx22
              by_cases hxf : x2 = first
              · rw [hxf, hv_first]
                have h5 := hdom y hy1 (by omega) first (le_refl _) (by omega)
                exact le_of_lt (lt_of_lt_of_le hlt h5)
              · rw [hv_ne x2 hxf (by omega)]
                exact hdom y hy1 (by omega) x2 hx21 hx22
            exact ub_transfer hRheap (by omega) (nth l y) hUB2 x hx1 hx2
        obtain ⟨I1, I2, I3, I4⟩ := ih l₂ (i + 1) (by omega) (by omega) (by omega)
          (by omega) hH₂ hdom₂
        refine ⟨?_, by rw [I2, hlen₂], I3, I4⟩
        have hRa : RangeOp first (first + n) l l₁ :=
          rangeOp_swapL (le_refl _) (by omega) (by omega) (by omega) (by omega)
        have hRb : RangeOp first (first + n) l₁ l₂ :=
          rangeOp_mono hRheap (le_refl _) (by omega) (by omega) (by omega) (by omega)
        exact rangeOp_trans (rangeOp_trans hRa hRb) I1
      · rw [if_neg hlt]
        have hdom' : ∀ y, first + hi ≤ y → y < first + (i + 1) → ∀ x, first ≤ x →
            x < first + hi → nth l x ≤ nth l y := by
          intro y hy1 hy2 x hx1 hx2
          by_cases hyi : y = first + i
          · subst hyi
            have h1 : nth l x ≤ nth l first := by
              have : x = first + (x - first) := by omega
              rw [this]
              exact isHeap_root_max hH (x - first) (by omega)
            exact h1.trans (not_lt.1 hlt)
          · exact hdom y hy1 (by omega) x hx1 hx2
        exact ih l (i + 1) hlen (by omega) (by omega) (by omega) hH hdom'
    · rw [if_neg hcond]
      have : i = n := by omega
      subst this
      exact ⟨rangeOp_refl _ _ _, rfl, hH, hdom⟩

theorem heapSelect_spec {l : List α} {a b r : Nat} (hr : r < b - a) (hb : b ≤ l.length) :
    RangeOp a b l (heapSelect l a b r) ∧
    nth (heapSelect l a b r) (a + r) = nth (sortL (rangeSlice l a b)) r ∧
    (∀ x, a ≤ x → x ≤ a + r →
      nth (heapSelect l a b r) x ≤ nth (heapSelect l a b r) (a + r)) ∧
    (∀ x, a + r ≤ x → x < b →
      nth (heapSelect l a b r) (a + r) ≤ nth (heapSelect l a b r) x) := by
  have hab : a < b := by omega
  have hH0 : IsHeapFrom l (r + 1) a (r / 2 + 1) := by
    intro c h1 h2 h3
    omega
  obtain ⟨F1, F2, F3⟩ := heapify_spec (r + 1) a (r / 2) l (by omega) hH0
  set l₁ := heapify l (r + 1) a (r / 2) with hl₁
  obtain ⟨G1, G2, G3, G4⟩ := heapScan_spec (b - a) (r + 1) a (by omega) (by omega)
    (l.length + 2) l₁ (r + 1) (by omega) (le_refl _) (by omega) (by omega) F3
    (by intro y hy1 hy2 x hx1 hx2; omega)
  set l₂ := heapScan (b - a) (r + 1) a (l.length + 2) l₁ (r + 1) with hl₂
  have hlen₂ : l₂.length = l.length := by rw [G2, F2]
  have hfix : a + (b - a) = b := by omega
  have hRall : RangeOp a b l l₂ := by
    have h1 : RangeOp a b l l₁ :=
      rangeOp_mono F1 (le_refl _) (by omega) (by omega) (by omega) hb
    have h2 : RangeOp a b l₁ l₂ := by
      have := G1
      rw [hfix] at this
      exact this
    exact rangeOp_trans h1 h2
  have hRootMax : ∀ c, c < r + 1 → nth l₂ (a + c) ≤ nth l₂ a := isHeap_root_max G3
  have hDom : ∀ y, a + (r + 1) ≤ y → y < b → ∀ x, a ≤ x → x < a + (r + 1) →
      nth l₂ x ≤ nth l₂ y := by
    intro y hy1 hy2 x hx1 hx2
    exact G4 y hy1 (by omega) x hx1 hx2
  set l₃ := swapL l₂ a (a + r) with hl₃
  have harl : a + r < l₂.length := by omega
  have hal : a < l₂.length := by omega
  have hv_ar : nth l₃ (a + r) = nth l₂ a := nth_swapL_right harl
  have hv_a : nth l₃ a = nth l₂ (a + r) := nth_swapL_left hal harl
  have hv_ne : ∀ x, x ≠ a → x ≠ a + r → nth l₃ x = nth l₂ x :=
    fun x h1 h2 => nth_swapL_ne h1 h2
  have hR₃ : RangeOp a b l l₃ := by
    apply rangeOp_trans hRall
    exact rangeOp_swapL (le_refl _) hab (by omega) (by omega) (by omega)
  have hle_part : ∀ x, a ≤ x → x ≤ a + r → nth l₃ x ≤ nth l₃ (a + r) := by
    intro x hx1 hx2
    rw [hv_ar]
    rcases Nat.eq_or_lt_of_le hx2 with he | hlt
    · rw [he, hv_ar]
    · by_cases hxa : x = a
      · rw [hxa, hv_a]
        exact hRootMax r (by omega)
      · rw [hv_ne x hxa (by omega)]
        have : x = a + (x - a) := by omega
        rw [this]
        exact hRootMax (x - a) (by omega)
  have hge_part : ∀ x, a + r ≤ x → x < b → nth l₃ (a + r) ≤ nth l₃ x := by
    intro x hx1 hx2
    rcases Nat.eq_or_lt_of_le hx1 with he | hlt
    · rw [← he]
    · rw [hv_ar, hv_ne x (by omega) (by omega)]
      exact hDom x (by omega) hx2 a (le_refl _) (by omega)
  have hlen₃ : l₃.length = l.length := by rw [hl₃]; simp [hlen₂]
  have hselAt : SelAt (rangeSlice l₃ a b) r := by
    constructor
    · intro i hi
      rw [nth_rangeSlice (by omega) (by omega), nth_rangeSlice (by omega) (by omega)]
      exact hle_part (a + i) (by omega) (by omega)
    · intro i hi hil
      rw [length_rangeSlice (by omega)] at hil
      rw [nth_rangeSlice (by omega) (by omega), nth_rangeSlice (by omega) (by omega)]
      exact hge_part (a + i) (by omega) (by omega)
  have hperm_slice : (rangeSlice l₃ a b).Perm (rangeSlice l a b) := hR₃.2.2
  obtain ⟨hc1, hc2⟩ := selAt_block hperm_slice (by rw [length_rangeSlice (by omega)]; omega)
    hselAt
  have hval : nth l₃ (a + r) = nth (sortL (rangeSlice l a b)) r := by
    rw [← hc1, nth_rangeSlice (by omega) (by omega)]
  -- package the result: heapSelect unfolds to l₃
  have hsel_eq : heapSelect l a b r = l₃ := by
    rw [heapSelect, hl₃, hl₂, hl₁]
  rw [hsel_eq]
  exact ⟨hR₃, hval, hle_part, hge_part⟩

theorem heapExtract_rangeOp (b0 : Nat) :
    ∀ fuel (l : List α) sz first, first + sz ≤ b0 → b0 ≤ l.length → first ≤ b0 →
      RangeOp first b0 l (heapExtract fuel l sz first) := by
  intro fuel
  induction fuel with
  | zero => intro l sz first h1 h2 h3; rw [heapExtract]; exact rangeOp_refl _ _ _
  | succ fuel ih =>
    intro l sz first h1 h2 h3
    rw [heapExtract]
    by_cases hc : 2 ≤ sz
    · rw [if_pos hc]
      have hs : RangeOp first b0 l (swapL l first (first + sz - 1)) :=
        rangeOp_swapL (le_refl _) (by omega) (by omega) (by omega) h2
      obtain ⟨S1, _, _, _⟩ := siftDown_spec (sz - 1) first (sz + 1)
        (swapL l first (first + sz - 1)) 0 (by simp; omega) (by omega)
      have hsift : RangeOp first b0 (swapL l first (first + sz - 1))
          (siftDown (sz + 1) (swapL l first (first + sz - 1)) 0 (sz - 1) first) :=
        rangeOp_mono S1 (le_refl _) (by omega) h3 (by omega) (by simp; omega)
      have hlen1 : (siftDown (sz + 1) (swapL l first (first + sz - 1)) 0 (sz - 1) first).length
          = l.length := by
        rw [S1.1]
        simp
      exact rangeOp_trans (rangeOp_trans hs hsift)
        (ih _ (sz - 1) first (by omega) (by rw [hlen1]; exact h2) h3)
    · rw [if_neg hc]
      exact rangeOp_refl _ _ _

end Kth

/-! ## The limit counter arithmetic (unreachability of the heap fallback) -/

namespace Kth

variable {α : Type} [LinearOrder α] [Inhabited α]

theorem two_pow_le_size : ∀ L : Nat, 2 ^ L ≤ 13 * 8 ^ (L / 2)
  | 0 => by norm_num
  | 1 => by norm_num
  | (L + 2) => by
    have ih := two_pow_le_size L
    have h1 : (L + 2) / 2 = L / 2 + 1 := by omega
    rw [h1]
    calc 2 ^ (L + 2) = 2 ^ L * 4 := by ring
      _ ≤ 13 * 8 ^ (L / 2) * 4 := Nat.mul_le_mul_right _ ih
      _ ≤ 13 * 8 ^ (L / 2) * 8 := Nat.mul_le_mul_left _ (by norm_num)
      _ = 13 * 8 ^ (L / 2 + 1) := by ring

theorem numInv_limit_zero {n₀ L0 len : Nat} {wasBal : Bool} {q : Prop}
    (hN : NumInv n₀ L0 len 0 wasBal q) (hlen : 13 ≤ len) (hn : n₀ < 2 ^ L0) :
    False := by
  obtain ⟨h1, h2⟩ := hN
  have hmono : ∀ e e' : Nat, e ≤ e' → 8 ^ e ≤ 8 ^ e' := fun e e' h =>
    Nat.pow_le_pow_right (by norm_num) h
  have key : 8 ^ (L0 / 2) * 13 ≤ n₀ := by
    cases wasBal with
    | true =>
      simp only [Nat.sub_zero] at h2
      calc 8 ^ (L0 / 2) * 13 ≤ 8 ^ (L0 / 2) * len := Nat.mul_le_mul_left _ hlen
        _ ≤ n₀ := h2
    | false =>
      simp only [Nat.sub_zero] at h2
      rcases h2 with h2 | ⟨_, h2⟩
      · calc 8 ^ (L0 / 2) * 13 ≤ 8 ^ (L0 / 2 + 1) * len :=
          Nat.mul_le_mul (hmono _ _ (by omega)) hlen
          _ ≤ n₀ := h2
      · calc 8 ^ (L0 / 2) * 13 ≤ 8 ^ ((L0 + 1) / 2) * len :=
          Nat.mul_le_mul (hmono _ _ (by omega)) hlen
          _ ≤ n₀ := h2
  have h3 := two_pow_le_size L0
  omega

theorem numInv_partition_step {n₀ L0 len len' limit : Nat} {wasBal : Bool} {q : Prop}
    (wasBal' : Bool) (q' : Prop) (h : NumInv n₀ L0 len limit wasBal q)
    (hlim0 : limit ≠ 0) (hlen' : len' < len)
    (himb : wasBal' = false → 8 * len' ≤ len) :
    NumInv n₀ L0 len' (if wasBal then limit else limit - 1) wasBal' q' := by
  obtain ⟨h1, h2⟩ := h
  have hmono : ∀ e e' : Nat, e ≤ e' → 8 ^ e ≤ 8 ^ e' := fun e e' h =>
    Nat.pow_le_pow_right (by norm_num) h
  have hstep : ∀ e len0, 8 ^ e * len ≤ n₀ → 8 * len' ≤ len0 → len0 ≤ len →
      8 ^ (e + 1) * len' ≤ n₀ := by
    intro e len0 hh h8 hl0
    calc 8 ^ (e + 1) * len' = 8 ^ e * (8 * len') := by ring
      _ ≤ 8 ^ e * len := Nat.mul_le_mul_left _ (by omega)
      _ ≤ n₀ := hh
  cases wasBal with
  | true =>
    rw [if_pos rfl]
    refine ⟨h1, ?_⟩
    cases wasBal' with
    | true =>
      exact le_trans (Nat.mul_le_mul_left _ (by omega)) h2
    | false =>
      left
      exact hstep _ len h2 (himb rfl) (le_refl _)
  | false =>
    rw [if_neg Bool.false_ne_true]
    refine ⟨by omega, ?_⟩
    have hd : L0 - (limit - 1) = (L0 - limit) + 1 := by omega
    rw [hd]
    have hBound : 8 ^ (((L0 - limit) + 1) / 2) * len ≤ n₀ := by
      rcases h2 with h2 | ⟨_, h2⟩
      · exact le_trans (Nat.mul_le_mul_right _ (hmono _ _ (by omega))) h2
      · exact h2
    cases wasBal' with
    | true =>
      exact le_trans (Nat.mul_le_mul_left _ (by omega)) hBound
    | false =>
      left
      exact hstep _ len hBound (himb rfl) (le_refl _)

theorem numInv_equal_step {n₀ L0 len len' limit : Nat} {wasBal : Bool} {q : Prop}
    (q' : Prop) (h : NumInv n₀ L0 len limit wasBal q)
    (hlim0 : limit ≠ 0) (hlen' : len' < len)
    (hB : wasBal = false → 8 ^ ((L0 - limit) / 2 + 1) * len ≤ n₀)
    (hq' : q') :
    NumInv n₀ L0 len' (if wasBal then limit else limit - 1) wasBal q' := by
  obtain ⟨h1, h2⟩ := h
  cases wasBal with
  | true =>
    rw [if_pos rfl]
    exact ⟨h1, le_trans (Nat.mul_le_mul_left _ (by omega)) h2⟩
  | false =>
    rw [if_neg Bool.false_ne_true]
    refine ⟨by omega, Or.inr ⟨hq', ?_⟩⟩
    have hd : (L0 - (limit - 1) + 1) / 2 = (L0 - limit) / 2 + 1 := by omega
    rw [hd]
    exact le_trans (Nat.mul_le_mul_left _ (by omega)) (hB rfl)

theorem scanMinIdx_spec (l : List α) (b : Nat) :
    ∀ fuel i mn, b ≤ i + fuel →
      ((scanMinIdx l b fuel i mn = mn ∨
        (i ≤ scanMinIdx l b fuel i mn ∧ scanMinIdx l b fuel i mn < b)) ∧
       nth l (scanMinIdx l b fuel i mn) ≤ nth l mn ∧
       (∀ x, i ≤ x → x < b → nth l (scanMinIdx l b fuel i mn) ≤ nth l x)) := by
  intro fuel
  induction fuel with
  | zero =>
    intro i mn hf
    rw [scanMinIdx]
    exact ⟨Or.inl rfl, le_refl _, fun x h1 h2 => by omega⟩
  | succ fuel ih =>
    intro i mn hf
    rw [scanMinIdx]
    by_cases hc : i < b
    · rw [if_pos hc]
      obtain ⟨g1, g2, g3⟩ := ih (i + 1) (if nth l i < nth l mn then i else mn) (by omega)
      have hmn' : nth l (if nth l i < nth l mn then i else mn) ≤ nth l mn := by
        split
        · next h => exact le_of_lt h
        · exact le_refl _
      have hmni : nth l (if nth l i < nth l mn then i else mn) ≤ nth l i := by
        split
        · exact le_refl _
        · next h => exact not_lt.1 h
      refine ⟨?_, g2.trans hmn', ?_⟩
      · rcases g1 with g1 | g1
        · rw [g1]
          split
          · right; omega
          · left; rfl
        · right; omega
      · intro x hx1 hx2
        rcases Nat.eq_or_lt_of_le hx1 with he | hlt
        · rw [← he]
          exact g2.trans hmni
        · exact g3 x hlt hx2
    · rw [if_neg hc]
      exact ⟨Or.inl rfl, le_refl _, fun x h1 h2 => by omega⟩

theorem scanMaxIdx_spec (l : List α) (b : Nat) :
    ∀ fuel i mx, b ≤ i + fuel →
      ((scanMaxIdx l b fuel i mx = mx ∨
        (i ≤ scanMaxIdx l b fuel i mx ∧ scanMaxIdx l b fuel i mx < b)) ∧
       nth l mx ≤ nth l (scanMaxIdx l b fuel i mx) ∧
       (∀ x, i ≤ x → x < b → nth l x ≤ nth l (scanMaxIdx l b fuel i mx))) := by
  intro fuel
  induction fuel with
  | zero =>
    intro i mx hf
    rw [scanMaxIdx]
    exact ⟨Or.inl rfl, le_refl _, fun x h1 h2 => by omega⟩
  | succ fuel ih =>
    intro i mx hf
    rw [scanMaxIdx]
    by_cases hc : i < b
    · rw [if_pos hc]
      obtain ⟨g1, g2, g3⟩ := ih (i + 1) (if nth l mx < nth l i then i else mx) (by omega)
      have hmx' : nth l mx ≤ nth l (if nth l mx < nth l i then i else mx) := by
        split
        · next h => exact le_of_lt h
        · exact le_refl _
      have hmxi : nth l i ≤ nth l (if nth l mx < nth l i then i else mx) := by
        split
        · exact le_refl _
        · next h => exact not_lt.1 h
      refine ⟨?_, hmx'.trans g2, ?_⟩
      · rcases g1 with g1 | g1
        · rw [g1]
          split
          · right; omega
          · left; rfl
        · right; omega
      · intro x hx1 hx2
        rcases Nat.eq_or_lt_of_le hx1 with he | hlt
        · rw [← he]
          exact hmxi.trans g2
        · exact g3 x hlt hx2
    · rw [if_neg hc]
      exact ⟨Or.inl rfl, le_refl _, fun x h1 h2 => by omega⟩

end Kth

/-! ## The master invariant of the `Kth.pdqLoop` core -/

namespace Kth

variable {α : Type} [LinearOrder α] [Inhabited α]

/-- Master theorem for `Kth.pdqLoop`: under the outside-placed invariant
`Out`, the numeric limit invariant `NumInv` (with budget `L0` covering the
initial size `n₀`), and a fuel bound, the loop establishes the selection
postcondition at the absolute target `k`, permutes only `[a, b)`, and
preserves the multiset. -/
theorem pdqLoop_master {α : Type} [LinearOrder α] [Inhabited α] {S : List α} {n₀ L0 : Nat}
    (hn₀ : n₀ < 2 ^ L0) :
    ∀ fuel (l : List α) (a b k limit : Nat) (wasBal wasPart : Bool),
      b - a ≤ fuel → l.Perm S → b ≤ l.length → a ≤ k → k < b →
      Out l a b → NumInv n₀ L0 (b - a) limit wasBal (Qprop l a b) →
      SelAt (pdqLoop fuel l a b k limit wasBal wasPart) k ∧
      (pdqLoop fuel l a b k limit wasBal wasPart).Perm S ∧
      (pdqLoop fuel l a b k limit wasBal wasPart).length = l.length ∧
      (∀ x, x < a ∨ b ≤ x → nth (pdqLoop fuel l a b k limit wasBal wasPart) x = nth l x) := by
  intro fuel
  induction fuel with
  | zero =>
    intro l a b k limit wasBal wasPart hf hperm hb hak hkb hOut hN
    exfalso
    omega
  | succ fuel ih =>
    intro l a b k limit wasBal wasPart hf hperm hb hak hkb hOut hN
    have hab' : a < b := by omega
    have hab : a ≤ b := by omega
    by_cases h12 : b - a ≤ 12
    · have he : pdqLoop (fuel + 1) l a b k limit wasBal wasPart = insertionSort l a b := by
        simp only [pdqLoop]
        rw [if_pos h12]
      rw [he]
      have hR := insertionSort_rangeOp hab hb
      refine ⟨?_, (rangeOp_perm hR hab hb).trans hperm, hR.1, hR.2.1⟩
      exact selAt_of_sortedRange (out_transfer hR hOut hab hb)
        (insertionSort_sortedRange hab hb) hak hkb (by rw [hR.1]; exact hb)
    · by_cases hlim : limit = 0
      · exfalso
        exact numInv_limit_zero (hlim ▸ hN) (by omega) hn₀
      · simp only [pdqLoop]
        rw [if_neg h12, if_neg hlim]
        set l₁ := if wasBal then l else breakPatterns l a b with hl₁
        set limit₁ := if wasBal then limit else limit - 1 with hlimit₁
        set pc := choosePivot l₁ a b with hpcdef
        set l₂ := if pc.2 = Hint.dec then reverseRange l₁ a b else l₁ with hl₂
        set pivot := if pc.2 = Hint.dec then b - 1 - (pc.1 - a) else pc.1 with hpivot
        set hint := if pc.2 = Hint.dec then Hint.inc else pc.2 with hhint
        set pr := if wasBal ∧ wasPart ∧ hint = Hint.inc then partialInsertionSort l₂ a b
          else (l₂, false) with hprdef
        have hR1 : RangeOp a b l l₁ := by
          rw [hl₁]
          by_cases hw : wasBal = true
          · rw [if_pos hw]
            exact rangeOp_refl a b l
          · rw [if_neg hw]
            exact breakPatterns_rangeOp (by omega) hb
        have hb₁ : b ≤ l₁.length := by rw [hR1.1]; exact hb
        have hpcr : a ≤ pc.1 ∧ pc.1 < b := by
          rw [hpcdef]
          exact choosePivot_range hab'
        have hR2 : RangeOp a b l₁ l₂ := by
          rw [hl₂]
          by_cases hd : pc.2 = Hint.dec
          · rw [if_pos hd]
            exact reverseRange_rangeOp hab hb₁
          · rw [if_neg hd]
            exact rangeOp_refl a b l₁
        have hb₂ : b ≤ l₂.length := by rw [hR2.1]; exact hb₁
        have hpivr : a ≤ pivot ∧ pivot < b := by
          rw [hpivot]
          by_cases hd : pc.2 = Hint.dec
          · rw [if_pos hd]
            omega
          · rw [if_neg hd]
            exact hpcr
        have hR3' : RangeOp a b l₂ pr.1 := by
          rw [hprdef]
          by_cases hc : wasBal ∧ wasPart ∧ hint = Hint.inc
          · rw [if_pos hc]
            exact partialInsertionSort_rangeOp hab hb₂
          · rw [if_neg hc]
            exact rangeOp_refl a b l₂
        set l₃ := pr.1 with hl₃
        have hR3 : RangeOp a b l l₃ := rangeOp_trans (rangeOp_trans hR1 hR2) hR3'
        have hb₃ : b ≤ l₃.length := by rw [hR3.1]; exact hb
        have hOut₃ : Out l₃ a b := out_transfer hR3 hOut hab hb
        by_cases hprb : pr.2 = true
        · rw [if_pos hprb]
          have hsr : SortedRange l₃ a b := by
            rw [hl₃, hprdef]
            rw [hprdef] at hprb
            by_cases hc : wasBal ∧ wasPart ∧ hint = Hint.inc
            · rw [if_pos hc] at hprb ⊢
              exact partialInsertionSort_sorted hab hb₂ hprb
            · rw [if_neg hc] at hprb
              simp at hprb
          refine ⟨?_, (rangeOp_perm hR3 hab hb).trans hperm, hR3.1, hR3.2.1⟩
          exact selAt_of_sortedRange hOut₃ hsr hak hkb hb₃
        · rw [if_neg hprb]
          by_cases hce : 0 < a ∧ ¬ nth l₃ (a - 1) < nth l₃ pivot
          · rw [if_pos hce]
            have hp : ∀ x, a ≤ x → x < b → nth l₃ pivot ≤ nth l₃ x := fun x hax hxb =>
              le_trans (not_lt.1 hce.2) (hOut₃.1 (a - 1) x (by omega) hax hxb)
            obtain ⟨E1, E2, E3, E4, E5⟩ := partitionEqual_spec hpivr.1 hpivr.2 hab' hb₃ hp
            set pe := partitionEqual l₃ a b pivot with hpedef
            have hRtot : RangeOp a b l pe.1 := rangeOp_trans hR3 E1
            by_cases hk : k < pe.2
            · rw [if_pos hk]
              refine ⟨⟨?_, ?_⟩, (rangeOp_perm hRtot hab hb).trans hperm, hRtot.1, hRtot.2.1⟩
              · intro i hik
                have hkpv : nth pe.1 k = nth l₃ pivot := E4 k hak hk
                rcases Nat.lt_or_ge i a with hia | hia
                · rw [E1.2.1 i (Or.inl hia), hkpv]
                  exact hOut₃.1 i pivot hia hpivr.1 hpivr.2
                · exact le_of_eq ((E4 i hia (by omega)).trans hkpv.symm)
              · intro i hki hil
                have hkpv : nth pe.1 k = nth l₃ pivot := E4 k hak hk
                rcases Nat.lt_or_ge i pe.2 with hi2 | hi2
                · exact le_of_eq (hkpv.trans (E4 i (by omega) hi2).symm)
                · rcases Nat.lt_or_ge i b with hib | hib
                  · rw [hkpv]
                    exact le_of_lt (E5 i hi2 hib)
                  · rw [hkpv, E1.2.1 i (Or.inr hib)]
                    exact hOut₃.2.1 pivot i hpivr.1 hpivr.2 hib (by have := E1.1; omega)
            · rw [if_neg hk]
              have hk' : pe.2 ≤ k := not_lt.1 hk
              have hOutP : Out pe.1 a b := out_transfer hRtot hOut hab hb
              have hOut' : Out pe.1 pe.2 b := by
                refine ⟨?_, ?_, ?_⟩
                · intro i j hi haj hjb
                  rcases Nat.lt_or_ge i a with hia | hia
                  · exact hOutP.1 i j hia (by omega) hjb
                  · rw [E4 i hia (by omega)]
                    exact le_of_lt (E5 j haj hjb)
                · intro i j hai hib hbj hjl
                  exact hOutP.2.1 i j (by omega) hib hbj hjl
                · intro i j hi hbj hjl
                  rcases Nat.lt_or_ge i a with hia | hia
                  · exact hOutP.2.2 i j hia hbj hjl
                  · rw [E4 i hia (by omega), E1.2.1 j (Or.inr hbj)]
                    exact hOut₃.2.1 pivot j hpivr.1 hpivr.2 hbj (by have := E1.1; omega)
              have hq' : Qprop pe.1 pe.2 b := by
                refine ⟨by omega, fun j hj hjb => ?_⟩
                rw [E4 (pe.2 - 1) (by omega) (by omega)]
                exact E5 j hj hjb
              have hB : wasBal = false → 8 ^ ((L0 - limit) / 2 + 1) * (b - a) ≤ n₀ := by
                intro hw
                subst hw
                rcases hN.2 with h2 | ⟨hq, _⟩
                · exact h2
                · exfalso
                  have hq₃ := qprop_transfer hR3 hq hab hb
                  exact hce.2 (hq₃.2 pivot hpivr.1 hpivr.2)
              have hNum' : NumInv n₀ L0 (b - pe.2) limit₁ wasBal (Qprop pe.1 pe.2 b) := by
                have hgo := numInv_equal_step (Qprop pe.1 pe.2 b) hN hlim
                  (show b - pe.2 < b - a by omega) hB hq'
                rw [← hlimit₁] at hgo
                exact hgo
              obtain ⟨I1, I2, I3, I4⟩ := ih pe.1 pe.2 b k limit₁ wasBal wasPart (by omega)
                ((rangeOp_perm hRtot hab hb).trans hperm) (by rw [hRtot.1]; exact hb)
                hk' hkb hOut' hNum'
              refine ⟨I1, I2, I3.trans hRtot.1, ?_⟩
              intro x hx
              have hx' : x < pe.2 ∨ b ≤ x := by
                rcases hx with hx | hx
                · exact Or.inl (by omega)
                · exact Or.inr hx
              rw [I4 x hx']
              exact hRtot.2.1 x hx
          · rw [if_neg hce]
            obtain ⟨P1, P2, P3, P4, P5, P6⟩ :=
              partition_spec hpivr.1 hpivr.2 hab' hb₃
                (partition l₃ a b pivot).1 (partition l₃ a b pivot).2.1
                (partition l₃ a b pivot).2.2 rfl
            set pt := partition l₃ a b pivot with hptdef
            have hRtot : RangeOp a b l pt.1 := rangeOp_trans hR3 P1
            have hOutP : Out pt.1 a b := out_transfer hRtot hOut hab hb
            by_cases hk1 : k = pt.2.1
            · rw [if_pos hk1]
              have hkpv : nth pt.1 k = nth l₃ pivot := by rw [hk1]; exact P4
              refine ⟨⟨?_, ?_⟩, (rangeOp_perm hRtot hab hb).trans hperm, hRtot.1, hRtot.2.1⟩
              · intro i hik
                rcases Nat.lt_or_ge i a with hia | hia
                · exact hOutP.1 i k hia hak hkb
                · rw [hkpv]
                  exact P5 i hia (by omega)
              · intro i hki hil
                rw [hkpv]
                rcases Nat.lt_or_ge i b with hib | hib
                · exact P6 i (by omega) hib
                · rw [P1.2.1 i (Or.inr hib)]
                  exact hOut₃.2.1 pivot i hpivr.1 hpivr.2 hib (by have := P1.1; omega)
            · rw [if_neg hk1]
              by_cases hk2 : k < pt.2.1
              · rw [if_pos hk2]
                have hOut' : Out pt.1 a pt.2.1 := by
                  refine ⟨?_, ?_, ?_⟩
                  · intro i j hi haj hjb
                    exact hOutP.1 i j hi haj (by omega)
                  · intro i j hai hib hbj hjl
                    rcases Nat.lt_or_ge j b with hjb | hjb
                    · rcases Nat.eq_or_lt_of_le hbj with he | hlt
                      · rw [← he, P4]
                        exact P5 i hai hib
                      · exact le_trans (P5 i hai hib) (P6 j hlt hjb)
                    · calc nth pt.1 i ≤ nth l₃ pivot := P5 i hai hib
                        _ = nth pt.1 pt.2.1 := P4.symm
                        _ ≤ nth pt.1 j := hOutP.2.1 pt.2.1 j P2 P3 hjb hjl
                  · intro i j hi hbj hjl
                    rcases Nat.lt_or_ge j b with hjb | hjb
                    · exact hOutP.1 i j hi (by omega) hjb
                    · exact hOutP.2.2 i j hi hjb hjl
                have hNum' : NumInv n₀ L0 (pt.2.1 - a) limit₁
                    (decide (pt.2.1 - a ≥ (b - a) / 8)) (Qprop pt.1 a pt.2.1) := by
                  have hgo := numInv_partition_step (decide (pt.2.1 - a ≥ (b - a) / 8))
                    (Qprop pt.1 a pt.2.1) hN hlim (show pt.2.1 - a < b - a by omega) ?him
                  · rw [← hlimit₁] at hgo
                    exact hgo
                  case him =>
                    intro hd
                    have hd' := of_decide_eq_false hd
                    omega
                obtain ⟨I1, I2, I3, I4⟩ := ih pt.1 a pt.2.1 k limit₁
                  (decide (pt.2.1 - a ≥ (b - a) / 8)) pt.2.2 (by omega)
                  ((rangeOp_perm hRtot hab hb).trans hperm) (by rw [hRtot.1]; omega)
                  hak hk2 hOut' hNum'
                refine ⟨I1, I2, I3.trans hRtot.1, ?_⟩
                intro x hx
                have hx' : x < a ∨ pt.2.1 ≤ x := by
                  rcases hx with hx | hx
                  · exact Or.inl hx
                  · exact Or.inr (by omega)
                rw [I4 x hx']
                exact hRtot.2.1 x hx
              · rw [if_neg hk2]
                have hmidk : pt.2.1 < k := by omega
                have hipvAll : ∀ i, a ≤ i → i ≤ pt.2.1 → nth pt.1 i ≤ nth l₃ pivot := by
                  intro i hai hi
                  rcases Nat.lt_or_ge i pt.2.1 with h | h
                  · exact P5 i hai h
                  · have hieq : i = pt.2.1 := by omega
                    rw [hieq, P4]
                have hOut' : Out pt.1 (pt.2.1 + 1) b := by
                  refine ⟨?_, ?_, ?_⟩
                  · intro i j hi haj hjb
                    rcases Nat.lt_or_ge i a with hia | hia
                    · exact hOutP.1 i j hia (by omega) hjb
                    · exact le_trans (hipvAll i hia (by omega)) (P6 j (by omega) hjb)
                  · intro i j hai hib hbj hjl
                    exact hOutP.2.1 i j (by omega) hib hbj hjl
                  · intro i j hi hbj hjl
                    rcases Nat.lt_or_ge i a with hia | hia
                    · exact hOutP.2.2 i j hia hbj hjl
                    · calc nth pt.1 i ≤ nth l₃ pivot := hipvAll i hia (by omega)
                        _ = nth pt.1 pt.2.1 := P4.symm
                        _ ≤ nth pt.1 j := hOutP.2.1 pt.2.1 j P2 P3 hbj hjl
                have hNum' : NumInv n₀ L0 (b - (pt.2.1 + 1)) limit₁
                    (decide (b - pt.2.1 ≥ (b - a) / 8)) (Qprop pt.1 (pt.2.1 + 1) b) := by
                  have hgo := numInv_partition_step (decide (b - pt.2.1 ≥ (b - a) / 8))
                    (Qprop pt.1 (pt.2.1 + 1) b) hN hlim
                    (show b - (pt.2.1 + 1) < b - a by omega) ?him2
                  · rw [← hlimit₁] at hgo
                    exact hgo
                  case him2 =>
                    intro hd
                    have hd' := of_decide_eq_false hd
                    omega
                obtain ⟨I1, I2, I3, I4⟩ := ih pt.1 (pt.2.1 + 1) b k limit₁
                  (decide (b - pt.2.1 ≥ (b - a) / 8)) pt.2.2 (by omega)
                  ((rangeOp_perm hRtot hab hb).trans hperm) (by rw [hRtot.1]; exact hb)
                  (by omega) hkb hOut' hNum'
                refine ⟨I1, I2, I3.trans hRtot.1, ?_⟩
                intro x hx
                have hx' : x < pt.2.1 + 1 ∨ b ≤ x := by
                  rcases hx with hx | hx
                  · exact Or.inl (by omega)
                  · exact Or.inr hx
                rw [I4 x hx']
                exact hRtot.2.1 x hx

end Kth

/-! ## The `pdqselect` entry fast paths and the `PDQSelect` driver -/

namespace Kth

variable {α : Type} [LinearOrder α] [Inhabited α]

/-- The `k = 0` entry fast path of `pdqselect`: a linear minimum scan of
`[a, b)` followed by a guarded swap to position `a`. -/
theorem pdqselect_min_path {l : List α} {a b limit : Nat} (hab : a < b)
    (hb : b ≤ l.length) :
    RangeOp a b l (pdqselect l a b 0 limit) ∧
    (∀ x, a ≤ x → x < b →
      nth (pdqselect l a b 0 limit) a ≤ nth (pdqselect l a b 0 limit) x) := by
  simp only [pdqselect]
  rw [if_pos trivial]
  obtain ⟨g1, g2, g3⟩ := scanMinIdx_spec l b (l.length + 2) (a + 1) a (by omega)
  set mn := scanMinIdx l b (l.length + 2) (a + 1) a with hmn
  have hmnr : a ≤ mn ∧ mn < b := by
    rcases g1 with g1 | g1
    · omega
    · omega
  have hmin : ∀ x, a ≤ x → x < b → nth l mn ≤ nth l x := by
    intro x hax hxb
    rcases Nat.eq_or_lt_of_le hax with he | hlt
    · rw [← he]
      exact g2
    · exact g3 x hlt hxb
  by_cases hne : mn ≠ a
  · rw [if_pos hne]
    have hR : RangeOp a b l (swapL l mn a) :=
      rangeOp_swapL hmnr.1 hmnr.2 (le_refl a) hab hb
    refine ⟨hR, ?_⟩
    intro x hax hxb
    have h0 : nth (swapL l mn a) a = nth l mn := nth_swapL_right (by omega)
    rw [h0]
    by_cases hxm : x = mn
    · rw [hxm, nth_swapL_left (by omega) (by omega)]
      exact hmin a (le_refl a) hab
    · by_cases hxa : x = a
      · rw [hxa, h0]
      · rw [nth_swapL_ne hxm hxa]
        exact hmin x hax hxb
  · rw [if_neg hne]
    have hmna : mn = a := by omega
    refine ⟨rangeOp_refl a b l, ?_⟩
    intro x hax hxb
    rw [← hmna]
    exact hmin x hax hxb

/-- The `k = b - 1` entry fast path of `pdqselect`: a linear maximum scan
of `[a, b)` followed by a guarded swap to position `b - 1` (stated for
`b - 1 ≠ 0`, where this branch is the one taken). -/
theorem pdqselect_max_path {l : List α} {a b limit : Nat} (hab : a < b)
    (hb : b ≤ l.length) (h1 : 0 < b - 1) :
    RangeOp a b l (pdqselect l a b (b - 1) limit) ∧
    (∀ x, a ≤ x → x < b →
      nth (pdqselect l a b (b - 1) limit) x ≤ nth (pdqselect l a b (b - 1) limit) (b - 1)) := by
  simp only [pdqselect]
  rw [if_neg (show ¬ (b - 1 = 0) by omega), if_pos trivial]
  obtain ⟨g1, g2, g3⟩ := scanMaxIdx_spec l b (l.length + 2) (a + 1) a (by omega)
  set mx := scanMaxIdx l b (l.length + 2) (a + 1) a with hmx
  have hmxr : a ≤ mx ∧ mx < b := by
    rcases g1 with g1 | g1
    · omega
    · omega
  have hmax : ∀ x, a ≤ x → x < b → nth l x ≤ nth l mx := by
    intro x hax hxb
    rcases Nat.eq_or_lt_of_le hax with he | hlt
    · rw [← he]
      exact g2
    · exact g3 x hlt hxb
  have hblt : b - 1 < l.length := by omega
  have halt : a ≤ b - 1 := by omega
  by_cases hne : mx ≠ b - 1
  · rw [if_pos hne]
    have hR : RangeOp a b l (swapL l mx (b - 1)) :=
      rangeOp_swapL hmxr.1 hmxr.2 halt (by omega) hb
    refine ⟨hR, ?_⟩
    intro x hax hxb
    have h0 : nth (swapL l mx (b - 1)) (b - 1) = nth l mx := nth_swapL_right hblt
    rw [h0]
    by_cases hxm : x = mx
    · rw [hxm, nth_swapL_left (by omega) hblt]
      exact hmax (b - 1) halt (by omega)
    · by_cases hxb1 : x = b - 1
      · rw [hxb1, h0]
      · rw [nth_swapL_ne hxm hxb1]
        exact hmax x hax hxb
  · rw [if_neg hne]
    have hmxb : mx = b - 1 := by omega
    refine ⟨rangeOp_refl a b l, ?_⟩
    intro x hax hxb
    rw [← hmxb]
    exact hmax x hax hxb

/-- Full-range specification of `pdqselect` as the public driver calls it
(`a = 0`, `b = n`, limit `Nat.size n`): the selection postcondition at `k`
plus multiset preservation. -/
theorem pdqselect_spec {l : List α} {k : Nat} (hk : k < l.length) :
    SelAt (pdqselect l 0 l.length k (Nat.size l.length)) k ∧
    (pdqselect l 0 l.length k (Nat.size l.length)).Perm l ∧
    (pdqselect l 0 l.length k (Nat.size l.length)).length = l.length := by
  have hl : 0 < l.length := by omega
  by_cases hk0 : k = 0
  · subst hk0
    obtain ⟨hR, hmin⟩ : RangeOp 0 l.length l (pdqselect l 0 l.length 0 (Nat.size l.length)) ∧
        (∀ x, 0 ≤ x → x < l.length →
          nth (pdqselect l 0 l.length 0 (Nat.size l.length)) 0 ≤
            nth (pdqselect l 0 l.length 0 (Nat.size l.length)) x) :=
      pdqselect_min_path hl (le_refl _)
    refine ⟨⟨?_, ?_⟩, rangeOp_perm hR (by omega) (le_refl _), hR.1⟩
    · intro i hi
      omega
    · intro i hi hil
      exact hmin i (by omega) (by rw [hR.1] at hil; exact hil)
  · by_cases hkb : k = l.length - 1
    · subst hkb
      obtain ⟨hR, hmax⟩ : RangeOp 0 l.length l
          (pdqselect l 0 l.length (l.length - 1) (Nat.size l.length)) ∧
          (∀ x, 0 ≤ x → x < l.length →
            nth (pdqselect l 0 l.length (l.length - 1) (Nat.size l.length)) x ≤
              nth (pdqselect l 0 l.length (l.length - 1) (Nat.size l.length)) (l.length - 1)) :=
        pdqselect_max_path hl (le_refl _) (by omega)
      refine ⟨⟨?_, ?_⟩, rangeOp_perm hR (by omega) (le_refl _), hR.1⟩
      · intro i hi
        exact hmax i (by omega) (by omega)
      · intro i hi hil
        rw [hR.1] at hil
        omega
    · have hout : Out l 0 l.length := by
        refine ⟨?_, ?_, ?_⟩
        · intro i j hi _ _
          exact absurd hi (by omega)
        · intro i j _ _ hbj hjl
          exact absurd hbj (by omega)
        · intro i j _ hbj hjl
          exact absurd hbj (by omega)
      have hnum : NumInv l.length (Nat.size l.length) (l.length - 0) (Nat.size l.length)
          true (Qprop l 0 l.length) := by
        refine ⟨le_refl _, ?_⟩
        show 8 ^ ((Nat.size l.length - Nat.size l.length) / 2) * (l.length - 0) ≤ l.length
        simp
      obtain ⟨I1, I2, I3, I4⟩ := pdqLoop_master (Nat.lt_size_self l.length)
        (l.length + 2) l 0 l.length k (Nat.size l.length) true true (by omega)
        (List.Perm.refl l) (le_refl _) (Nat.zero_le k) hk hout hnum
      have he : pdqselect l 0 l.length k (Nat.size l.length) =
          pdqLoop (l.length + 2) l 0 l.length k (Nat.size l.length) true true := by
        simp only [pdqselect]
        rw [if_neg hk0, if_neg hkb]
      rw [he]
      exact ⟨I1, I2, I3⟩

end Kth

namespace Kth

variable {α : Type} [LinearOrder α] [Inhabited α]

/-- Entry-level specification of `PDQSelect` for a valid 1-based target:
permutation, the k-th smallest at position `k-1`, and the first `k`
positions a permutation of the first `k` of the sorted sequence. -/
theorem PDQSelect_spec {l : List α} {k : Int} (h1 : 1 ≤ k) (h2 : k ≤ (l.length : Int)) :
    (PDQSelect l k).Perm l ∧
    nth (PDQSelect l k) (k - 1).toNat = nth (sortL l) (k - 1).toNat ∧
    ((PDQSelect l k).take ((k - 1).toNat + 1)).Perm ((sortL l).take ((k - 1).toNat + 1)) := by
  have hguard : ¬ (k < 1 ∨ (l.length : Int) < k) := by omega
  rw [PDQSelect, if_neg hguard]
  have ht : (k - 1).toNat < l.length := by omega
  obtain ⟨I1, I2, I3⟩ := pdqselect_spec (l := l) ht
  have hblock := selAt_block I2 (by rw [I3]; exact ht) I1
  exact ⟨I2, hblock.1, hblock.2⟩

/-- `PDQSelect` is a silent no-op for an out-of-range 1-based target. -/
theorem PDQSelect_noop {l : List α} {k : Int} (h : k < 1 ∨ (l.length : Int) < k) :
    PDQSelect l k = l := by
  rw [PDQSelect, if_pos h]

/-- `PDQSelect` on a single-element sequence with `k = 1` leaves the
sequence unchanged (the minimum fast path finds `mn = 0` and skips the
swap). -/
theorem PDQSelect_single {l : List α} (h : l.length = 1) : PDQSelect l 1 = l := by
  rw [PDQSelect, if_neg (by omega)]
  show pdqselect l 0 l.length (0 : Int).toNat (Nat.size l.length) = l
  simp only [pdqselect, Int.toNat_zero]
  rw [if_pos trivial]
  have hscan : scanMinIdx l l.length (l.length + 2) (0 + 1) 0 = 0 := by
    rw [h]
    rw [scanMinIdx]
    rw [if_neg (by omega)]
  rw [hscan]
  simp

end Kth

/-! ## The master invariant of the `Pdq.pdqLoop` core (`src/pdqselect.go`) -/

section PdqMaster

open Kth

variable {α : Type} [LinearOrder α] [Inhabited α]

/-- Master theorem for the `src/pdqselect.go` loop: the result is a
range-confined permutation, and whenever the target is still inside the
working range the selection postcondition holds.  Unlike the `Kth` loop,
after `partitionEqual` the target may fall inside the equal prefix and the
loop continues on `[mid, b)` anyway; confinement of the remaining work to
`[mid, b)` preserves the already-established postcondition at `k`. -/
theorem pdqGo_loop_master {α : Type} [LinearOrder α] [Inhabited α] {n₀ L0 : Nat}
    (hn₀ : n₀ < 2 ^ L0) :
    ∀ fuel (l : List α) (a b k limit : Nat) (wasBal wasPart : Bool),
      b - a ≤ fuel → b ≤ l.length → a ≤ b → k < b →
      Out l a b → NumInv n₀ L0 (b - a) limit wasBal (Qprop l a b) →
      RangeOp a b l (Pdq.pdqLoop fuel l a b k limit wasBal wasPart) ∧
      (a ≤ k → SelAt (Pdq.pdqLoop fuel l a b k limit wasBal wasPart) k) := by
  intro fuel
  induction fuel with
  | zero =>
    intro l a b k limit wasBal wasPart hf hb hab hkb hOut hN
    exact ⟨rangeOp_refl a b l, fun hak => absurd hak (by omega)⟩
  | succ fuel ih =>
    intro l a b k limit wasBal wasPart hf hb hab hkb hOut hN
    by_cases h12 : b - a ≤ 12
    · have he : Pdq.pdqLoop (fuel + 1) l a b k limit wasBal wasPart = insertionSort l a b := by
        simp only [Pdq.pdqLoop]
        rw [if_pos h12]
      rw [he]
      have hR := insertionSort_rangeOp hab hb
      refine ⟨hR, fun hak => ?_⟩
      exact selAt_of_sortedRange (out_transfer hR hOut hab hb)
        (insertionSort_sortedRange hab hb) hak hkb (by rw [hR.1]; exact hb)
    · have hab' : a < b := by omega
      by_cases hlim : limit = 0
      · exfalso
        exact numInv_limit_zero (hlim ▸ hN) (by omega) hn₀
      · simp only [Pdq.pdqLoop]
        rw [if_neg h12, if_neg hlim]
        set l₁ := if wasBal then l else breakPatterns l a b with hl₁
        set limit₁ := if wasBal then limit else limit - 1 with hlimit₁
        set pc := choosePivot l₁ a b with hpcdef
        set l₂ := if pc.2 = Hint.dec then reverseRange l₁ a b else l₁ with hl₂
        set pivot := if pc.2 = Hint.dec then b - 1 - (pc.1 - a) else pc.1 with hpivot
        set hint := if pc.2 = Hint.dec then Hint.inc else pc.2 with hhint
        set pr := if wasBal ∧ wasPart ∧ hint = Hint.inc then partialInsertionSort l₂ a b
          else (l₂, false) with hprdef
        have hR1 : RangeOp a b l l₁ := by
          rw [hl₁]
          by_cases hw : wasBal = true
          · rw [if_pos hw]
            exact rangeOp_refl a b l
          · rw [if_neg hw]
            exact breakPatterns_rangeOp (by omega) hb
        have hb₁ : b ≤ l₁.length := by rw [hR1.1]; exact hb
        have hpcr : a ≤ pc.1 ∧ pc.1 < b := by
          rw [hpcdef]
          exact choosePivot_range hab'
        have hR2 : RangeOp a b l₁ l₂ := by
          rw [hl₂]
          by_cases hd : pc.2 = Hint.dec
          · rw [if_pos hd]
            exact reverseRange_rangeOp hab hb₁
          · rw [if_neg hd]
            exact rangeOp_refl a b l₁
        have hb₂ : b ≤ l₂.length := by rw [hR2.1]; exact hb₁
        have hpivr : a ≤ pivot ∧ pivot < b := by
          rw [hpivot]
          by_cases hd : pc.2 = Hint.dec
          · rw [if_pos hd]
            omega
          · rw [if_neg hd]
            exact hpcr
        have hR3' : RangeOp a b l₂ pr.1 := by
          rw [hprdef]
          by_cases hc : wasBal ∧ wasPart ∧ hint = Hint.inc
          · rw [if_pos hc]
            exact partialInsertionSort_rangeOp hab hb₂
          · rw [if_neg hc]
            exact rangeOp_refl a b l₂
        set l₃ := pr.1 with hl₃
        have hR3 : RangeOp a b l l₃ := rangeOp_trans (rangeOp_trans hR1 hR2) hR3'
        have hb₃ : b ≤ l₃.length := by rw [hR3.1]; exact hb
        have hOut₃ : Out l₃ a b := out_transfer hR3 hOut hab hb
        by_cases hprb : pr.2 = true
        · rw [if_pos hprb]
          have hsr : SortedRange l₃ a b := by
            rw [hl₃, hprdef]
            rw [hprdef] at hprb
            by_cases hc : wasBal ∧ wasPart ∧ hint = Hint.inc
            · rw [if_pos hc] at hprb ⊢
              exact partialInsertionSort_sorted hab hb₂ hprb
            · rw [if_neg hc] at hprb
              simp at hprb
          exact ⟨hR3, fun hak => selAt_of_sortedRange hOut₃ hsr hak hkb hb₃⟩
        · rw [if_neg hprb]
          by_cases hce : 0 < a ∧ ¬ nth l₃ (a - 1) < nth l₃ pivot
          · rw [if_pos hce]
            have hp : ∀ x, a ≤ x → x < b → nth l₃ pivot ≤ nth l₃ x := fun x hax hxb =>
              le_trans (not_lt.1 hce.2) (hOut₃.1 (a - 1) x (by omega) hax hxb)
            obtain ⟨E1, E2, E3, E4, E5⟩ := partitionEqual_spec hpivr.1 hpivr.2 hab' hb₃ hp
            set pe := partitionEqual l₃ a b pivot with hpedef
            have hbpe : b ≤ pe.1.length := by rw [E1.1]; exact hb₃
            have hOutPe : Out pe.1 a b := out_transfer (rangeOp_trans hR3 E1) hOut hab hb
            have hOut' : Out pe.1 pe.2 b := by
              refine ⟨?_, ?_, ?_⟩
              · intro i j hi haj hjb
                rcases Nat.lt_or_ge i a with hia | hia
                · exact hOutPe.1 i j hia (by omega) hjb
                · rw [E4 i hia (by omega)]
                  exact le_of_lt (E5 j haj hjb)
              · intro i j hai hib hbj hjl
                exact hOutPe.2.1 i j (by omega) hib hbj hjl
              · intro i j hi hbj hjl
                rcases Nat.lt_or_ge i a with hia | hia
                · exact hOutPe.2.2 i j hia hbj hjl
                · rw [E4 i hia (by omega), E1.2.1 j (Or.inr hbj)]
                  exact hOut₃.2.1 pivot j hpivr.1 hpivr.2 hbj (by have := E1.1; omega)
            have hq' : Qprop pe.1 pe.2 b := by
              refine ⟨by omega, fun j hj hjb => ?_⟩
              rw [E4 (pe.2 - 1) (by omega) (by omega)]
              exact E5 j hj hjb
            have hB : wasBal = false → 8 ^ ((L0 - limit) / 2 + 1) * (b - a) ≤ n₀ := by
              intro hw
              subst hw
              rcases hN.2 with h2 | ⟨hq, _⟩
              · exact h2
              · exfalso
                have hq₃ := qprop_transfer hR3 hq hab hb
                exact hce.2 (hq₃.2 pivot hpivr.1 hpivr.2)
            have hNum' : NumInv n₀ L0 (b - pe.2) limit₁ wasBal (Qprop pe.1 pe.2 b) := by
              have hgo := numInv_equal_step (Qprop pe.1 pe.2 b) hN hlim
                (show b - pe.2 < b - a by omega) hB hq'
              rw [← hlimit₁] at hgo
              exact hgo
            obtain ⟨hRec1, hRec2⟩ := ih pe.1 pe.2 b k limit₁ wasBal wasPart (by omega)
              hbpe (by omega) hkb hOut' hNum'
            have hRfin : RangeOp a b l
                (Pdq.pdqLoop fuel pe.1 pe.2 b k limit₁ wasBal wasPart) :=
              rangeOp_trans (rangeOp_trans hR3 E1)
                (rangeOp_mono hRec1 (by omega) (le_refl b) hab (by omega) hbpe)
            refine ⟨hRfin, fun hak => ?_⟩
            rcases Nat.lt_or_ge k pe.2 with hkpe | hkpe
            · have hkval : nth (Pdq.pdqLoop fuel pe.1 pe.2 b k limit₁ wasBal wasPart) k =
                  nth l₃ pivot := by
                rw [hRec1.2.1 k (Or.inl hkpe)]
                exact E4 k hak hkpe
              constructor
              · intro i hik
                rw [hkval, hRec1.2.1 i (Or.inl (by omega))]
                rcases Nat.lt_or_ge i a with hia | hia
                · rw [E1.2.1 i (Or.inl hia)]
                  exact hOut₃.1 i pivot hia hpivr.1 hpivr.2
                · exact le_of_eq (E4 i hia (by omega))
              · intro i hki hil
                rw [hkval]
                have hilen : i < pe.1.length := by
                  have := hRec1.1
                  omega
                rcases Nat.lt_or_ge i pe.2 with hi2 | hi2
                · rw [hRec1.2.1 i (Or.inl hi2)]
                  exact le_of_eq (E4 i (by omega) hi2).symm
                · rcases Nat.lt_or_ge i b with hib | hib
                  · have hmem : nth (Pdq.pdqLoop fuel pe.1 pe.2 b k limit₁ wasBal wasPart) i ∈
                        rangeSlice (Pdq.pdqLoop fuel pe.1 pe.2 b k limit₁ wasBal wasPart)
                          pe.2 b :=
                      mem_rangeSlice_of hi2 hib (by rw [hRec1.1]; exact hbpe)
                    have hmem2 : nth (Pdq.pdqLoop fuel pe.1 pe.2 b k limit₁ wasBal wasPart) i ∈
                        rangeSlice pe.1 pe.2 b := hRec1.2.2.mem_iff.1 hmem
                    obtain ⟨j', hj1, hj2, hj3⟩ := exists_of_mem_rangeSlice hmem2 hbpe
                    rw [← hj3]
                    exact le_of_lt (E5 j' hj1 hj2)
                  · rw [hRec1.2.1 i (Or.inr hib), E1.2.1 i (Or.inr hib)]
                    exact hOut₃.2.1 pivot i hpivr.1 hpivr.2 hib (by have := E1.1; omega)
            · exact hRec2 hkpe
          · rw [if_neg hce]
            obtain ⟨P1, P2, P3, P4, P5, P6⟩ :=
              partition_spec hpivr.1 hpivr.2 hab' hb₃
                (partition l₃ a b pivot).1 (partition l₃ a b pivot).2.1
                (partition l₃ a b pivot).2.2 rfl
            set pt := partition l₃ a b pivot with hptdef
            have hRtot : RangeOp a b l pt.1 := rangeOp_trans hR3 P1
            have hbpt : b ≤ pt.1.length := by rw [hRtot.1]; exact hb
            have hOutP : Out pt.1 a b := out_transfer hRtot hOut hab hb
            by_cases hk2 : k < pt.2.1
            · rw [if_pos hk2]
              have hOut' : Out pt.1 a pt.2.1 := by
                refine ⟨?_, ?_, ?_⟩
                · intro i j hi haj hjb
                  exact hOutP.1 i j hi haj (by omega)
                · intro i j hai hib hbj hjl
                  rcases Nat.lt_or_ge j b with hjb | hjb
                  · rcases Nat.eq_or_lt_of_le hbj with he | hlt
                    · rw [← he, P4]
                      exact P5 i hai hib
                    · exact le_trans (P5 i hai hib) (P6 j hlt hjb)
                  · calc nth pt.1 i ≤ nth l₃ pivot := P5 i hai hib
                      _ = nth pt.1 pt.2.1 := P4.symm
                      _ ≤ nth pt.1 j := hOutP.2.1 pt.2.1 j P2 P3 hjb hjl
                · intro i j hi hbj hjl
                  rcases Nat.lt_or_ge j b with hjb | hjb
                  · exact hOutP.1 i j hi (by omega) hjb
                  · exact hOutP.2.2 i j hi hjb hjl
              have hNum' : NumInv n₀ L0 (pt.2.1 - a) limit₁
                  (decide (pt.2.1 - a ≥ (b - a) / 8)) (Qprop pt.1 a pt.2.1) := by
                have hgo := numInv_partition_step (decide (pt.2.1 - a ≥ (b - a) / 8))
                  (Qprop pt.1 a pt.2.1) hN hlim (show pt.2.1 - a < b - a by omega) ?him3
                · rw [← hlimit₁] at hgo
                  exact hgo
                case him3 =>
                  intro hd
                  have hd' := of_decide_eq_false hd
                  omega
              obtain ⟨hRec1, hRec2⟩ := ih pt.1 a pt.2.1 k limit₁
                (decide (pt.2.1 - a ≥ (b - a) / 8)) pt.2.2 (by omega)
                (by omega) (by omega) hk2 hOut' hNum'
              refine ⟨rangeOp_trans hRtot
                (rangeOp_mono hRec1 (le_refl a) (by omega) hab (by omega) hbpt),
                fun hak => hRec2 hak⟩
            · rw [if_neg hk2]
              by_cases hk3 : pt.2.1 < k
              · rw [if_pos hk3]
                have hipvAll : ∀ i, a ≤ i → i ≤ pt.2.1 → nth pt.1 i ≤ nth l₃ pivot := by
                  intro i hai hi
                  rcases Nat.lt_or_ge i pt.2.1 with h | h
                  · exact P5 i hai h
                  · have hieq : i = pt.2.1 := by omega
                    rw [hieq, P4]
                have hOut' : Out pt.1 (pt.2.1 + 1) b := by
                  refine ⟨?_, ?_, ?_⟩
                  · intro i j hi haj hjb
                    rcases Nat.lt_or_ge i a with hia | hia
                    · exact hOutP.1 i j hia (by omega) hjb
                    · exact le_trans (hipvAll i hia (by omega)) (P6 j (by omega) hjb)
                  · intro i j hai hib hbj hjl
                    exact hOutP.2.1 i j (by omega) hib hbj hjl
                  · intro i j hi hbj hjl
                    rcases Nat.lt_or_ge i a with hia | hia
                    · exact hOutP.2.2 i j hia hbj hjl
                    · calc nth pt.1 i ≤ nth l₃ pivot := hipvAll i hia (by omega)
                        _ = nth pt.1 pt.2.1 := P4.symm
                        _ ≤ nth pt.1 j := hOutP.2.1 pt.2.1 j P2 P3 hbj hjl
                have hNum' : NumInv n₀ L0 (b - (pt.2.1 + 1)) limit₁
                    (decide (b - pt.2.1 ≥ (b - a) / 8)) (Qprop pt.1 (pt.2.1 + 1) b) := by
                  have hgo := numInv_partition_step (decide (b - pt.2.1 ≥ (b - a) / 8))
                    (Qprop pt.1 (pt.2.1 + 1) b) hN hlim
                    (show b - (pt.2.1 + 1) < b - a by omega) ?him4
                  · rw [← hlimit₁] at hgo
                    exact hgo
                  case him4 =>
                    intro hd
                    have hd' := of_decide_eq_false hd
                    omega
                obtain ⟨hRec1, hRec2⟩ := ih pt.1 (pt.2.1 + 1) b k limit₁
                  (decide (b - pt.2.1 ≥ (b - a) / 8)) pt.2.2 (by omega)
                  hbpt (by omega) hkb hOut' hNum'
                refine ⟨rangeOp_trans hRtot
                  (rangeOp_mono hRec1 (by omega) (le_refl b) hab (by omega) hbpt),
                  fun hak => hRec2 (by omega)⟩
              · rw [if_neg hk3]
                have hk1 : k = pt.2.1 := by omega
                have hkpv : nth pt.1 k = nth l₃ pivot := by rw [hk1]; exact P4
                refine ⟨hRtot, fun hak => ⟨?_, ?_⟩⟩
                · intro i hik
                  rcases Nat.lt_or_ge i a with hia | hia
                  · exact hOutP.1 i k hia hak hkb
                  · rw [hkpv]
                    exact P5 i hia (by omega)
                · intro i hki hil
                  rw [hkpv]
                  rcases Nat.lt_or_ge i b with hib | hib
                  · exact P6 i (by omega) hib
                  · rw [P1.2.1 i (Or.inr hib)]
                    exact hOut₃.2.1 pivot i hpivr.1 hpivr.2 hib (by have := P1.1; omega)

end PdqMaster

section PdqDriver

open Kth

variable {α : Type} [LinearOrder α] [Inhabited α]

/-- Entry-level specification of `Pdq.Select` (`src/pdqselect.go`):
permutation, the k-th smallest at position `k-1`, and the first `k`
positions a permutation of the first `k` of the sorted sequence. -/
theorem pdqGo_Select_spec {l : List α} {k : Int} (h1 : 1 ≤ k)
    (h2 : k ≤ (l.length : Int)) :
    (Pdq.Select l k).Perm l ∧
    nth (Pdq.Select l k) (k - 1).toNat = nth (sortL l) (k - 1).toNat ∧
    ((Pdq.Select l k).take ((k - 1).toNat + 1)).Perm ((sortL l).take ((k - 1).toNat + 1)) := by
  have hguard : ¬ (k < 1 ∨ (l.length : Int) < k) := by omega
  rw [Pdq.Select, if_neg hguard, Pdq.pdqselect]
  have ht : (k - 1).toNat < l.length := by omega
  have hout : Out l 0 l.length := by
    refine ⟨?_, ?_, ?_⟩
    · intro i j hi _ _
      exact absurd hi (by omega)
    · intro i j _ _ hbj hjl
      exact absurd hbj (by omega)
    · intro i j _ hbj hjl
      exact absurd hbj (by omega)
  have hnum : NumInv l.length (Nat.size l.length) (l.length - 0) (Nat.size l.length)
      true (Qprop l 0 l.length) := by
    refine ⟨le_refl _, ?_⟩
    show 8 ^ ((Nat.size l.length - Nat.size l.length) / 2) * (l.length - 0) ≤ l.length
    simp
  obtain ⟨hR, hsel⟩ := pdqGo_loop_master (Nat.lt_size_self l.length)
    (l.length + 2) l 0 l.length ((k - 1).toNat) (Nat.size l.length) true true (by omega)
    (le_refl _) (Nat.zero_le _) ht hout hnum
  have hperm : (Pdq.pdqLoop (l.length + 2) l 0 l.length (k - 1).toNat
      (Nat.size l.length) true true).Perm l :=
    rangeOp_perm hR (by omega) (le_refl _)
  have hblock := selAt_block hperm (by rw [hR.1]; exact ht) (hsel (Nat.zero_le _))
  exact ⟨hperm, hblock.1, hblock.2⟩

end PdqDriver

/-! ## FloydRivest: the bounds-checked monad and the unguarded scans -/

theorem res_bind_ok {A B : Type} (a : A) (f : A → Res B) :
    (Res.ok a >>= f : Res B) = f a := rfl

theorem res_pure_eq {A : Type} (a : A) : (pure a : Res A) = Res.ok a := rfl

namespace Kth

variable {α : Type} [LinearOrder α] [Inhabited α]

theorem frGet_ok {l : List α} {i : Int} (h0 : 0 ≤ i) (h1 : i < (l.length : Int)) :
    frGet l i = .ok (nth l i.toNat) := by
  rw [frGet, if_pos ⟨h0, h1⟩]

theorem frSwap_ok {l : List α} {i j : Int} (h0 : 0 ≤ i) (h1 : i < (l.length : Int))
    (h2 : 0 ≤ j) (h3 : j < (l.length : Int)) :
    frSwap l i j = .ok (swapL l i.toNat j.toNat) := by
  rw [frSwap, if_pos ⟨h0, h1, h2, h3⟩]

/-- The unguarded forward scan, under a sentinel at `s ≥ i` that is not
below the pivot item: it stops in `[i, s]` having passed only items below
the pivot item. -/
theorem frScanI_spec {l : List α} {p : Int} (hp0 : 0 ≤ p) (hp1 : p < (l.length : Int)) :
    ∀ fuel (i s : Int), 0 ≤ i → i ≤ s → s < (l.length : Int) →
      ¬ nth l s.toNat < nth l p.toNat →
      (s - i).toNat + 1 ≤ fuel →
      ∃ r : Int, frScanI (fun x y => decide (x < y)) l p fuel i = .ok r ∧
        i ≤ r ∧ r ≤ s ∧ ¬ nth l r.toNat < nth l p.toNat ∧
        (∀ x : Int, i ≤ x → x < r → nth l x.toNat < nth l p.toNat) := by
  intro fuel
  induction fuel with
  | zero =>
    intro i s h0 h1 h2 h3 hf
    exfalso
    omega
  | succ fuel ih =>
    intro i s h0 h1 h2 h3 hf
    have e1 : frGet l i = .ok (nth l i.toNat) := frGet_ok h0 (by omega)
    have e2 : frGet l p = .ok (nth l p.toNat) := frGet_ok hp0 hp1
    simp only [frScanI, e1, e2, res_bind_ok]
    by_cases hc : nth l i.toNat < nth l p.toNat
    · rw [if_pos (decide_eq_true hc)]
      have his : i < s := by
        rcases eq_or_lt_of_le h1 with he | hlt
        · exfalso
          rw [he] at hc
          exact h3 hc
        · exact hlt
      obtain ⟨r, hr1, hr2, hr3, hr4, hr5⟩ := ih (i + 1) s (by omega) (by omega) h2 h3 (by omega)
      refine ⟨r, hr1, by omega, hr3, hr4, fun x hx1 hx2 => ?_⟩
      rcases eq_or_lt_of_le hx1 with he | hlt
      · rw [← he]
        exact hc
      · exact hr5 x (by omega) hx2
    · rw [if_neg (fun h => hc (of_decide_eq_true h)), res_pure_eq]
      exact ⟨i, rfl, le_refl i, h1, hc, fun x hx1 hx2 => by omega⟩

/-- The unguarded backward scan, under a sentinel at `s ≤ j` that the
pivot item is not below: it stops in `[s, j]` having passed only items
above the pivot item. -/
theorem frScanJ_spec {l : List α} {p : Int} (hp0 : 0 ≤ p) (hp1 : p < (l.length : Int)) :
    ∀ fuel (j s : Int), 0 ≤ s → s ≤ j → j < (l.length : Int) →
      ¬ nth l p.toNat < nth l s.toNat →
      (j - s).toNat + 1 ≤ fuel →
      ∃ r : Int, frScanJ (fun x y => decide (x < y)) l p fuel j = .ok r ∧
        s ≤ r ∧ r ≤ j ∧ ¬ nth l p.toNat < nth l r.toNat ∧
        (∀ x : Int, r < x → x ≤ j → nth l p.toNat < nth l x.toNat) := by
  intro fuel
  induction fuel with
  | zero =>
    intro j s h0 h1 h2 h3 hf
    exfalso
    omega
  | succ fuel ih =>
    intro j s h0 h1 h2 h3 hf
    have e1 : frGet l j = .ok (nth l j.toNat) := frGet_ok (by omega) h2
    have e2 : frGet l p = .ok (nth l p.toNat) := frGet_ok hp0 hp1
    simp only [frScanJ, e1, e2, res_bind_ok]
    by_cases hc : nth l p.toNat < nth l j.toNat
    · rw [if_pos (decide_eq_true hc)]
      have hjs : s < j := by
        rcases eq_or_lt_of_le h1 with he | hlt
        · exfalso
          rw [← he] at hc
          exact h3 hc
        · exact hlt
      obtain ⟨r, hr1, hr2, hr3, hr4, hr5⟩ := ih (j - 1) s h0 (by omega) (by omega) h3 (by omega)
      refine ⟨r, hr1, hr2, by omega, hr4, fun x hx1 hx2 => ?_⟩
      rcases eq_or_lt_of_le hx2 with he | hlt
      · rw [he]
        exact hc
      · exact hr5 x hx1 (by omega)
    · rw [if_neg (fun h => hc (of_decide_eq_true h)), res_pure_eq]
      exact ⟨j, rfl, h1, le_refl j, hc, fun x hx1 hx2 => by omega⟩

end Kth

namespace Kth

variable {α : Type} [LinearOrder α] [Inhabited α]

/-- The `floydRivest` partition loop (lawful comparator): from a loop
state whose pivot index lies strictly outside `[i, j]`, with all items left
of `i` at most the pivot item, all items right of `j` at least it, and the
two scan-stop conditions, the loop succeeds and yields a crossing point
`r.2` splitting `[lo, hi]` into a `≤ pivot` prefix and a `≥ pivot`
suffix, touching nothing outside `[lo, hi]` and never moving the pivot. -/
theorem frInner_loop_spec (p lo hi : Int) (n : Nat) (hlo : 0 ≤ lo) (hhi : hi < (n : Int))
    (hplo : lo ≤ p) (hphi : p ≤ hi) :
    ∀ fuel (l : List α) (i j : Int), l.length = n →
      lo ≤ i → i ≤ hi → lo ≤ j → j ≤ hi →
      (p < i ∨ j < p) →
      ¬ nth l i.toNat < nth l p.toNat →
      ¬ nth l p.toNat < nth l j.toNat →
      (∀ x : Int, lo ≤ x → x < i → nth l x.toNat ≤ nth l p.toNat) →
      (∀ x : Int, j < x → x ≤ hi → nth l p.toNat ≤ nth l x.toNat) →
      (j - i).toNat + 1 ≤ fuel →
      ∃ r : List α × Int, frInner (fun x y => decide (x < y)) p fuel l i j = .ok r ∧
        r.1.length = n ∧ r.1.Perm l ∧
        (∀ x : Nat, (x : Int) < lo ∨ hi < (x : Int) → nth r.1 x = nth l x) ∧
        nth r.1 p.toNat = nth l p.toNat ∧
        lo ≤ r.2 ∧ r.2 ≤ j ∧
        (∀ x : Int, lo ≤ x → x ≤ r.2 → nth r.1 x.toNat ≤ nth r.1 p.toNat) ∧
        (∀ x : Int, r.2 < x → x ≤ hi → nth r.1 p.toNat ≤ nth r.1 x.toNat) := by
  intro fuel
  induction fuel with
  | zero =>
    intro l i j hlen hli hih hlj hjh hp hCi hCj hA hB hf
    exfalso
    omega
  | succ fuel ih =>
    intro l i j hlen hli hih hlj hjh hp hCi hCj hA hB hf
    simp only [frInner]
    by_cases hij : i < j
    · rw [if_pos hij]
      have hin : i < (l.length : Int) := by omega
      have hjn : j < (l.length : Int) := by omega
      have e1 : frSwap l i j = .ok (swapL l i.toNat j.toNat) :=
        frSwap_ok (by omega) hin (by omega) hjn
      simp only [e1, res_bind_ok]
      set l₂ := swapL l i.toNat j.toNat with hl₂
      have hlen₂ : l₂.length = n := by rw [hl₂, length_swapL, hlen]
      have hitn : i.toNat < l.length := by omega
      have hjtn : j.toNat < l.length := by omega
      have hpi : p.toNat ≠ i.toNat := by omega
      have hpj : p.toNat ≠ j.toNat := by omega
      have hpv₂ : nth l₂ p.toNat = nth l p.toNat := by
        rw [hl₂]
        exact nth_swapL_ne hpi hpj
      have hswi : nth l₂ i.toNat = nth l j.toNat := by
        rw [hl₂]
        exact nth_swapL_left hitn hjtn
      have hswj : nth l₂ j.toNat = nth l i.toNat := by
        rw [hl₂]
        exact nth_swapL_right hjtn
      have hsentI : ¬ nth l₂ j.toNat < nth l₂ p.toNat := by
        rw [hswj, hpv₂]
        exact hCi
      obtain ⟨i₁, hI1, hI2, hI3, hI4, hI5⟩ := frScanI_spec (l := l₂) (p := p) (by omega)
        (by rw [hlen₂]; omega) (l₂.length + 2) (i + 1) j (by omega) (by omega)
        (by rw [hlen₂]; omega) hsentI (by rw [hlen₂]; omega)
      rw [hI1]
      simp only [res_bind_ok]
      have hsentJ : ¬ nth l₂ p.toNat < nth l₂ i.toNat := by
        rw [hswi, hpv₂]
        exact hCj
      obtain ⟨j₁, hJ1, hJ2, hJ3, hJ4, hJ5⟩ := frScanJ_spec (l := l₂) (p := p) (by omega)
        (by rw [hlen₂]; omega) (l₂.length + 2) (j - 1) i (by omega) (by omega)
        (by rw [hlen₂]; omega) hsentJ (by rw [hlen₂]; omega)
      rw [hJ1]
      simp only [res_bind_ok]
      have hA₂ : ∀ x : Int, lo ≤ x → x < i₁ → nth l₂ x.toNat ≤ nth l₂ p.toNat := by
        intro x hx1 hx2
        rcases Int.lt_or_le x i with hxi | hxi
        · have hne1 : x.toNat ≠ i.toNat := by omega
          have hne2 : x.toNat ≠ j.toNat := by omega
          rw [hl₂, nth_swapL_ne hne1 hne2, nth_swapL_ne hpi hpj]
          exact hA x hx1 hxi
        · rcases eq_or_lt_of_le hxi with he | hlt
          · rw [← he, hswi, hpv₂]
            exact not_lt.1 hCj
          · exact le_of_lt (hI5 x (by omega) hx2)
      have hB₂ : ∀ x : Int, j₁ < x → x ≤ hi → nth l₂ p.toNat ≤ nth l₂ x.toNat := by
        intro x hx1 hx2
        rcases Int.lt_or_le j x with hxj | hxj
        · have hne1 : x.toNat ≠ i.toNat := by omega
          have hne2 : x.toNat ≠ j.toNat := by omega
          rw [hl₂, nth_swapL_ne hpi hpj, nth_swapL_ne hne1 hne2]
          exact hB x hxj hx2
        · rcases eq_or_lt_of_le hxj with he | hlt
          · rw [he, hswj, hpv₂]
            exact not_lt.1 hCi
          · exact le_of_lt (hJ5 x hx1 (by omega))
      obtain ⟨r, hR1, hR2, hR3, hR4, hR5, hR6, hR7, hR8, hR9⟩ := ih l₂ i₁ j₁ hlen₂
        (by omega) (by omega) (by omega) (by omega) (by omega) hI4 hJ4 hA₂ hB₂ (by omega)
      refine ⟨r, hR1, hR2,
        hR3.trans (by rw [hl₂]; exact swapL_perm l i.toNat j.toNat hitn hjtn),
        ?_, by rw [hR5, hpv₂], by omega, by omega, hR8, hR9⟩
      intro x hx
      rw [hR4 x hx]
      have hne1 : x ≠ i.toNat := by omega
      have hne2 : x ≠ j.toNat := by omega
      rw [hl₂]
      exact nth_swapL_ne hne1 hne2
    · rw [if_neg hij, res_pure_eq]
      refine ⟨(l, j), rfl, hlen, List.Perm.refl l, fun x hx => rfl, rfl, hlj, le_refl j,
        ?_, hB⟩
      intro x hx1 hx2
      rcases Int.lt_or_le x i with hxi | hxi
      · exact hA x hx1 hxi
      · have hxj : x = j := by omega
        rw [hxj]
        exact not_lt.1 hCj

end Kth

namespace Kth

variable {α : Type} [LinearOrder α] [Inhabited α]

/-- One-step unfolding of the partition loop at successor fuel. -/
theorem frInner_succ (less : α → α → Bool) (p : Int) (fuel : Nat) (l : List α) (i j : Int) :
    frInner less p (fuel + 1) l i j =
      if i < j then do
        let l₁ ← frSwap l i j
        let i₁ ← frScanI less l₁ p (l₁.length + 2) (i + 1)
        let j₁ ← frScanJ less l₁ p (l₁.length + 2) (j - 1)
        frInner less p fuel l₁ i₁ j₁
      else pure (l, j) := rfl

/-- One `floydRivest` partitioning pass (lawful comparator): it succeeds,
permutes only `[left, right]`, and reports a crossing point `pr.2` in
`[left, right]` whose item dominates `[left, pr.2]` and is dominated by
`[pr.2, right]`. -/
theorem frPass_spec {l : List α} {left right k : Int} (h0 : 0 ≤ left) (h1 : left < right)
    (h2 : right < (l.length : Int)) (h3 : left ≤ k) (h4 : k ≤ right) :
    ∃ pr : List α × Int, frPass (fun x y => decide (x < y)) l left right k = .ok pr ∧
      pr.1.length = l.length ∧ pr.1.Perm l ∧
      (∀ x : Nat, (x : Int) < left ∨ right < (x : Int) → nth pr.1 x = nth l x) ∧
      left ≤ pr.2 ∧ pr.2 ≤ right ∧
      (∀ x : Int, left ≤ x → x ≤ pr.2 → nth pr.1 x.toNat ≤ nth pr.1 pr.2.toNat) ∧
      (∀ x : Int, pr.2 ≤ x → x ≤ right → nth pr.1 pr.2.toNat ≤ nth pr.1 x.toNat) := by
  have e1 : frSwap l left k = .ok (swapL l left.toNat k.toNat) :=
    frSwap_ok h0 (by omega) (by omega) (by omega)
  simp only [frPass, e1, res_bind_ok]
  set l₁ := swapL l left.toNat k.toNat with hl₁
  have hlen₁ : l₁.length = l.length := by rw [hl₁, length_swapL]
  have e2 : frGet l₁ left = .ok (nth l₁ left.toNat) := frGet_ok h0 (by rw [hlen₁]; omega)
  have e3 : frGet l₁ right = .ok (nth l₁ right.toNat) :=
    frGet_ok (by omega) (by rw [hlen₁]; omega)
  simp only [e2, e3, res_bind_ok]
  set vL := nth l₁ left.toNat with hvL
  set vR := nth l₁ right.toNat with hvR
  have hperm₁ : l₁.Perm l := by
    rw [hl₁]
    exact swapL_perm l left.toNat k.toNat (by omega) (by omega)
  have hout₁ : ∀ x : Nat, (x : Int) < left ∨ right < (x : Int) → nth l₁ x = nth l x := by
    intro x hx
    rw [hl₁]
    exact nth_swapL_ne (by omega) (by omega)
  by_cases hAB : vL < vR
  · rw [if_pos (decide_eq_true hAB)]
    have e4 : frSwap l₁ left right = .ok (swapL l₁ left.toNat right.toNat) :=
      frSwap_ok h0 (by rw [hlen₁]; omega) (by omega) (by rw [hlen₁]; omega)
    simp only [e4, res_bind_ok]
    set l₂ := swapL l₁ left.toNat right.toNat with hl₂
    have hlen₂ : l₂.length = l.length := by rw [hl₂, length_swapL, hlen₁]
    have hfe : l₂.length + 2 = (l₂.length + 1) + 1 := rfl
    rw [hfe, frInner_succ, if_pos h1]
    have e5 : frSwap l₂ left right = .ok (swapL l₂ left.toNat right.toNat) :=
      frSwap_ok h0 (by rw [hlen₂]; omega) (by omega) (by rw [hlen₂]; omega)
    simp only [e5, res_bind_ok]
    set l₃ := swapL l₂ left.toNat right.toNat with hl₃
    have hlen₃ : l₃.length = l.length := by rw [hl₃, length_swapL, hlen₂]
    have hltn : left.toNat < l₂.length := by rw [hlen₂]; omega
    have hrtn : right.toNat < l₂.length := by rw [hlen₂]; omega
    have hltn₁ : left.toNat < l₁.length := by rw [hlen₁]; omega
    have hrtn₁ : right.toNat < l₁.length := by rw [hlen₁]; omega
    have hv3L : nth l₃ left.toNat = vL := by
      rw [hl₃, nth_swapL_left hltn hrtn, hl₂, nth_swapL_right hrtn₁]
    have hv3R : nth l₃ right.toNat = vR := by
      rw [hl₃, nth_swapL_right hrtn, hl₂, nth_swapL_left hltn₁ hrtn₁]
    have hsI : ¬ nth l₃ right.toNat < nth l₃ left.toNat := by
      rw [hv3R, hv3L]
      exact not_lt.2 (le_of_lt hAB)
    obtain ⟨i₁, hI1, hI2, hI3, hI4, hI5⟩ := frScanI_spec (l := l₃) (p := left) h0
      (by rw [hlen₃]; omega) (l₃.length + 2) (left + 1) right (by omega) (by omega)
      (by rw [hlen₃]; omega) hsI (by rw [hlen₃]; omega)
    rw [hI1]
    simp only [res_bind_ok]
    have hsJ : ¬ nth l₃ left.toNat < nth l₃ left.toNat := lt_irrefl _
    obtain ⟨j₁, hJ1, hJ2, hJ3, hJ4, hJ5⟩ := frScanJ_spec (l := l₃) (p := left) h0
      (by rw [hlen₃]; omega) (l₃.length + 2) (right - 1) left h0 (by omega)
      (by rw [hlen₃]; omega) hsJ (by rw [hlen₃]; omega)
    rw [hJ1]
    simp only [res_bind_ok]
    have hA : ∀ x : Int, left ≤ x → x < i₁ → nth l₃ x.toNat ≤ nth l₃ left.toNat := by
      intro x hx1 hx2
      rcases eq_or_lt_of_le hx1 with he | hlt
      · rw [← he]
      · exact le_of_lt (hI5 x (by omega) hx2)
    have hB : ∀ x : Int, j₁ < x → x ≤ right → nth l₃ left.toNat ≤ nth l₃ x.toNat := by
      intro x hx1 hx2
      rcases eq_or_lt_of_le hx2 with he | hlt
      · rw [he, hv3R, hv3L]
        exact le_of_lt hAB
      · exact le_of_lt (hJ5 x hx1 (by omega))
    obtain ⟨r, hR1, hR2, hR3, hR4, hR5, hR6, hR7, hR8, hR9⟩ :=
      frInner_loop_spec left left right l.length h0 h2 (le_refl left) (le_of_lt h1)
        (l₂.length + 1) l₃ i₁ j₁ hlen₃ (by omega) hI3 hJ2 (by omega) (Or.inl (by omega))
        hI4 hJ4 hA hB (by omega)
    rw [hR1]
    simp only [res_bind_ok]
    have hr1len : r.1.length = l.length := hR2
    have e6 : frSwap r.1 left r.2 = .ok (swapL r.1 left.toNat r.2.toNat) :=
      frSwap_ok h0 (by rw [hr1len]; omega) (by omega) (by rw [hr1len]; omega)
    simp only [e6, res_bind_ok, res_pure_eq]
    refine ⟨(swapL r.1 left.toNat r.2.toNat, r.2), rfl, ?_, ?_, ?_, hR6, by omega, ?_, ?_⟩
    · rw [length_swapL, hr1len]
    · exact (swapL_perm r.1 left.toNat r.2.toNat (by rw [hr1len]; omega)
        (by rw [hr1len]; omega)).trans (hR3.trans ((hl₃ ▸ swapL_perm l₂ left.toNat
          right.toNat hltn hrtn).trans ((hl₂ ▸ swapL_perm l₁ left.toNat right.toNat
            hltn₁ hrtn₁).trans hperm₁)))
    · intro x hx
      rw [nth_swapL_ne (by omega) (by omega), hR4 x hx, hl₃,
        nth_swapL_ne (by omega) (by omega), hl₂, nth_swapL_ne (by omega) (by omega)]
      exact hout₁ x hx
    · intro x hx1 hx2
      have hfin2 : nth (swapL r.1 left.toNat r.2.toNat) r.2.toNat = nth r.1 left.toNat :=
        nth_swapL_right (by rw [hr1len]; omega)
      rcases eq_or_lt_of_le hx2 with he | hlt
      · rw [he]
      · rcases eq_or_lt_of_le hx1 with he2 | hlt2
        · rw [hfin2, ← he2, nth_swapL_left (by rw [hr1len]; omega) (by rw [hr1len]; omega)]
          exact hR8 r.2 hR6 (le_refl r.2)
        · rw [hfin2, nth_swapL_ne (by omega) (by omega)]
          exact hR8 x (by omega) (by omega)
    · intro x hx1 hx2
      have hfin2 : nth (swapL r.1 left.toNat r.2.toNat) r.2.toNat = nth r.1 left.toNat :=
        nth_swapL_right (by rw [hr1len]; omega)
      rcases eq_or_lt_of_le hx1 with he | hlt
      · rw [← he]
      · rw [hfin2, nth_swapL_ne (by omega) (by omega)]
        exact hR9 x hlt hx2
  · rw [if_neg (fun h => hAB (of_decide_eq_true h))]
    have hfe : l₁.length + 2 = (l₁.length + 1) + 1 := rfl
    rw [hfe, frInner_succ, if_pos h1]
    have e5 : frSwap l₁ left right = .ok (swapL l₁ left.toNat right.toNat) :=
      frSwap_ok h0 (by rw [hlen₁]; omega) (by omega) (by rw [hlen₁]; omega)
    simp only [e5, res_bind_ok]
    set l₃ := swapL l₁ left.toNat right.toNat with hl₃
    have hlen₃ : l₃.length = l.length := by rw [hl₃, length_swapL, hlen₁]
    have hltn₁ : left.toNat < l₁.length := by rw [hlen₁]; omega
    have hrtn₁ : right.toNat < l₁.length := by rw [hlen₁]; omega
    have hv3L : nth l₃ left.toNat = vR := by
      rw [hl₃, nth_swapL_left hltn₁ hrtn₁]
    have hv3R : nth l₃ right.toNat = vL := by
      rw [hl₃, nth_swapL_right hrtn₁]
    have hsI : ¬ nth l₃ right.toNat < nth l₃ right.toNat := lt_irrefl _
    obtain ⟨i₁, hI1, hI2, hI3, hI4, hI5⟩ := frScanI_spec (l := l₃) (p := right) (by omega)
      (by rw [hlen₃]; omega) (l₃.length + 2) (left + 1) right (by omega) (by omega)
      (by rw [hlen₃]; omega) hsI (by rw [hlen₃]; omega)
    rw [hI1]
    simp only [res_bind_ok]
    have hsJ : ¬ nth l₃ right.toNat < nth l₃ left.toNat := by
      rw [hv3R, hv3L]
      exact hAB
    obtain ⟨j₁, hJ1, hJ2, hJ3, hJ4, hJ5⟩ := frScanJ_spec (l := l₃) (p := right) (by omega)
      (by rw [hlen₃]; omega) (l₃.length + 2) (right - 1) left h0 (by omega)
      (by rw [hlen₃]; omega) hsJ (by rw [hlen₃]; omega)
    rw [hJ1]
    simp only [res_bind_ok]
    have hA : ∀ x : Int, left ≤ x → x < i₁ → nth l₃ x.toNat ≤ nth l₃ right.toNat := by
      intro x hx1 hx2
      rcases eq_or_lt_of_le hx1 with he | hlt
      · rw [← he, hv3L, hv3R]
        exact not_lt.1 hAB
      · exact le_of_lt (hI5 x (by omega) hx2)
    have hB : ∀ x : Int, j₁ < x → x ≤ right → nth l₃ right.toNat ≤ nth l₃ x.toNat := by
      intro x hx1 hx2
      rcases eq_or_lt_of_le hx2 with he | hlt
      · rw [he]
      · exact le_of_lt (hJ5 x hx1 (by omega))
    obtain ⟨r, hR1, hR2, hR3, hR4, hR5, hR6, hR7, hR8, hR9⟩ :=
      frInner_loop_spec right left right l.length h0 h2 (le_of_lt h1) (le_refl right)
        (l₁.length + 1) l₃ i₁ j₁ hlen₃ (by omega) hI3 hJ2 (by omega) (Or.inr (by omega))
        hI4 hJ4 hA hB (by omega)
    rw [hR1]
    simp only [res_bind_ok]
    have hr1len : r.1.length = l.length := hR2
    have e6 : frSwap r.1 right (r.2 + 1) = .ok (swapL r.1 right.toNat (r.2 + 1).toNat) :=
      frSwap_ok (by omega) (by rw [hr1len]; omega) (by omega) (by rw [hr1len]; omega)
    simp only [e6, res_bind_ok, res_pure_eq]
    refine ⟨(swapL r.1 right.toNat (r.2 + 1).toNat, r.2 + 1), rfl, ?_, ?_, ?_,
      by omega, by omega, ?_, ?_⟩
    · rw [length_swapL, hr1len]
    · exact (swapL_perm r.1 right.toNat (r.2 + 1).toNat (by rw [hr1len]; omega)
        (by rw [hr1len]; omega)).trans (hR3.trans ((hl₃ ▸ swapL_perm l₁ left.toNat
          right.toNat hltn₁ hrtn₁).trans hperm₁))
    · intro x hx
      rw [nth_swapL_ne (by omega) (by omega), hR4 x hx, hl₃,
        nth_swapL_ne (by omega) (by omega)]
      exact hout₁ x hx
    · intro x hx1 hx2
      have hfin2 : nth (swapL r.1 right.toNat (r.2 + 1).toNat) (r.2 + 1).toNat =
          nth r.1 right.toNat := nth_swapL_right (by rw [hr1len]; omega)
      rcases eq_or_lt_of_le hx2 with he | hlt
      · rw [he]
      · rw [hfin2, nth_swapL_ne (by omega) (by omega)]
        exact hR8 x hx1 (by omega)
    · intro x hx1 hx2
      have hfin2 : nth (swapL r.1 right.toNat (r.2 + 1).toNat) (r.2 + 1).toNat =
          nth r.1 right.toNat := nth_swapL_right (by rw [hr1len]; omega)
      rcases eq_or_lt_of_le hx1 with he | hlt
      · rw [← he]
      · rcases eq_or_lt_of_le hx2 with he2 | hlt2
        · rw [hfin2, he2, nth_swapL_left (by rw [hr1len]; omega) (by rw [hr1len]; omega)]
          exact hR9 (r.2 + 1) (by omega) (by omega)
        · rw [hfin2, nth_swapL_ne (by omega) (by omega)]
          exact hR9 x (by omega) (by omega)

end Kth

namespace Kth

variable {α : Type} [LinearOrder α] [Inhabited α]

/-- One-step unfolding of the `floydRivest` driver at successor fuel. -/
theorem floydRivest_succ (less : α → α → Bool) (narrow : Int → Int → Int → Int × Int)
    (fuel : Nat) (l : List α) (left right k : Int) :
    floydRivest less narrow (fuel + 1) l left right k =
      (if left < right then do
        let l₂ ←
          if 600 < right - left then
            floydRivest less narrow fuel l (max left (narrow left right k).1)
              (min right (narrow left right k).2) k
          else pure l
        let pr ← frPass less l₂ left right k
        floydRivest less narrow fuel pr.1
          (if pr.2 ≤ k then pr.2 + 1 else left)
          (if k ≤ pr.2 then pr.2 - 1 else right) k
      else pure l) := rfl

/-- The driver is an immediate no-op once the interval is empty. -/
theorem floydRivest_exit {less : α → α → Bool} {narrow : Int → Int → Int → Int × Int}
    {l : List α} {left right k : Int} (h : ¬ left < right) {fuel : Nat} (hf : 1 ≤ fuel) :
    floydRivest less narrow fuel l left right k = .ok l := by
  cases fuel with
  | zero => exact absurd hf (by omega)
  | succ f => rw [floydRivest_succ, if_neg h, res_pure_eq]

/-- Termination and confinement of the `floydRivest` driver under the
clamped-narrowing shrink property: with fuel at least the interval size
plus two the run returns `.ok`, permuting only `[left, right]`. -/
theorem floydRivest_ok {narrow : Int → Int → Int → Int × Int} {n : Nat}
    (hnar : narrowOk narrow n) :
    ∀ (fuel : Nat) (l : List α) (left right k : Int), l.length = n →
      0 ≤ left → right < (n : Int) → left ≤ k → k ≤ right →
      right - left + 2 ≤ (fuel : Int) →
      ∃ l', floydRivest (fun x y => decide (x < y)) narrow fuel l left right k = .ok l' ∧
        l'.length = n ∧ l'.Perm l ∧
        (∀ x : Nat, (x : Int) < left ∨ right < (x : Int) → nth l' x = nth l x) := by
  intro fuel
  induction fuel with
  | zero =>
    intro l left right k h1 h2 h3 h4 h5 hf
    exfalso
    omega
  | succ fuel ih =>
    intro l left right k hlen h2 h3 h4 h5 hf
    by_cases hlr : left < right
    · rw [floydRivest_succ, if_pos hlr]
      have hcont : ∀ l₂ : List α, l₂.length = n → l₂.Perm l →
          (∀ x : Nat, (x : Int) < left ∨ right < (x : Int) → nth l₂ x = nth l x) →
          ∃ l', (frPass (fun x y => decide (x < y)) l₂ left right k >>= fun pr =>
              floydRivest (fun x y => decide (x < y)) narrow fuel pr.1
                (if pr.2 ≤ k then pr.2 + 1 else left)
                (if k ≤ pr.2 then pr.2 - 1 else right) k) = .ok l' ∧
            l'.length = n ∧ l'.Perm l ∧
            (∀ x : Nat, (x : Int) < left ∨ right < (x : Int) → nth l' x = nth l x) := by
        intro l₂ hC2 hC3 hC4
        obtain ⟨pr, hP1, hP2, hP3, hP4, hP5, hP6, hP7, hP8⟩ :=
          frPass_spec (l := l₂) (k := k) h2 hlr (by rw [hC2]; exact h3) h4 h5
        rw [hP1]
        simp only [res_bind_ok]
        have hP2n : pr.1.length = n := by rw [hP2, hC2]
        rcases lt_trichotomy pr.2 k with hcmp | hcmp | hcmp
        · rw [if_pos (le_of_lt hcmp), if_neg (by omega)]
          obtain ⟨l', g1, g2, g3, g4⟩ := ih pr.1 (pr.2 + 1) right k hP2n
            (by omega) h3 (by omega) h5 (by omega)
          refine ⟨l', g1, g2, g3.trans (hP3.trans hC3), fun x hx => ?_⟩
          have hx' : (x : Int) < pr.2 + 1 ∨ right < (x : Int) := by
            rcases hx with hx | hx
            · exact Or.inl (by omega)
            · exact Or.inr hx
          rw [g4 x hx', hP4 x hx, hC4 x hx]
        · rw [if_pos (le_of_eq hcmp), if_pos (le_of_eq hcmp.symm)]
          rw [floydRivest_exit (show ¬ (pr.2 + 1 < pr.2 - 1) by omega)
            (show (1 : Nat) ≤ fuel by omega)]
          exact ⟨pr.1, rfl, hP2n, hP3.trans hC3, fun x hx => by rw [hP4 x hx, hC4 x hx]⟩
        · rw [if_neg (by omega), if_pos (le_of_lt hcmp)]
          obtain ⟨l', g1, g2, g3, g4⟩ := ih pr.1 left (pr.2 - 1) k hP2n
            h2 (by omega) h4 (by omega) (by omega)
          refine ⟨l', g1, g2, g3.trans (hP3.trans hC3), fun x hx => ?_⟩
          have hx' : (x : Int) < left ∨ pr.2 - 1 < (x : Int) := by
            rcases hx with hx | hx
            · exact Or.inl hx
            · exact Or.inr (by omega)
          rw [g4 x hx', hP4 x hx, hC4 x hx]
      by_cases h600 : 600 < right - left
      · rw [if_pos h600]
        obtain ⟨hn1, hn2, hn3⟩ := hnar left right k h2 h4 h5 h3 h600
        obtain ⟨l₂, g1, g2, g3, g4⟩ := ih l (max left (narrow left right k).1)
          (min right (narrow left right k).2) k hlen
          (le_trans h2 (le_max_left _ _)) (lt_of_le_of_lt (min_le_left _ _) h3)
          hn1 hn2 (by omega)
        rw [g1]
        simp only [res_bind_ok]
        refine hcont l₂ g2 g3 fun x hx => g4 x ?_
        rcases hx with hx | hx
        · exact Or.inl (lt_of_lt_of_le hx (le_max_left _ _))
        · exact Or.inr (lt_of_le_of_lt (min_le_left _ _) hx)
      · rw [if_neg h600, res_pure_eq]
        simp only [res_bind_ok]
        exact hcont l hlen (List.Perm.refl l) fun x hx => rfl
    · rw [floydRivest_succ, if_neg hlr, res_pure_eq]
      exact ⟨l, rfl, hlen, List.Perm.refl l, fun x hx => rfl⟩
end Kth

namespace Kth

variable {α : Type} [LinearOrder α] [Inhabited α]

/-- Correctness of the `floydRivest` driver under the clamped-narrowing
shrink property and the outside-placed invariant: it returns `.ok`, the
result permutes only `[left, right]`, and the selection postcondition
holds at the target. -/
theorem floydRivest_sel {narrow : Int → Int → Int → Int × Int} {n : Nat}
    (hnar : narrowOk narrow n) :
    ∀ (fuel : Nat) (l : List α) (left right k : Int), l.length = n →
      0 ≤ left → right < (n : Int) → left ≤ k → k ≤ right →
      right - left + 2 ≤ (fuel : Int) →
      Out l left.toNat (right.toNat + 1) →
      ∃ l', floydRivest (fun x y => decide (x < y)) narrow fuel l left right k = .ok l' ∧
        l'.length = n ∧ l'.Perm l ∧
        (∀ x : Nat, (x : Int) < left ∨ right < (x : Int) → nth l' x = nth l x) ∧
        SelAt l' k.toNat := by
  intro fuel
  induction fuel with
  | zero =>
    intro l left right k h1 h2 h3 h4 h5 hf hOut
    exfalso
    omega
  | succ fuel ih =>
    intro l left right k hlen h2 h3 h4 h5 hf hOut
    by_cases hlr : left < right
    · rw [floydRivest_succ, if_pos hlr]
      have hbn : right.toNat + 1 ≤ n := by omega
      have hcont : ∀ l₂ : List α, l₂.length = n → l₂.Perm l →
          (∀ x : Nat, (x : Int) < left ∨ right < (x : Int) → nth l₂ x = nth l x) →
          Out l₂ left.toNat (right.toNat + 1) →
          ∃ l', (frPass (fun x y => decide (x < y)) l₂ left right k >>= fun pr =>
              floydRivest (fun x y => decide (x < y)) narrow fuel pr.1
                (if pr.2 ≤ k then pr.2 + 1 else left)
                (if k ≤ pr.2 then pr.2 - 1 else right) k) = .ok l' ∧
            l'.length = n ∧ l'.Perm l ∧
            (∀ x : Nat, (x : Int) < left ∨ right < (x : Int) → nth l' x = nth l x) ∧
            SelAt l' k.toNat := by
        intro l₂ hC2 hC3 hC4 hOut₂
        obtain ⟨pr, hP1, hP2, hP3, hP4, hP5, hP6, hP7, hP8⟩ :=
          frPass_spec (l := l₂) (k := k) h2 hlr (by rw [hC2]; exact h3) h4 h5
        rw [hP1]
        simp only [res_bind_ok]
        have hP2n : pr.1.length = n := by rw [hP2, hC2]
        have hRp : RangeOp left.toNat (right.toNat + 1) l₂ pr.1 := by
          refine rangeOp_of_outside_perm (by omega) (by omega) (by rw [hP2]) ?_ hP3
          intro i hi
          exact hP4 i (by omega)
        have hOutP : Out pr.1 left.toNat (right.toNat + 1) :=
          out_transfer hRp hOut₂ (by omega) (by omega)
        have hP7' : ∀ i : Nat, left.toNat ≤ i → (i : Int) ≤ pr.2 →
            nth pr.1 i ≤ nth pr.1 pr.2.toNat := by
          intro i hi1 hi2
          have hcast : ((i : Int)).toNat = i := by omega
          have := hP7 (i : Int) (by omega) hi2
          rwa [hcast] at this
        have hP8' : ∀ i : Nat, pr.2 ≤ (i : Int) → (i : Int) ≤ right →
            nth pr.1 pr.2.toNat ≤ nth pr.1 i := by
          intro i hi1 hi2
          have hcast : ((i : Int)).toNat = i := by omega
          have := hP8 (i : Int) hi1 hi2
          rwa [hcast] at this
        rcases lt_trichotomy pr.2 k with hcmp | hcmp | hcmp
        · rw [if_pos (le_of_lt hcmp), if_neg (by omega)]
          have hOut' : Out pr.1 (pr.2 + 1).toNat (right.toNat + 1) := by
            refine ⟨?_, ?_, ?_⟩
            · intro i j hi haj hjb
              rcases Nat.lt_or_ge i left.toNat with hia | hia
              · exact hOutP.1 i j hia (by omega) hjb
              · exact le_trans (hP7' i hia (by omega)) (hP8' j (by omega) (by omega))
            · intro i j hai hib hbj hjl
              exact hOutP.2.1 i j (by omega) hib hbj hjl
            · intro i j hi hbj hjl
              rcases Nat.lt_or_ge i left.toNat with hia | hia
              · exact hOutP.2.2 i j hia hbj hjl
              · exact le_trans (hP7' i hia (by omega))
                  (hOutP.2.1 pr.2.toNat j (by omega) (by omega) hbj hjl)
          obtain ⟨l', g1, g2, g3, g4, g5⟩ := ih pr.1 (pr.2 + 1) right k hP2n
            (by omega) h3 (by omega) h5 (by omega) hOut'
          refine ⟨l', g1, g2, g3.trans (hP3.trans hC3), fun x hx => ?_, g5⟩
          have hx' : (x : Int) < pr.2 + 1 ∨ right < (x : Int) := by
            rcases hx with hx | hx
            · exact Or.inl (by omega)
            · exact Or.inr hx
          rw [g4 x hx', hP4 x hx, hC4 x hx]
        · rw [if_pos (le_of_eq hcmp), if_pos (le_of_eq hcmp.symm)]
          rw [floydRivest_exit (show ¬ (pr.2 + 1 < pr.2 - 1) by omega)
            (show (1 : Nat) ≤ fuel by omega)]
          refine ⟨pr.1, rfl, hP2n, hP3.trans hC3,
            fun x hx => by rw [hP4 x hx, hC4 x hx], ?_, ?_⟩
          · intro i hik
            rcases Nat.lt_or_ge i left.toNat with hia | hia
            · exact hOutP.1 i k.toNat hia (by omega) (by omega)
            · have := hP7' i hia (by omega)
              rwa [show pr.2.toNat = k.toNat by omega] at this
          · intro i hki hil
            rcases Nat.lt_or_ge i (right.toNat + 1) with hib | hib
            · have := hP8' i (by omega) (by omega)
              rwa [show pr.2.toNat = k.toNat by omega] at this
            · exact hOutP.2.1 k.toNat i (by omega) (by omega) hib hil
        · rw [if_neg (by omega), if_pos (le_of_lt hcmp)]
          have hOut' : Out pr.1 left.toNat ((pr.2 - 1).toNat + 1) := by
            refine ⟨?_, ?_, ?_⟩
            · intro i j hi haj hjb
              exact hOutP.1 i j hi haj (by omega)
            · intro i j hai hib hbj hjl
              rcases Nat.lt_or_ge j (right.toNat + 1) with hjb | hjb
              · exact le_trans (hP7' i hai (by omega)) (hP8' j (by omega) (by omega))
              · exact hOutP.2.1 i j hai (by omega) hjb hjl
            · intro i j hi hbj hjl
              rcases Nat.lt_or_ge j (right.toNat + 1) with hjb | hjb
              · exact hOutP.1 i j hi (by omega) hjb
              · exact hOutP.2.2 i j hi hjb hjl
          obtain ⟨l', g1, g2, g3, g4, g5⟩ := ih pr.1 left (pr.2 - 1) k hP2n
            h2 (by omega) h4 (by omega) (by omega) hOut'
          refine ⟨l', g1, g2, g3.trans (hP3.trans hC3), fun x hx => ?_, g5⟩
          have hx' : (x : Int) < left ∨ pr.2 - 1 < (x : Int) := by
            rcases hx with hx | hx
            · exact Or.inl hx
            · exact Or.inr (by omega)
          rw [g4 x hx', hP4 x hx, hC4 x hx]
      by_cases h600 : 600 < right - left
      · rw [if_pos h600]
        obtain ⟨hn1, hn2, hn3⟩ := hnar left right k h2 h4 h5 h3 h600
        obtain ⟨l₂, g1, g2, g3, g4⟩ := floydRivest_ok hnar fuel l
          (max left (narrow left right k).1) (min right (narrow left right k).2) k hlen
          (le_trans h2 (le_max_left _ _)) (lt_of_le_of_lt (min_le_left _ _) h3)
          hn1 hn2 (by omega)
        rw [g1]
        simp only [res_bind_ok]
        have g4' : ∀ x : Nat, (x : Int) < left ∨ right < (x : Int) → nth l₂ x = nth l x := by
          intro x hx
          refine g4 x ?_
          rcases hx with hx | hx
          · exact Or.inl (lt_of_lt_of_le hx (le_max_left _ _))
          · exact Or.inr (lt_of_le_of_lt (min_le_left _ _) hx)
        have hR₂ : RangeOp left.toNat (right.toNat + 1) l l₂ := by
          refine rangeOp_of_outside_perm (by omega) (by omega) (by rw [g2, hlen]) ?_ g3
          intro i hi
          exact g4' i (by omega)
        exact hcont l₂ g2 g3 g4' (out_transfer hR₂ hOut (by omega) (by omega))
      · rw [if_neg h600, res_pure_eq]
        simp only [res_bind_ok]
        exact hcont l hlen (List.Perm.refl l) (fun x hx => rfl) hOut
    · rw [floydRivest_succ, if_neg hlr, res_pure_eq]
      refine ⟨l, rfl, hlen, List.Perm.refl l, fun x hx => rfl, ?_, ?_⟩
      · intro i hik
        exact hOut.1 i k.toNat (by omega) (by omega) (by omega)
      · intro i hki hil
        exact hOut.2.1 k.toNat i (by omega) (by omega) (by omega) hil

end Kth

namespace Kth

variable {α : Type} [LinearOrder α] [Inhabited α]

/-- Entry-level specification of `FloydRivestFunc` with the lawful
comparator, for a valid 1-based target, under the narrowing-shrink
hypothesis: the run returns `.ok`, permutes the sequence, and satisfies
the selection postcondition at `k-1`. -/
theorem FloydRivestFunc_spec {narrow : Int → Int → Int → Int × Int} {l : List α} {k : Int}
    (hnar : narrowOk narrow l.length) (h1 : 1 ≤ k) (h2 : k ≤ (l.length : Int)) :
    ∃ l', FloydRivestFunc (fun x y => decide (x < y)) narrow l k = .ok l' ∧
      l'.length = l.length ∧ l'.Perm l ∧ SelAt l' (k - 1).toNat := by
  rw [FloydRivestFunc, if_neg (by omega)]
  have hOut : Out l (0 : Int).toNat (((l.length : Int) - 1).toNat + 1) := by
    refine ⟨?_, ?_, ?_⟩
    · intro i j hi _ _
      exact absurd hi (by omega)
    · intro i j _ _ hbj hjl
      exact absurd hbj (by omega)
    · intro i j _ hbj hjl
      exact absurd hbj (by omega)
  obtain ⟨l', g1, g2, g3, g4, g5⟩ := floydRivest_sel hnar (l.length + 2) l 0
    ((l.length : Int) - 1) (k - 1) rfl (le_refl 0) (by omega) (by omega) (by omega)
    (by omega) hOut
  exact ⟨l', g1, g2, g3, g5⟩

/-- `FloydRivestFunc` is a silent no-op for an out-of-range target. -/
theorem FloydRivestFunc_noop {less : α → α → Bool} {narrow : Int → Int → Int → Int × Int}
    {l : List α} {k : Int} (h : k < 1 ∨ (l.length : Int) < k) :
    FloydRivestFunc less narrow l k = .ok l := by
  rw [FloydRivestFunc, if_pos h]

/-- `FloydRivestFunc` on a single-element sequence with `k = 1` returns
the sequence unchanged (the interval `[0, 0]` is empty and the driver
exits at once). -/
theorem FloydRivestFunc_single {less : α → α → Bool} {narrow : Int → Int → Int → Int × Int}
    {l : List α} (h : l.length = 1) :
    FloydRivestFunc less narrow l 1 = .ok l := by
  rw [FloydRivestFunc, if_neg (by omega)]
  exact floydRivest_exit (by omega) (by omega)

end Kth

namespace Kth

variable {α : Type} [LinearOrder α] [Inhabited α]

/-- When the limit counter reaches zero on a non-small range, the
`Kth.pdqLoop` iteration hands its current absolute target `k` to
`heapSelect`. -/
theorem pdqLoop_limit_zero (fuel : Nat) (l : List α) (a b k : Nat)
    (wasBal wasPart : Bool) (h12 : ¬ (b - a ≤ 12)) :
    pdqLoop (fuel + 1) l a b k 0 wasBal wasPart = heapSelect l a b k := by
  simp only [pdqLoop]
  rw [if_neg h12, if_pos trivial]

end Kth

/-! ## The claims -/

/-- C1: for every sequence and every valid 1-based target `k`, each public
entry point (the PDQSelect driver; the FloydRivest driver, whose run
returns `.ok` under the clamped-narrowing shrink property) leaves a
permutation whose position `k-1` holds the `k`-th smallest item, whose
first `k` positions hold the `k` smallest items as a multiset (each at
most that value), and whose remaining positions hold items at least that
value. -/
theorem claim_C1 {α : Type} [LinearOrder α] [Inhabited α]
    (narrow : Int → Int → Int → Int × Int) (l : List α) (k : Int)
    (hnar : Kth.narrowOk narrow l.length) (h1 : 1 ≤ k) (h2 : k ≤ (l.length : Int)) :
    ((Kth.PDQSelect l k).Perm l ∧
      Kth.nth (Kth.PDQSelect l k) (k - 1).toNat = Kth.nth (Kth.sortL l) (k - 1).toNat ∧
      ((Kth.PDQSelect l k).take ((k - 1).toNat + 1)).Perm
        ((Kth.sortL l).take ((k - 1).toNat + 1)) ∧
      (∀ i : Nat, i < (k - 1).toNat →
        Kth.nth (Kth.PDQSelect l k) i ≤ Kth.nth (Kth.sortL l) (k - 1).toNat) ∧
      (∀ i : Nat, (k - 1).toNat < i → i < (Kth.PDQSelect l k).length →
        Kth.nth (Kth.sortL l) (k - 1).toNat ≤ Kth.nth (Kth.PDQSelect l k) i)) ∧
    (∃ l', Kth.FloydRivest narrow l k = .ok l' ∧ l'.Perm l ∧
      Kth.nth l' (k - 1).toNat = Kth.nth (Kth.sortL l) (k - 1).toNat ∧
      (l'.take ((k - 1).toNat + 1)).Perm ((Kth.sortL l).take ((k - 1).toNat + 1)) ∧
      (∀ i : Nat, i < (k - 1).toNat →
        Kth.nth l' i ≤ Kth.nth (Kth.sortL l) (k - 1).toNat) ∧
      (∀ i : Nat, (k - 1).toNat < i → i < l'.length →
        Kth.nth (Kth.sortL l) (k - 1).toNat ≤ Kth.nth l' i)) := by
  constructor
  · have ht : (k - 1).toNat < l.length := by omega
    have he : Kth.PDQSelect l k =
        Kth.pdqselect l 0 l.length (k - 1).toNat (Nat.size l.length) := by
      rw [Kth.PDQSelect, if_neg (show ¬ (k < 1 ∨ (l.length : Int) < k) by omega)]
    rw [he]
    obtain ⟨I1, I2, I3⟩ := Kth.pdqselect_spec ht
    have hblock := Kth.selAt_block I2 (by rw [I3]; exact ht) I1
    refine ⟨I2, hblock.1, hblock.2, ?_, ?_⟩
    · intro i hi
      rw [← hblock.1]
      exact I1.1 i hi
    · intro i hi hil
      rw [← hblock.1]
      exact I1.2 i hi hil
  · rw [Kth.FloydRivest]
    obtain ⟨l', g1, g2, g3, g4⟩ := Kth.FloydRivestFunc_spec hnar h1 h2
    have hblock := Kth.selAt_block g3 (by rw [g2]; omega) g4
    refine ⟨l', g1, g3, hblock.1, hblock.2, ?_, ?_⟩
    · intro i hi
      rw [← hblock.1]
      exact g4.1 i hi
    · intro i hi hil
      rw [← hblock.1]
      exact g4.2 i hi hil

theorem claim_C1_witness :
    (Kth.PDQSelect ([2, 1] : List Int) 1).Perm [2, 1] :=
  (claim_C1 (fun _ _ _ => ((0 : Int), (0 : Int))) [2, 1] 1
    (by intro L R q g1 g2 g3 g4 g5; simp at g4; exfalso; omega)
    (by decide) (by decide)).1.1

/-- C2: the multiset of items is preserved: the swap primitive that every
operation of both algorithms is built from permutes the sequence, and so
do the public drivers (FloydRivest whenever it returns `.ok`). -/
theorem claim_C2 {α : Type} [LinearOrder α] [Inhabited α] :
    (∀ (l : List α) (i j : Nat), i < l.length → j < l.length →
      (Kth.swapL l i j).Perm l) ∧
    (∀ (l : List α) (k : Int), (Kth.PDQSelect l k).Perm l) ∧
    (∀ (l : List α) (k : Int), (Pdq.Select l k).Perm l) ∧
    (∀ (narrow : Int → Int → Int → Int × Int) (l : List α) (k : Int) (l' : List α),
      Kth.narrowOk narrow l.length → Kth.FloydRivest narrow l k = .ok l' →
      l'.Perm l) := by
  refine ⟨fun l i j hi hj => Kth.swapL_perm l i j hi hj, ?_, ?_, ?_⟩
  · intro l k
    by_cases hg : k < 1 ∨ (l.length : Int) < k
    · rw [Kth.PDQSelect_noop hg]
    · exact (Kth.PDQSelect_spec (by omega) (by omega)).1
  · intro l k
    by_cases hg : k < 1 ∨ (l.length : Int) < k
    · rw [Pdq.Select, if_pos hg]
    · exact (pdqGo_Select_spec (by omega) (by omega)).1
  · intro narrow l k l' hnar heq
    by_cases hg : k < 1 ∨ (l.length : Int) < k
    · rw [Kth.FloydRivest, Kth.FloydRivestFunc_noop hg] at heq
      have h := Res.ok.inj heq
      rw [← h]
    · obtain ⟨l₀, g1, g2, g3, g4⟩ := Kth.FloydRivestFunc_spec hnar
        (show (1 : Int) ≤ k by omega) (show k ≤ (l.length : Int) by omega)
      rw [Kth.FloydRivest, g1] at heq
      have h := Res.ok.inj heq
      rw [← h]
      exact g3

/-- C3: an out-of-range 1-based target (`k < 1` or `k > N`, the empty
sequence included) makes every public entry point a silent no-op, and a
single-element sequence with `k = 1` is also left unchanged. -/
theorem claim_C3 {α : Type} [LinearOrder α] [Inhabited α] :
    (∀ (l : List α) (k : Int), (k < 1 ∨ (l.length : Int) < k) →
      Kth.PDQSelect l k = l) ∧
    (∀ (less : α → α → Bool) (narrow : Int → Int → Int → Int × Int)
      (l : List α) (k : Int), (k < 1 ∨ (l.length : Int) < k) →
      Kth.FloydRivestFunc less narrow l k = .ok l) ∧
    (∀ (l : List α) (k : Int), (k < 1 ∨ (l.length : Int) < k) → Pdq.Select l k = l) ∧
    (∀ l : List α, l.length = 1 → Kth.PDQSelect l 1 = l) ∧
    (∀ (less : α → α → Bool) (narrow : Int → Int → Int → Int × Int) (l : List α),
      l.length = 1 → Kth.FloydRivestFunc less narrow l 1 = .ok l) :=
  ⟨fun l k h => Kth.PDQSelect_noop h,
   fun less narrow l k h => Kth.FloydRivestFunc_noop h,
   fun l k h => by rw [Pdq.Select, if_pos h],
   fun l h => Kth.PDQSelect_single h,
   fun less narrow l h => Kth.FloydRivestFunc_single h⟩

/-- C4 (amended): `heapSelect` interprets its target relatively: with
target `r` it builds the heap over `[a, a+r+1)` and on return position
`a + r` (not the absolute position) holds the `(r+1)`-th smallest of
`[a, b)`, flanked below/above; and the PDQSelect core loop at
`limit = 0` does invoke it with its current absolute target. -/
theorem claim_C4 {α : Type} [LinearOrder α] [Inhabited α] (l : List α)
    (a b r fuel k : Nat) (wasBal wasPart : Bool)
    (hr : r < b - a) (hb : b ≤ l.length) (h12 : ¬ (b - a ≤ 12)) :
    (Kth.RangeOp a b l (Kth.heapSelect l a b r) ∧
      Kth.nth (Kth.heapSelect l a b r) (a + r) =
        Kth.nth (Kth.sortL (Kth.rangeSlice l a b)) r ∧
      (∀ x, a ≤ x → x ≤ a + r →
        Kth.nth (Kth.heapSelect l a b r) x ≤ Kth.nth (Kth.heapSelect l a b r) (a + r)) ∧
      (∀ x, a + r ≤ x → x < b →
        Kth.nth (Kth.heapSelect l a b r) (a + r) ≤ Kth.nth (Kth.heapSelect l a b r) x)) ∧
    Kth.pdqLoop (fuel + 1) l a b k 0 wasBal wasPart = Kth.heapSelect l a b k :=
  ⟨Kth.heapSelect_spec hr hb, Kth.pdqLoop_limit_zero fuel l a b k wasBal wasPart h12⟩

theorem claim_C4_witness :
    Kth.pdqLoop (0 + 1) ([12, 11, 10, 9, 8, 7, 6, 5, 4, 3, 2, 1, 0] : List Int)
      0 13 0 0 true true =
    Kth.heapSelect ([12, 11, 10, 9, 8, 7, 6, 5, 4, 3, 2, 1, 0] : List Int) 0 13 0 :=
  (claim_C4 [12, 11, 10, 9, 8, 7, 6, 5, 4, 3, 2, 1, 0] 0 13 0 0 0 true true
    (by decide) (by decide) (by decide)).2

theorem claim_C4_counterexample :
    Kth.heapSelect ([100, 2, 1, 9, 4, 3] : List Int) 1 6 2 = [100, 2, 1, 3, 9, 4] ∧
    Kth.nth ([100, 2, 1, 3, 9, 4] : List Int) 2 ≠
      Kth.nth (Kth.sortL (Kth.rangeSlice ([100, 2, 1, 9, 4, 3] : List Int) 1 6)) (2 - 1) := by
  constructor
  · decide
  · decide

/-- C5: in the PDQSelect core loop state (outside-placed invariant), when
`a > 0` and the item before the range is not less than the pivot item,
`partitionEqual` puts the items equal to the pivot at the front, returning
`mid`; if the target lies below `mid` it already holds its final value
(the selection postcondition holds on the result) and the multiset is
preserved. -/
theorem claim_C5 {α : Type} [LinearOrder α] [Inhabited α] (l : List α) (a b p k : Nat)
    (hOut : Kth.Out l a b) (hap : a ≤ p) (hpb : p < b) (hb : b ≤ l.length)
    (ha : 0 < a) (hdup : ¬ Kth.nth l (a - 1) < Kth.nth l p)
    (hak : a ≤ k) (hk : k < (Kth.partitionEqual l a b p).2) :
    Kth.SelAt (Kth.partitionEqual l a b p).1 k ∧
    (Kth.partitionEqual l a b p).1.Perm l ∧
    a < (Kth.partitionEqual l a b p).2 ∧ (Kth.partitionEqual l a b p).2 ≤ b ∧
    (∀ x, a ≤ x → x < (Kth.partitionEqual l a b p).2 →
      Kth.nth (Kth.partitionEqual l a b p).1 x = Kth.nth l p) ∧
    (∀ x, (Kth.partitionEqual l a b p).2 ≤ x → x < b →
      Kth.nth l p < Kth.nth (Kth.partitionEqual l a b p).1 x) := by
  have hab : a < b := by omega
  have hp : ∀ x, a ≤ x → x < b → Kth.nth l p ≤ Kth.nth l x := fun x hax hxb =>
    le_trans (not_lt.1 hdup) (hOut.1 (a - 1) x (by omega) hax hxb)
  obtain ⟨E1, E2, E3, E4, E5⟩ := Kth.partitionEqual_spec hap hpb hab hb hp
  have hkv : Kth.nth (Kth.partitionEqual l a b p).1 k = Kth.nth l p := E4 k hak hk
  refine ⟨⟨?_, ?_⟩, Kth.rangeOp_perm E1 (by omega) hb, E2, E3, E4, E5⟩
  · intro i hik
    rcases Nat.lt_or_ge i a with hia | hia
    · rw [E1.2.1 i (Or.inl hia), hkv]
      exact hOut.1 i p hia hap hpb
    · exact le_of_eq ((E4 i hia (by omega)).trans hkv.symm)
  · intro i hki hil
    rcases Nat.lt_or_ge i (Kth.partitionEqual l a b p).2 with hi2 | hi2
    · exact le_of_eq (hkv.trans (E4 i (by omega) hi2).symm)
    · rcases Nat.lt_or_ge i b with hib | hib
      · rw [hkv]
        exact le_of_lt (E5 i hi2 hib)
      · rw [hkv, E1.2.1 i (Or.inr hib)]
        exact hOut.2.1 p i hap hpb hib (by have := E1.1; omega)

theorem claim_C5_witness :
    Kth.SelAt (Kth.partitionEqual ([1, 1, 1, 2] : List Int) 1 4 1).1 1 :=
  (claim_C5 [1, 1, 1, 2] 1 4 1 1
    (by
      refine ⟨?_, ?_, ?_⟩
      · intro i j hi haj hjb
        interval_cases i <;> interval_cases j <;> decide
      · intro i j h1 h2 hbj hjl
        simp at hjl
        exact absurd hjl (by omega)
      · intro i j h1 hbj hjl
        simp at hjl
        exact absurd hjl (by omega))
    (by decide) (by decide) (by decide) (by decide) (by decide) (by decide) (by decide)).1

/-- C6 (amended): the entry fast paths of the PDQSelect core trigger on
`k = 0` and `k = b - 1` (not on `k = a` / relative position): for `k = 0`
a linear minimum scan of `[a, b)` and a guarded swap put the minimum at
position `a`; for `k = b - 1` a maximum scan puts the maximum at
`b - 1`; both permute only `[a, b)`. -/
theorem claim_C6 {α : Type} [LinearOrder α] [Inhabited α] (l : List α) (a b limit : Nat)
    (hab : a < b) (hb : b ≤ l.length) :
    (Kth.RangeOp a b l (Kth.pdqselect l a b 0 limit) ∧
      (∀ x, a ≤ x → x < b →
        Kth.nth (Kth.pdqselect l a b 0 limit) a ≤
          Kth.nth (Kth.pdqselect l a b 0 limit) x)) ∧
    (0 < b - 1 →
      Kth.RangeOp a b l (Kth.pdqselect l a b (b - 1) limit) ∧
      (∀ x, a ≤ x → x < b →
        Kth.nth (Kth.pdqselect l a b (b - 1) limit) x ≤
          Kth.nth (Kth.pdqselect l a b (b - 1) limit) (b - 1))) :=
  ⟨Kth.pdqselect_min_path hab hb, fun h1 => Kth.pdqselect_max_path hab hb h1⟩

theorem claim_C6_witness :
    Kth.RangeOp 0 2 ([2, 1] : List Int) (Kth.pdqselect ([2, 1] : List Int) 0 2 0 1) :=
  (claim_C6 [2, 1] 0 2 1 (by decide) (by decide)).1.1

theorem claim_C6_counterexample :
    Kth.pdqselect ([9, 3, 1, 2] : List Int) 1 4 1 2 ≠
      Kth.swapL ([9, 3, 1, 2] : List Int) 2 1 := by
  decide

/-- C7: the FloydRivest driver terminates: under the strict-shrink
property of the clamped narrowing estimates (the float fact, taken as a
hypothesis) every valid run returns `.ok`, and every partitioning pass
reports a crossing point that strictly shrinks the outer interval. -/
theorem claim_C7 {α : Type} [LinearOrder α] [Inhabited α]
    (narrow : Int → Int → Int → Int × Int) (l : List α) (k : Int)
    (hnar : Kth.narrowOk narrow l.length) (h1 : 1 ≤ k) (h2 : k ≤ (l.length : Int)) :
    (∃ l', Kth.FloydRivestFunc (fun x y => decide (x < y)) narrow l k = .ok l') ∧
    (∀ (l₂ : List α) (left right q : Int), 0 ≤ left → left < right →
      right < (l₂.length : Int) → left ≤ q → q ≤ right →
      ∃ pr, Kth.frPass (fun x y => decide (x < y)) l₂ left right q = .ok pr ∧
        (if q ≤ pr.2 then pr.2 - 1 else right) -
          (if pr.2 ≤ q then pr.2 + 1 else left) < right - left) := by
  constructor
  · obtain ⟨l', g1, g2, g3, g4⟩ := Kth.FloydRivestFunc_spec hnar h1 h2
    exact ⟨l', g1⟩
  · intro l₂ left right q hl0 hlr hrn hlq hqr
    obtain ⟨pr, hP1, hP2, hP3, hP4, hP5, hP6, hP7, hP8⟩ :=
      Kth.frPass_spec hl0 hlr hrn hlq hqr
    refine ⟨pr, hP1, ?_⟩
    split_ifs <;> omega

theorem claim_C7_witness :
    ∃ l', Kth.FloydRivestFunc (fun x y => decide (x < y))
      (fun _ _ _ => ((0 : Int), (0 : Int))) ([2, 1] : List Int) 1 = .ok l' :=
  (claim_C7 (fun _ _ _ => ((0 : Int), (0 : Int))) [2, 1] 1
    (by intro L R q g1 g2 g3 g4 g5; simp at g4; exfalso; omega)
    (by decide) (by decide)).1

/-- C8 (amended): with a comparator that is a strict total order the
FloydRivest run never reports an out-of-bounds access, and `heapSelect`
confines its effect to `[a, b)`; with an adversarial comparator the
unguarded scans do run out of bounds (see the counterexample), so the
original for-every-comparator claim fails. -/
theorem claim_C8 {α : Type} [LinearOrder α] [Inhabited α]
    (narrow : Int → Int → Int → Int × Int) (l : List α)
    (hnar : Kth.narrowOk narrow l.length) :
    (∀ k : Int, Kth.FloydRivestFunc (fun x y => decide (x < y)) narrow l k ≠ .oob) ∧
    (∀ a b r : Nat, r < b - a → b ≤ l.length →
      Kth.RangeOp a b l (Kth.heapSelect l a b r)) := by
  constructor
  · intro k
    by_cases hg : k < 1 ∨ (l.length : Int) < k
    · rw [Kth.FloydRivestFunc_noop hg]
      exact fun h => Res.noConfusion h
    · obtain ⟨l', g1, g2, g3, g4⟩ := Kth.FloydRivestFunc_spec hnar
        (show (1 : Int) ≤ k by omega) (show k ≤ (l.length : Int) by omega)
      rw [g1]
      exact fun h => Res.noConfusion h
  · intro a b r hr hb
    exact (Kth.heapSelect_spec hr hb).1

theorem claim_C8_witness :
    Kth.FloydRivestFunc (fun x y => decide (x < y))
      (fun _ _ _ => ((0 : Int), (0 : Int))) ([2, 1] : List Int) 1 ≠ .oob :=
  (claim_C8 (fun _ _ _ => ((0 : Int), (0 : Int))) [2, 1]
    (by intro L R q g1 g2 g3 g4 g5; simp at g4; exfalso; omega)).1 1

theorem claim_C8_counterexample :
    Kth.FloydRivestFunc (fun _ _ => true) (fun _ _ _ => ((0 : Int), (0 : Int)))
      ([5, 7] : List Int) 1 = .oob := by
  decide

/-- C9: running the same selector a second time with the same valid `k`
is a no-op in value: the second output is a permutation of the first and
agrees with it at position `k-1` (for FloydRivest, whenever the runs
return `.ok`, which they do under the narrowing-shrink hypothesis). -/
theorem claim_C9 {α : Type} [LinearOrder α] [Inhabited α]
    (narrow : Int → Int → Int → Int × Int) (l : List α) (k : Int)
    (hnar : Kth.narrowOk narrow l.length) (h1 : 1 ≤ k) (h2 : k ≤ (l.length : Int)) :
    ((Kth.PDQSelect (Kth.PDQSelect l k) k).Perm (Kth.PDQSelect l k) ∧
      Kth.nth (Kth.PDQSelect (Kth.PDQSelect l k) k) (k - 1).toNat =
        Kth.nth (Kth.PDQSelect l k) (k - 1).toNat) ∧
    (∃ S1 S2, Kth.FloydRivest narrow l k = .ok S1 ∧
      Kth.FloydRivest narrow S1 k = .ok S2 ∧ S2.Perm S1 ∧
      Kth.nth S2 (k - 1).toNat = Kth.nth S1 (k - 1).toNat) := by
  constructor
  · obtain ⟨hP1, hP2, hP3⟩ := Kth.PDQSelect_spec h1 h2
    have hlen : (Kth.PDQSelect l k).length = l.length := hP1.length_eq
    obtain ⟨hQ1, hQ2, hQ3⟩ := Kth.PDQSelect_spec (l := Kth.PDQSelect l k)
      h1 (by rw [hlen]; exact h2)
    refine ⟨hQ1, ?_⟩
    rw [hQ2, Kth.sortL_congr hP1, ← hP2]
  · simp only [Kth.FloydRivest]
    obtain ⟨S1, g1, g2, g3, g4⟩ := Kth.FloydRivestFunc_spec hnar h1 h2
    have hnar1 : Kth.narrowOk narrow S1.length := by rw [g2]; exact hnar
    obtain ⟨S2, f1, f2, f3, f4⟩ := Kth.FloydRivestFunc_spec hnar1 h1 (by rw [g2]; exact h2)
    refine ⟨S1, S2, g1, f1, f3, ?_⟩
    have hb1 := Kth.selAt_block g3 (by rw [g2]; omega) g4
    have hb2 := Kth.selAt_block f3 (by rw [f2, g2]; omega) f4
    rw [hb2.1, Kth.sortL_congr g3, ← hb1.1]

theorem claim_C9_witness :
    Kth.nth (Kth.PDQSelect (Kth.PDQSelect ([2, 1] : List Int) 1) 1) 0 =
      Kth.nth (Kth.PDQSelect ([2, 1] : List Int) 1) 0 :=
  (claim_C9 (fun _ _ _ => ((0 : Int), (0 : Int))) [2, 1] 1
    (by intro L R q g1 g2 g3 g4 g5; simp at g4; exfalso; omega)
    (by decide) (by decide)).1.2

/-- C10: the two PDQ selection drivers agree at the interface: for every
valid `k`, `Select` from `src/pdqselect.go` and `PDQSelect` from the kth
package agree at position `k-1` and their first `k` positions hold the
same multiset — the `k` smallest items of the input. -/
theorem claim_C10 {α : Type} [LinearOrder α] [Inhabited α] (l : List α) (k : Int)
    (h1 : 1 ≤ k) (h2 : k ≤ (l.length : Int)) :
    Kth.nth (Kth.PDQSelect l k) (k - 1).toNat = Kth.nth (Pdq.Select l k) (k - 1).toNat ∧
    ((Kth.PDQSelect l k).take ((k - 1).toNat + 1)).Perm
      ((Pdq.Select l k).take ((k - 1).toNat + 1)) ∧
    ((Kth.PDQSelect l k).take ((k - 1).toNat + 1)).Perm
      ((Kth.sortL l).take ((k - 1).toNat + 1)) := by
  obtain ⟨hP1, hP2, hP3⟩ := Kth.PDQSelect_spec h1 h2
  obtain ⟨hQ1, hQ2, hQ3⟩ := pdqGo_Select_spec h1 h2
  exact ⟨by rw [hP2, hQ2], hP3.trans hQ3.symm, hP3⟩

theorem claim_C10_witness :
    Kth.nth (Kth.PDQSelect ([2, 1] : List Int) 1) 0 =
      Kth.nth (Pdq.Select ([2, 1] : List Int) 1) 0 :=
  (claim_C10 [2, 1] 1 (by decide) (by decide)).1
